import Mathlib

/-!
A shallow embedding of the Datalog engine (datalog.go, engine half, together
with the equality primitive of the dlprim package).

Modelling conventions:
* Go object identity (pointer equality of variables, constants and predicate
  symbols) is modelled by a stable numeric identifier: `Term.var v` carries the
  variable's `vID`, `Term.const c` carries the constant's `cID`, and a
  predicate carries its `pID` together with its arity.
* Go maps used as environments are modelled as association lists whose keys
  are never overwritten (the engine only binds unbound variables); new
  bindings are appended at the end.
* Fresh variable allocation (`&DistinctVar{}`) is modelled by an explicit
  counter threaded through the functions that allocate; the counter plays the
  role of the Go allocator, which guarantees that a fresh variable differs
  from every live variable.
* A Go `panic` is modelled as an `Option`/error result.
-/

namespace Dlog

/-- A term is a constant or a variable; both are identified by a stable
numeric id (`cID` / `vID` in the source). -/
inductive Term where
  | const (cid : Nat)
  | var (vid : Nat)
deriving DecidableEq

/-- A predicate symbol: its `pID` and its arity.  In the source the arity is
stored in the embedded `DistinctPred` and the `pID` is the object address;
a given `pID` belongs to a single live object, hence determines the arity. -/
structure Pred where
  pid : Nat
  arity : Nat
deriving DecidableEq

/-- `Literal` from the source: a predicate applied to a list of terms. -/
structure Literal where
  pred : Pred
  args : List Term
deriving DecidableEq

/-- `Clause` from the source: a head literal and a list of body literals. -/
structure Clause where
  head : Literal
  body : List Literal
deriving DecidableEq

/-- `NewLiteral` checks that the argument count matches the predicate arity;
on mismatch the source panics ("datalog: arity mismatch"), modelled here as
`none`. -/
def NewLiteral (p : Pred) (args : List Term) : Option Literal :=
  if p.arity = args.length then some ⟨p, args⟩ else none

/-! ### Tag strings

`Literal.tagf` writes `hex(pID)` followed by `,hex(cID)` for each constant
argument and `,v<num>` for each variable argument, numbering variables in
first-occurrence order through the shared `varNum` map.  We model the
`varNum` map as the list of variable ids in first-occurrence order (the
number assigned to a variable is its index in that list, which is exactly
`len(varNum)` at insertion time). -/

/-- Go's `%x` of a natural number: lowercase hex digits, `"0"` for zero. -/
def hexChars (n : Nat) : List Char :=
  if n = 0 then ['0'] else ((Nat.digits 16 n).map Nat.digitChar).reverse

/-- Go's `%d` of a natural number. -/
def decChars (n : Nat) : List Char :=
  if n = 0 then ['0'] else ((Nat.digits 10 n).map Nat.digitChar).reverse

/-- One printed argument of a tag: a constant id, or a variable number. -/
inductive Tok where
  | tc (cid : Nat)
  | tv (num : Nat)
deriving DecidableEq

/-- The characters a token contributes to the tag (without the leading comma). -/
def tokChars : Tok → List Char
  | .tc c => hexChars c
  | .tv i => 'v' :: decChars i

/-- Index of a variable id in the `varNum` list, if present. -/
def seenIdx (v : Nat) : List Nat → Option Nat
  | [] => none
  | w :: rest => if w = v then some 0 else (seenIdx v rest).map (· + 1)

/-- The token stream of `tagf` over an argument list, threading the shared
`varNum` state; returns the tokens and the final `varNum` list. -/
def tagArgs : List Term → List Nat → List Tok × List Nat
  | [], seen => ([], seen)
  | .const c :: rest, seen =>
    let p := tagArgs rest seen
    (.tc c :: p.1, p.2)
  | .var v :: rest, seen =>
    match seenIdx v seen with
    | some i =>
      let p := tagArgs rest seen
      (.tv i :: p.1, p.2)
    | none =>
      let p := tagArgs rest (seen ++ [v])
      (.tv seen.length :: p.1, p.2)

/-- `Literal.tagf`: the characters written for one literal, threading the
`varNum` state. -/
def tagChars (l : Literal) (seen : List Nat) : List Char × List Nat :=
  let p := tagArgs l.args seen
  (hexChars l.pred.pid ++ (p.1.map fun t => ',' :: tokChars t).flatten, p.2)

/-- `Literal.tag`: the variant tag of a literal (fresh `varNum` map). -/
def Literal.tag (l : Literal) : String :=
  ⟨(tagChars l []).1⟩

/-- `Clause.tag`: head and body tags concatenated under a shared `varNum`
map, with no separator between literals. -/
def Clause.tag (c : Clause) : String :=
  ⟨((c.head :: c.body).foldl (fun acc lit =>
      let p := tagChars lit acc.2
      (acc.1 ++ p.1, p.2)) (([] : List Char), ([] : List Nat))).1⟩

/-- The token stream of `tagf` with a nil `varNum` map: constants print their
id, but the variable branch panics ("datalog: doesn't happen?"), modelled as
`none`. -/
def idArgs : List Term → Option (List Tok)
  | [] => some []
  | .const c :: rest => (idArgs rest).map (Tok.tc c :: ·)
  | .var _ :: _ => none

/-- `Literal.lID`: the identity tag; `none` models the panic taken when the
literal contains a variable. -/
def Literal.lID (l : Literal) : Option String :=
  (idArgs l.args).map fun ts =>
    ⟨hexChars l.pred.pid ++ (ts.map fun t => ',' :: tokChars t).flatten⟩

/-! ### Environments, substitution, unification -/

/-- `env` from the source: a map from variables to terms, modelled as an
association list with unique keys, new bindings appended at the end. -/
abbrev Env := List (Nat × Term)

/-- Lookup in an environment (first matching key). -/
def envLookup : Env → Nat → Option Term
  | [], _ => none
  | (k, t) :: rest, v => if k = v then some t else envLookup rest v

/-- `chase` with explicit fuel: the source recursion terminates because the
unifier never creates a cyclic environment; with fuel `e.length + 1` the
fuelled version agrees with the source on every acyclic environment. -/
def chaseN : Nat → Env → Term → Term
  | 0, _, t => t
  | _ + 1, _, .const c => .const c
  | n + 1, e, .var v =>
    match envLookup e v with
    | some t => chaseN n e t
    | none => .var v

/-- `Term.chase`: follow variable bindings until a constant or an unbound
variable is reached. -/
def chase (e : Env) (t : Term) : Term :=
  chaseN (e.length + 1) e t

/-- `Literal.subst`: replace each variable argument bound in the environment
by its binding (a single pass, no chasing); the source returns the literal
itself when the environment or the argument list is empty. -/
def Literal.subst (l : Literal) (e : Env) : Literal :=
  if e.isEmpty || l.args.isEmpty then l
  else ⟨l.pred, l.args.map fun t =>
    match t with
    | .const c => .const c
    | .var v =>
      match envLookup e v with
      | some t' => t'
      | none => .var v⟩

/-- `Literal.shuffle` with the explicit allocation counter: extend the
environment with a fresh variable for each unbound variable argument. -/
def Literal.shuffleC (l : Literal) (e : Env) (ctr : Nat) : Env × Nat :=
  l.args.foldl (fun acc t =>
    match t with
    | .const _ => acc
    | .var v =>
      match envLookup acc.1 v with
      | some _ => acc
      | none => (acc.1 ++ [(v, .var acc.2)], acc.2 + 1)) (e, ctr)

/-- `Literal.rename`: substitute through a shuffle of a fresh environment. -/
def Literal.renameL (l : Literal) (ctr : Nat) : Literal × Nat :=
  let p := l.shuffleC [] ctr
  (l.subst p.1, p.2)

/-- One step of term unification, as in the source's double dispatch:
two constants fail (they are distinct when this is reached), a variable is
bound to the other constant, and for two variables the left variable is bound
to the right one (`e[v2] = v`). -/
def unifyTerm : Term → Term → Env → Option Env
  | .const _, .const _, _ => none
  | .const c, .var v, e => some (e ++ [(v, .const c)])
  | .var v, .const c, e => some (e ++ [(v, .const c)])
  | .var a, .var b, e => some (e ++ [(a, .var b)])

/-- The argument loop of `unify`: chase both sides, skip if identical,
otherwise dispatch to `unifyTerm`.  The source iterates over `a`'s arguments
and indexes into `b`'s, so surplus arguments of `b` are ignored and a shorter
`b` would panic (modelled as `none`; unreachable for well-formed literals
since `unify` first requires the predicates to be equal). -/
def unifyArgs : List Term → List Term → Env → Option Env
  | [], _, e => some e
  | _ :: _, [], _ => none
  | a :: as', b :: bs, e =>
    let ai := chase e a
    let bi := chase e b
    if ai = bi then unifyArgs as' bs e
    else
      match unifyTerm ai bi e with
      | none => none
      | some e' => unifyArgs as' bs e'

/-- `unify`: fail on different predicates, else run the argument loop on a
fresh environment. -/
def unify (a b : Literal) : Option Env :=
  if a.pred = b.pred then unifyArgs a.args b.args [] else none

/-- `Clause.drop`: drop `d` leading body literals and substitute the
environment into the head and the remaining body. -/
def Clause.drop (c : Clause) (d : Nat) (e : Env) : Clause :=
  ⟨c.head.subst e, (c.body.drop d).map (·.subst e)⟩

/-- `Clause.subst`: the source returns the clause itself on an empty
environment, else applies `drop 0`. -/
def Clause.subst (c : Clause) (e : Env) : Clause :=
  if e.isEmpty then c else c.drop 0 e

/-- `Clause.rename` with the explicit allocation counter: shuffle over all
body literals (head variables are covered for safe clauses), then
substitute. -/
def Clause.renameC (c : Clause) (ctr : Nat) : Clause × Nat :=
  let p := c.body.foldl (fun acc lit => lit.shuffleC acc.1 acc.2)
    (([] : Env), ctr)
  (c.subst p.1, p.2)

/-- `Literal.hasVar`: whether the variable occurs among the arguments. -/
def Literal.hasVar (l : Literal) (v : Nat) : Bool :=
  l.args.any (· == Term.var v)

/-- `Clause.Safe`: every variable of the head occurs in some body literal. -/
def Clause.safeB (c : Clause) : Bool :=
  c.head.args.all fun t =>
    match t with
    | .const _ => true
    | .var v => c.body.any (·.hasVar v)

/-! ### The database -/

/-- Errors surfaced by the mutation operations. -/
inductive DlogError where
  | unsafeClause
  | notDatabase
  | noSuchClause
deriving DecidableEq

/-- The store of database predicates: which predicate ids are database
predicates (the Go type assertion `.(dbPred)`), and each database predicate's
clause list (the `database` field of its `DBPred` object). -/
structure World where
  isDB : Nat → Bool
  db : Nat → List Clause

/-- Replace the clause list of one predicate id (mutation of that predicate
object's `database` field). -/
def World.setDB (w : World) (p : Nat) (cs : List Clause) : World :=
  ⟨w.isDB, fun q => if q = p then cs else w.db q⟩

/-- `Clause.Assert`: reject unsafe clauses, then reject primitive head
predicates, then append the clause to its head predicate's database.
The second component is the returned error, `none` on success. -/
def Clause.assert (c : Clause) (w : World) : World × Option DlogError :=
  if ¬ c.safeB then (w, some .unsafeClause)
  else if ¬ w.isDB c.head.pred.pid then (w, some .notDatabase)
  else (w.setDB c.head.pred.pid (w.db c.head.pred.pid ++ [c]), none)

/-- The removal loop of `Clause.Retract`: starting from index `i`, whenever
the clause at `i` has the sought tag, overwrite it with the last element,
truncate, and re-examine index `i`; otherwise advance. -/
def retractLoop (tg : String) (db : List Clause) (i : Nat) : List Clause :=
  if h : i < db.length then
    if (db.get ⟨i, h⟩).tag = tg then
      retractLoop tg ((db.set i (db.getLast (by
        intro hnil; rw [hnil] at h; simp at h))).dropLast) i
    else
      retractLoop tg db (i + 1)
  else db
termination_by db.length - i
decreasing_by
  · simp only [List.length_dropLast, List.length_set]
    omega
  · omega

/-- `Clause.Retract`: reject primitive head predicates, else remove every
clause of the head predicate's database whose clause tag equals this
clause's tag. -/
def Clause.retract (c : Clause) (w : World) : World × Option DlogError :=
  if ¬ w.isDB c.head.pred.pid then (w, some .notDatabase)
  else (w.setDB c.head.pred.pid (retractLoop c.tag (w.db c.head.pred.pid) 0),
        none)

/-! ### The equality primitive (package dlprim) -/

/-- Whether a term is a variable. -/
def Term.isVariable : Term → Bool
  | .var _ => true
  | .const _ => false

/-- Whether a term is a constant. -/
def Term.isConstant : Term → Bool
  | .var _ => false
  | .const _ => true

/-- The `=` predicate of the dlprim package: a primitive of arity 2.
Its `pID` is an arbitrary fixed identifier. -/
def eqPred : Pred := ⟨0, 2⟩

/-- `eqPrim.Search`: the clauses emitted for a target `=(a, b)`, in emission
order.  The source reads `Arg[0]` and `Arg[1]`; a target of smaller arity
would panic (unreachable, since the engine only passes literals of the
predicate's arity). -/
def eqSearch (target : Literal) : List Clause :=
  match target.args with
  | a :: b :: _ =>
    if a.isVariable && b.isConstant then [⟨⟨eqPred, [b, b]⟩, []⟩]
    else if a.isConstant && b.isVariable then [⟨⟨eqPred, [a, a]⟩, []⟩]
    else if a.isConstant && b.isConstant && a == b then [⟨target, []⟩]
    else []
  | _ => []

/-! ### Semantic notions used to state the claims -/

/-- Well-formedness of a literal: the argument count matches the predicate's
arity (guaranteed by `NewLiteral`). -/
def Literal.wf (l : Literal) : Prop :=
  l.args.length = l.pred.arity

/-- A literal is ground when all of its arguments are constants. -/
def Literal.groundB (l : Literal) : Bool :=
  l.args.all Term.isConstant

/-- The safety condition in the words of the specification: every variable
occurring in the head also occurs in some body literal. -/
def SafeProp (c : Clause) : Prop :=
  ∀ v, Term.var v ∈ c.head.args → ∃ b ∈ c.body, Term.var v ∈ b.args

/-- Application of a total substitution to a term. -/
def applyTT (σ : Nat → Term) : Term → Term
  | .const c => .const c
  | .var v => σ v

/-- Application of a total substitution to a literal. -/
def applyT (σ : Nat → Term) (l : Literal) : Literal :=
  ⟨l.pred, l.args.map (applyTT σ)⟩

/-- Substitution that dereferences each argument through the environment
until a constant or an unbound variable is reached (`subst` iterated to
fixpoint). -/
def Literal.substChase (l : Literal) (e : Env) : Literal :=
  ⟨l.pred, l.args.map (chase e)⟩

/-- The chain relation of `chase`: `Chases e t u` holds when following the
environment from `t` terminates in `u` (a constant or an unbound
variable). -/
inductive Chases (e : Env) : Term → Term → Prop where
  | const (c : Nat) : Chases e (.const c) (.const c)
  | unbound (v : Nat) : envLookup e v = none → Chases e (.var v) (.var v)
  | step (v : Nat) (t u : Term) : envLookup e v = some t → Chases e t u →
      Chases e (.var v) u

/-- The environments produced by the unifier: keys are distinct, and a
binding whose target is itself a key points to a later binding, so chains
strictly advance and cannot loop. -/
def EnvOk (e : Env) : Prop :=
  (e.map Prod.fst).Nodup ∧
  ∀ v w, (v, Term.var w) ∈ e →
    ∀ j, seenIdx w (e.map Prod.fst) = some j →
      ∃ i, seenIdx v (e.map Prod.fst) = some i ∧ i < j

/-- A total substitution is consistent with an environment when it agrees
with every binding. -/
def Respects (σ : Nat → Term) (e : Env) : Prop :=
  ∀ v t, (v, t) ∈ e → σ v = applyTT σ t

/-- Renaming of the variables of a term by `ρ`. -/
def Term.mapVar (ρ : Nat → Nat) : Term → Term
  | .const c => .const c
  | .var v => .var (ρ v)

/-- Renaming of the variables of a literal by `ρ`. -/
def Literal.mapVar (l : Literal) (ρ : Nat → Nat) : Literal :=
  ⟨l.pred, l.args.map (Term.mapVar ρ)⟩

/-- The set of variable ids occurring in a literal. -/
def Literal.varSet (l : Literal) : Set Nat :=
  {v | Term.var v ∈ l.args}

/-- The characters contributed by a token list to a tag: a comma before
each token. -/
def tagBody (ts : List Tok) : List Char :=
  (ts.map fun t => ',' :: tokChars t).flatten

/-- An upper bound on the number of environment steps a chase starting at
`t` can take: the chain strictly advances through the key list. -/
def varMeasure (e : Env) (t : Term) : Nat :=
  match t with
  | .const _ => 0
  | .var v =>
    match seenIdx v (e.map Prod.fst) with
    | none => 0
    | some i => e.length - i

/-! ### The prover

The query engine is a set of mutually recursive procedures over a mutable
table of subgoals.  We model the table as an association list keyed by the
subgoal target's variant tag (Go holds `*subgoal` pointers; a subgoal is
created at most once per tag, so the tag identifies the subgoal), thread the
fresh-variable counter explicitly, and give every procedure a fuel
parameter; `.out` means the fuel ran out, `.halted` models a Go panic.
Go's map iteration order is unspecified; the model fixes insertion order,
a deterministic refinement that the claims (sets of answers, termination,
groundness) do not distinguish. -/

/-- A waiter: the waiting subgoal (by its target's tag) and the pending
rule. -/
structure Waiter where
  sgTag : String
  rule : Clause
deriving DecidableEq

/-- A subgoal: target, discovered facts keyed by identity tag (insertion
order), and waiters. -/
structure Subgoal where
  target : Literal
  facts : List (String × Literal)
  waiters : List Waiter
deriving DecidableEq

/-- Per-query state: the subgoal table and the allocation counter. -/
structure QState where
  table : List (String × Subgoal)
  ctr : Nat
deriving DecidableEq

/-- Table lookup by tag. -/
def tableFind (t : List (String × Subgoal)) (k : String) : Option Subgoal :=
  match t.find? (fun kv => kv.1 = k) with
  | some kv => some kv.2
  | none => none

/-- Replace the subgoal stored under an existing tag. -/
def tableSet (t : List (String × Subgoal)) (k : String) (sg : Subgoal) :
    List (String × Subgoal) :=
  t.map fun kv => if kv.1 = k then (kv.1, sg) else kv

/-- Go map assignment: overwrite an existing entry, else add one. -/
def tableInsert (t : List (String × Subgoal)) (k : String) (sg : Subgoal) :
    List (String × Subgoal) :=
  if t.any (fun kv => kv.1 = k) then tableSet t k sg else t ++ [(k, sg)]

/-- Result of a fuelled prover step: fuel ran out, the source panicked, or
a value. -/
inductive PRes (α : Type) where
  | out
  | halted
  | ok (a : α)
deriving DecidableEq

/-- `resolve`: unify the rule's first body literal with the (renamed) fact
and drop it on success; `none` models the panic on an empty body. -/
def resolveC (rule : Clause) (fact : Literal) (ctr : Nat) :
    Option (Option Clause × Nat) :=
  match rule.body with
  | [] => none
  | b0 :: _ =>
    let p := fact.renameL ctr
    match unify b0 p.1 with
    | none => some (none, p.2)
    | some e => some (some (rule.drop 1 e), p.2)

/-- The simplified rules obtained by resolving a rule against each already
known fact of a subgoal (the catch-up pass of `discoveredRule`). -/
def collectResolved (rule : Clause) : List (String × Literal) → Nat →
    Option (List Clause × Nat)
  | [], ctr => some ([], ctr)
  | kv :: rest, ctr =>
    match resolveC rule kv.2 ctr with
    | none => none
    | some (none, ctr2) => collectResolved rule rest ctr2
    | some (some r, ctr2) =>
      match collectResolved rule rest ctr2 with
      | none => none
      | some (rs, ctr3) => some (r :: rs, ctr3)

mutual

/-- `query.search`: create the subgoal, register it in the table, then try
every database clause of the target's predicate (primitives panic: "not yet
implemented"). -/
def searchF (w : World) : Nat → QState → Literal → List Waiter → PRes QState
  | 0, _, _, _ => .out
  | n + 1, s, target, ws =>
    let s1 : QState :=
      ⟨tableInsert s.table target.tag ⟨target, [], ws⟩, s.ctr⟩
    if w.isDB target.pred.pid then
      clauseLoop w n s1 target (w.db target.pred.pid)
    else .halted

/-- The clause iteration of `search`: rename, unify with the target, and
process each discovery. -/
def clauseLoop (w : World) : Nat → QState → Literal → List Clause →
    PRes QState
  | 0, _, _, _ => .out
  | _ + 1, s, _, [] => .ok s
  | n + 1, s, target, c :: rest =>
    let p := c.renameC s.ctr
    match unify target p.1.head with
    | none => clauseLoop w n ⟨s.table, p.2⟩ target rest
    | some e =>
      match discoveredF w n ⟨s.table, p.2⟩ target.tag (p.1.subst e) with
      | .ok s2 => clauseLoop w n s2 target rest
      | r => r

/-- `query.discovered`: dispatch on whether the clause is a fact or a
rule. -/
def discoveredF (w : World) : Nat → QState → String → Clause → PRes QState
  | 0, _, _, _ => .out
  | n + 1, s, sgTag, c =>
    if c.body.isEmpty then discoveredFactF w n s sgTag c.head
    else discoveredRuleF w n s sgTag c

/-- `query.discoveredRule`: spawn a subgoal for the first body literal, or
register a waiter on the existing one and catch up on its known facts. -/
def discoveredRuleF (w : World) : Nat → QState → String → Clause →
    PRes QState
  | 0, _, _, _ => .out
  | n + 1, s, ruleTag, rule =>
    match rule.body with
    | [] => .halted
    | b0 :: _ =>
      match tableFind s.table b0.tag with
      | none => searchF w n s b0 [⟨ruleTag, rule⟩]
      | some bodysg =>
        let t1 := tableSet s.table b0.tag
          ⟨bodysg.target, bodysg.facts,
            bodysg.waiters ++ [⟨ruleTag, rule⟩]⟩
        match collectResolved rule bodysg.facts s.ctr with
        | none => .halted
        | some (rs, ctr2) => rulesLoop w n ⟨t1, ctr2⟩ ruleTag rs

/-- `query.discoveredFact`: record the fact under its identity tag unless
already known, then notify the waiters registered at that moment. -/
def discoveredFactF (w : World) : Nat → QState → String → Literal →
    PRes QState
  | 0, _, _, _ => .out
  | n + 1, s, factTag, fact =>
    match tableFind s.table factTag with
    | none => .halted
    | some sg =>
      match fact.lID with
      | none => .halted
      | some fid =>
        if sg.facts.any (fun kv => kv.1 = fid) then .ok s
        else
          let t1 := tableSet s.table factTag
            ⟨sg.target, sg.facts ++ [(fid, fact)], sg.waiters⟩
          waitersLoop w n ⟨t1, s.ctr⟩ sg.waiters fact

/-- Processing of the catch-up rules of `discoveredRule`. -/
def rulesLoop (w : World) : Nat → QState → String → List Clause →
    PRes QState
  | 0, _, _, _ => .out
  | _ + 1, s, _, [] => .ok s
  | n + 1, s, ruleTag, r :: rest =>
    match discoveredF w n s ruleTag r with
    | .ok s2 => rulesLoop w n s2 ruleTag rest
    | r2 => r2

/-- The waiter-notification loop of `discoveredFact`. -/
def waitersLoop (w : World) : Nat → QState → List Waiter → Literal →
    PRes QState
  | 0, _, _, _ => .out
  | _ + 1, s, [], _ => .ok s
  | n + 1, s, wt :: rest, fact =>
    match resolveC wt.rule fact s.ctr with
    | none => .halted
    | some (none, ctr2) => waitersLoop w n ⟨s.table, ctr2⟩ rest fact
    | some (some r, ctr2) =>
      match discoveredF w n ⟨s.table, ctr2⟩ wt.sgTag r with
      | .ok s2 => waitersLoop w n s2 rest fact
      | r2 => r2

end

/-- `Literal.Query`: run `search` on a fresh table and return the root
subgoal's facts.  `ctr0` seeds the fresh-variable allocator (the Go
allocator guarantees fresh variables differ from all live ones, which the
theorems state as a bound on the variable ids in use). -/
def QueryF (w : World) (fuel : Nat) (l : Literal) (ctr0 : Nat) :
    PRes (List Literal) :=
  match searchF w fuel ⟨[], ctr0⟩ l [] with
  | .out => .out
  | .halted => .halted
  | .ok s =>
    match tableFind s.table l.tag with
    | none => .halted
    | some sg => .ok (sg.facts.map Prod.snd)

/-- A single-pass term substitution (the inner step of `Literal.subst`). -/
def substT (e : Env) : Term → Term
  | .const c => .const c
  | .var v =>
    match envLookup e v with
    | some t' => t'
    | none => .var v

/-- Safety of every clause list in the store. -/
def WorldSafe (w : World) : Prop :=
  ∀ p, ∀ c ∈ w.db p, SafeProp c

/-- Every predicate id is a database predicate (the engine panics on any
other: primitives are "not yet implemented" in this version). -/
def WorldAllDB (w : World) : Prop :=
  ∀ p, w.isDB p = true

/-- A tag is a key of the table. -/
def keyIn (t : List (String × Subgoal)) (k : String) : Prop :=
  ∃ e ∈ t, e.1 = k

/-- The state invariant for the groundness/no-panic argument: stored facts
are ground and correctly keyed, and waiters hold safe nonempty-bodied rules
whose subgoal tag is present. -/
def StateInv (s : QState) : Prop :=
  ∀ kv ∈ s.table,
    (∀ fv ∈ kv.2.facts, fv.2.groundB = true ∧ fv.2.lID = some fv.1) ∧
    (∀ wt ∈ kv.2.waiters, wt.rule.body ≠ [] ∧ SafeProp wt.rule ∧
      keyIn s.table wt.sgTag)

/-- The waiter-list precondition of the prover procedures: every pending
rule has a nonempty body, is safe, and waits on a registered subgoal. -/
def WaitersOK (t : List (String × Subgoal)) (ws : List Waiter) : Prop :=
  ∀ wt ∈ ws, wt.rule.body ≠ [] ∧ SafeProp wt.rule ∧ keyIn t wt.sgTag

/-- Postcondition of a prover step relative to a table `t`: the step does
not panic, and on normal completion the state invariant holds and every key
of `t` is still registered. -/
def ProverPost (t : List (String × Subgoal)) (r : PRes QState) : Prop :=
  r ≠ .halted ∧ ∀ s', r = .ok s' →
    StateInv s' ∧ ∀ k, keyIn t k → keyIn s'.table k

/-! ### Finite-universe data for the termination argument

The Go database is built by finitely many `Assert`s, so only finitely many
predicates have clauses; `ps` lists them.  All constants, predicates and
arities that can ever circulate during a query are then drawn from the
clauses of `ps` and the query literal, which yields finite universes for
the subgoal variant tags and for the ground facts a subgoal can store. -/

/-- The constant ids of a term. -/
def tconsts : Term → List Nat
  | .const c => [c]
  | .var _ => []

/-- The constant ids of a literal. -/
def LConsts (l : Literal) : List Nat :=
  l.args.flatMap tconsts

/-- The constant ids of a clause. -/
def CConsts (c : Clause) : List Nat :=
  LConsts c.head ++ c.body.flatMap LConsts

/-- The constant ids bound in an environment. -/
def EnvConsts (e : Env) : List Nat :=
  e.flatMap (fun vt => tconsts vt.2)

/-- All clauses stored under the support predicates. -/
def allClauses (w : World) (ps : List Nat) : List Clause :=
  ps.flatMap (fun p => w.db p)

/-- The constant universe of a run: constants of the stored clauses and of
the query literal. -/
def ConstU (w : World) (ps : List Nat) (q : Literal) : List Nat :=
  (allClauses w ps).flatMap CConsts ++ LConsts q

/-- The (predicate, arity) slots a subgoal target can have: the query's
slot and the slots of all body literals of stored clauses. -/
def slots (w : World) (ps : List Nat) (q : Literal) : List (Pred × Nat) :=
  (q.pred, q.args.length) ::
    (allClauses w ps).flatMap (fun c => c.body.map fun b =>
      (b.pred, b.args.length))

/-- The (predicate, arity) slots a discovered fact can have: the head slots
of stored clauses. -/
def headSlots (w : World) (ps : List Nat) : List (Pred × Nat) :=
  (allClauses w ps).map (fun c => (c.head.pred, c.head.args.length))

/-- The longest body among the stored clauses. -/
def maxB (w : World) (ps : List Nat) : Nat :=
  ((allClauses w ps).map (fun c => c.body.length)).foldr max 0

/-- All argument lists of the given length over a pool of terms. -/
def argLists (pool : List Term) : Nat → List (List Term)
  | 0 => [[]]
  | n + 1 => pool.flatMap (fun t => (argLists pool n).map (t :: ·))

/-- Canonically numbered variables. -/
def varPool (n : Nat) : List Term :=
  (List.range n).map Term.var

/-- The (finite) universe of facts a subgoal can record: ground literals
with a stored head slot and constants from the constant universe. -/
def FactU (w : World) (ps : List Nat) (q : Literal) : List Literal :=
  (headSlots w ps).flatMap (fun sl =>
    (argLists ((ConstU w ps q).map Term.const) sl.2).map (fun args =>
      (⟨sl.1, args⟩ : Literal)))

/-- The (finite) universe of subgoal variant tags: tags of literals with a
target slot whose arguments are universe constants or canonically numbered
variables. -/
def TagU (w : World) (ps : List Nat) (q : Literal) : List String :=
  (slots w ps q).flatMap (fun sl =>
    (argLists ((ConstU w ps q).map Term.const ++ varPool sl.2) sl.2).map
      (fun args => Literal.tag ⟨sl.1, args⟩))

/-- The table potential: an uncreated tag is worth one more than the fact
capacity, a created subgoal is worth its remaining fact capacity.  Creating
a subgoal or recording a fact strictly decreases the potential. -/
def phi (w : World) (ps : List Nat) (q : Literal) (s : QState) : Nat :=
  ((TagU w ps q).dedup.map (fun τ =>
    match tableFind s.table τ with
    | none => (FactU w ps q).length + 1
    | some sg => (FactU w ps q).length - sg.facts.length)).sum

/-- The shape invariant of a circulating clause: its head has a stored head
slot, its body literals have target slots, its body is no longer than any
stored body, and its constants are universe constants. -/
def ClauseOK (w : World) (ps : List Nat) (q : Literal) (c : Clause) : Prop :=
  (∃ c0 ∈ allClauses w ps, c.head.pred = c0.head.pred ∧
    c.head.args.length = c0.head.args.length) ∧
  (∀ b ∈ c.body, (b.pred, b.args.length) ∈ slots w ps q) ∧
  c.body.length ≤ maxB w ps ∧
  (∀ x ∈ CConsts c, x ∈ ConstU w ps q)

/-- The shape invariant of a subgoal target. -/
def TargetOK (w : World) (ps : List Nat) (q : Literal) (t : Literal) :
    Prop :=
  (t.pred, t.args.length) ∈ slots w ps q ∧
  ∀ x ∈ LConsts t, x ∈ ConstU w ps q

/-- The boundedness invariant of the table: keys are universe tags, stored
facts are distinct universe facts correctly keyed, and waiting rules keep
the clause shape invariant. -/
def BInv (w : World) (ps : List Nat) (q : Literal) (s : QState) : Prop :=
  ∀ kv ∈ s.table,
    kv.1 ∈ TagU w ps q ∧
    (kv.2.facts.map Prod.snd).Nodup ∧
    (∀ fv ∈ kv.2.facts, fv.2 ∈ FactU w ps q ∧ fv.2.lID = some fv.1) ∧
    (∀ wt ∈ kv.2.waiters, ClauseOK w ps q wt.rule)

/-- Termination of a fuelled run from state `s`: some fuel completes the
run (no `.out`), and a normal completion preserves the boundedness
invariant without increasing the potential. -/
def TermOK (w : World) (ps : List Nat) (q : Literal) (s : QState)
    (run : Nat → PRes QState) : Prop :=
  ∃ n, run n ≠ .out ∧ ∀ s', run n = .ok s' →
    BInv w ps q s' ∧ phi w ps q s' ≤ phi w ps q s

/-- The longest body among a list of clauses. -/
def bMax (rs : List Clause) : Nat :=
  (rs.map (fun r => r.body.length)).foldr max 0

/-- The longest pending-rule body among a list of waiters. -/
def wMax (ws : List Waiter) : Nat :=
  (ws.map (fun wt => wt.rule.body.length)).foldr max 0

/-- The termination statement at bound `N`: every prover procedure whose
flattened measure (potential times a constant, plus a rank determined by
pending body lengths) is below `N` admits a completing fuel. -/
def TermStmt (w : World) (ps : List Nat) (q : Literal) (N : Nat) : Prop :=
    (∀ target ws s, BInv w ps q s → TargetOK w ps q target →
      (∀ wt ∈ ws, ClauseOK w ps q wt.rule) → ¬ keyIn s.table target.tag →
      phi w ps q s * (3 * maxB w ps + 7) < N →
      TermOK w ps q s (fun n => searchF w n s target ws)) ∧
    (∀ target cs s, BInv w ps q s →
      (∀ x ∈ LConsts target, x ∈ ConstU w ps q) →
      (∀ c ∈ cs, c ∈ allClauses w ps) →
      phi w ps q s * (3 * maxB w ps + 7) + (3 * maxB w ps + 6) < N →
      TermOK w ps q s (fun n => clauseLoop w n s target cs)) ∧
    (∀ sgTag c s, BInv w ps q s → ClauseOK w ps q c →
      phi w ps q s * (3 * maxB w ps + 7) + (3 * c.body.length + 4) < N →
      TermOK w ps q s (fun n => discoveredF w n s sgTag c)) ∧
    (∀ sgTag c s, BInv w ps q s → ClauseOK w ps q c →
      phi w ps q s * (3 * maxB w ps + 7) + (3 * c.body.length + 3) < N →
      TermOK w ps q s (fun n => discoveredRuleF w n s sgTag c)) ∧
    (∀ sgTag fact s, BInv w ps q s →
      (fact.groundB = true → fact ∈ FactU w ps q) →
      phi w ps q s * (3 * maxB w ps + 7) < N →
      TermOK w ps q s (fun n => discoveredFactF w n s sgTag fact)) ∧
    (∀ sgTag rs s, BInv w ps q s → (∀ r ∈ rs, ClauseOK w ps q r) →
      phi w ps q s * (3 * maxB w ps + 7) + (3 * bMax rs + 5) < N →
      TermOK w ps q s (fun n => rulesLoop w n s sgTag rs)) ∧
    (∀ ws fact s, BInv w ps q s → (∀ wt ∈ ws, ClauseOK w ps q wt.rule) →
      fact.groundB = true → (∀ x ∈ LConsts fact, x ∈ ConstU w ps q) →
      phi w ps q s * (3 * maxB w ps + 7) + (3 * wMax ws + 5) < N →
      TermOK w ps q s (fun n => waitersLoop w n s ws fact))

/-! ## Theorems -/

theorem safeB_iff (c : Clause) : c.safeB = true ↔ SafeProp c := by
  unfold Clause.safeB SafeProp
  rw [List.all_eq_true]
  constructor
  · intro h v hv
    have h2 := h _ hv
    simp only [List.any_eq_true, Literal.hasVar, beq_iff_eq] at h2
    obtain ⟨b, hb, hb2⟩ := h2
    exact ⟨b, hb, by simpa using hb2⟩
  · intro h t ht
    cases t with
    | const c => simp
    | var v =>
      obtain ⟨b, hb, hv⟩ := h v ht
      simp only [List.any_eq_true, Literal.hasVar, beq_iff_eq]
      exact ⟨b, hb, by simpa using hv⟩

theorem db_setDB_self (w : World) (p : Nat) (cs : List Clause) :
    (w.setDB p cs).db p = cs := by
  simp [World.setDB]

theorem db_setDB_other (w : World) (p q : Nat) (cs : List Clause)
    (hq : q ≠ p) : (w.setDB p cs).db q = w.db q := by
  simp [World.setDB, hq]

/-- C4: `Assert` fails with the unsafe-clause error when some head variable
does not occur in the body, fails with the not-a-database-predicate error
when (the clause is safe and) its head predicate is primitive, and otherwise
appends the clause — even a duplicate — to its head predicate's clause list,
leaving every other predicate untouched; on any error the database is
completely unchanged. -/
theorem claim_C4 (c : Clause) (w : World) :
    (¬ SafeProp c → c.assert w = (w, some .unsafeClause)) ∧
    (SafeProp c → w.isDB c.head.pred.pid = false →
      c.assert w = (w, some .notDatabase)) ∧
    (SafeProp c → w.isDB c.head.pred.pid = true →
      (c.assert w).2 = none ∧
      (c.assert w).1.db c.head.pred.pid = w.db c.head.pred.pid ++ [c] ∧
      (∀ q, q ≠ c.head.pred.pid → (c.assert w).1.db q = w.db q) ∧
      (c.assert w).1.isDB = w.isDB) := by
  refine ⟨fun hs => ?_, fun hs hdb => ?_, fun hs hdb => ?_⟩
  · have : ¬ c.safeB = true := fun hb => hs ((safeB_iff c).mp hb)
    simp [Clause.assert, this]
  · have hb : c.safeB = true := (safeB_iff c).mpr hs
    simp [Clause.assert, hb, hdb]
  · have hb : c.safeB = true := (safeB_iff c).mpr hs
    refine ⟨by simp [Clause.assert, hb, hdb], ?_, fun q hq => ?_, ?_⟩
    · simp [Clause.assert, hb, hdb, db_setDB_self]
    · simp [Clause.assert, hb, hdb, db_setDB_other _ _ _ _ hq]
    · simp [Clause.assert, hb, hdb, World.setDB]

theorem claim_C4_witness :
    SafeProp ⟨⟨⟨1, 1⟩, [.const 5]⟩, []⟩ ∧
    (World.mk (fun _ => true) (fun _ => [])).isDB 1 = true ∧
    ((Clause.mk ⟨⟨1, 1⟩, [.const 5]⟩ []).assert
        (World.mk (fun _ => true) (fun _ => []))).2 = none := by
  have hs : SafeProp ⟨⟨⟨1, 1⟩, [.const 5]⟩, []⟩ := by
    intro v hv
    simp at hv
  exact ⟨hs, rfl, ((claim_C4 ⟨⟨⟨1, 1⟩, [.const 5]⟩, []⟩
    (World.mk (fun _ => true) (fun _ => []))).2.2 hs rfl).1⟩

theorem retractLoop_perm (tg : String) (db : List Clause) (i : Nat) :
    List.Perm (retractLoop tg db i)
      (db.take i ++ (db.drop i).filter (fun d => !(d.tag == tg))) := by
  by_cases h : i < db.length
  · have hne : db ≠ [] := by
      intro hnil; rw [hnil] at h; simp at h
    by_cases htag : db[i].tag = tg
    · rw [retractLoop, dif_pos h]
      simp only [List.get_eq_getElem]
      rw [if_pos htag]
      have hset : db.set i (db.getLast hne) =
          db.take i ++ db.getLast hne :: db.drop (i + 1) :=
        List.set_eq_take_cons_drop _ h
      have hdl : (db.set i (db.getLast hne)).dropLast =
          db.take i ++ (db.getLast hne :: db.drop (i + 1)).dropLast := by
        rw [hset, List.dropLast_append_cons]
      have hlen : (db.take i).length = i := by
        simp [List.length_take, Nat.le_of_lt h]
      have IH := retractLoop_perm tg ((db.set i (db.getLast hne)).dropLast) i
      rw [hdl] at IH ⊢
      rw [List.take_left' hlen, List.drop_left' hlen] at IH
      have hdropi : db.drop i = db[i] :: db.drop (i + 1) :=
        List.drop_eq_getElem_cons h
      have hPd : (!(db[i].tag == tg)) = false := by simp [htag]
      rw [hdropi, List.filter_cons, hPd]
      simp only [Bool.false_eq_true, if_false]
      refine IH.trans (List.Perm.append_left _ ?_)
      rcases eq_or_ne (db.drop (i + 1)) [] with hx | hx
      · simp [hx]
      · have hgl : db.getLast hne = (db.drop (i + 1)).getLast hx := by
          have h1 : db.getLast? = some (db.getLast hne) :=
            List.getLast?_eq_getLast _ hne
          have h2 : db.getLast? = some ((db.drop (i + 1)).getLast hx) := by
            conv_lhs => rw [← List.take_append_drop (i + 1) db]
            rw [List.getLast?_append, List.getLast?_eq_getLast _ hx]
            rfl
          rw [h1] at h2
          exact Option.some_injective _ h2
        have h3 : (db.drop (i + 1)).dropLast ++ [db.getLast hne] =
            db.drop (i + 1) := by
          rw [hgl]
          exact List.dropLast_append_getLast hx
        rw [List.dropLast_cons_of_ne_nil hx]
        have hp : List.Perm (db.getLast hne :: (db.drop (i + 1)).dropLast)
            ((db.drop (i + 1)).dropLast ++ [db.getLast hne]) :=
          (List.perm_append_singleton _ _).symm
        have hp2 := List.Perm.filter (fun d => !(d.tag == tg)) hp
        rw [h3] at hp2
        exact hp2
    · rw [retractLoop, dif_pos h]
      simp only [List.get_eq_getElem]
      rw [if_neg htag]
      have IH := retractLoop_perm tg db (i + 1)
      refine IH.trans ?_
      have hdropi : db.drop i = db[i] :: db.drop (i + 1) :=
        List.drop_eq_getElem_cons h
      have htake : db.take (i + 1) = db.take i ++ [db[i]] := by
        rw [List.take_succ, List.getElem?_eq_getElem h]
        rfl
      have hPd : (!(db[i].tag == tg)) = true := by simp [htag]
      rw [hdropi, List.filter_cons, hPd, if_pos rfl, htake, List.append_assoc]
      exact List.Perm.refl _
  · rw [retractLoop, dif_neg h]
    have h1 : db.take i = db := List.take_of_length_le (Nat.le_of_not_lt h)
    have h2 : db.drop i = [] := List.drop_eq_nil_of_le (Nat.le_of_not_lt h)
    rw [h1, h2]
    simp
termination_by db.length - i
decreasing_by
  · simp only [List.length_dropLast, List.length_set]
    omega
  · omega

theorem retractLoop_noop (tg : String) (db : List Clause)
    (hdb : ∀ d ∈ db, ¬ d.tag = tg) (i : Nat) : retractLoop tg db i = db := by
  by_cases h : i < db.length
  · have htag : ¬ db[i].tag = tg := hdb _ (List.getElem_mem h)
    rw [retractLoop, dif_pos h]
    simp only [List.get_eq_getElem]
    rw [if_neg htag]
    exact retractLoop_noop tg db hdb (i + 1)
  · rw [retractLoop, dif_neg h]
termination_by db.length - i
decreasing_by omega

theorem setDB_self_eq (w : World) (p : Nat) : w.setDB p (w.db p) = w := by
  cases w with
  | mk i d =>
    unfold World.setDB
    congr 1
    funext q
    by_cases h : q = p
    · simp [h, World.db]
    · simp [h]

/-- C5: for a clause whose head predicate is a database predicate, `Retract`
succeeds even when nothing matches, removes exactly the clauses whose clause
variant tag equals the clause's tag (the survivors are a permutation of the
tag-filtered list, since removal swaps with the last element), leaves every
other predicate untouched, and a second identical `Retract` changes
nothing. -/
theorem claim_C5 (c : Clause) (w : World)
    (hdb : w.isDB c.head.pred.pid = true) :
    (c.retract w).2 = none ∧
    List.Perm ((c.retract w).1.db c.head.pred.pid)
      ((w.db c.head.pred.pid).filter (fun d => !(d.tag == c.tag))) ∧
    (∀ q, q ≠ c.head.pred.pid → (c.retract w).1.db q = w.db q) ∧
    (c.retract w).1.isDB = w.isDB ∧
    c.retract (c.retract w).1 = ((c.retract w).1, none) := by
  have hres : c.retract w =
      (w.setDB c.head.pred.pid
        (retractLoop c.tag (w.db c.head.pred.pid) 0), none) := by
    simp [Clause.retract, hdb]
  have hperm : List.Perm (retractLoop c.tag (w.db c.head.pred.pid) 0)
      ((w.db c.head.pred.pid).filter (fun d => !(d.tag == c.tag))) := by
    simpa using retractLoop_perm c.tag (w.db c.head.pred.pid) 0
  refine ⟨by rw [hres], ?_, ?_, ?_, ?_⟩
  · rw [hres]
    simpa [db_setDB_self] using hperm
  · intro q hq
    rw [hres]
    simp [db_setDB_other _ _ _ _ hq]
  · rw [hres]
    simp [World.setDB]
  · have hdb2 : (c.retract w).1.isDB c.head.pred.pid = true := by
      rw [hres]; simpa [World.setDB] using hdb
    have hclean : ∀ d ∈ (c.retract w).1.db c.head.pred.pid,
        ¬ d.tag = c.tag := by
      intro d hd
      rw [hres] at hd
      rw [db_setDB_self] at hd
      have := hperm.mem_iff.mp hd
      have := List.of_mem_filter this
      simpa using this
    have hloop : retractLoop c.tag ((c.retract w).1.db c.head.pred.pid) 0 =
        (c.retract w).1.db c.head.pred.pid :=
      retractLoop_noop _ _ hclean 0
    rw [Clause.retract, if_neg (by simp [hdb2])]
    rw [hloop, setDB_self_eq]

theorem claim_C5_witness :
    ((World.mk (fun _ => true) (fun _ => [])).isDB 1 = true) ∧
    ((Clause.mk ⟨⟨1, 1⟩, [.const 5]⟩ []).retract
        (World.mk (fun _ => true) (fun _ => []))).2 = none := by
  refine ⟨rfl, ?_⟩
  exact (claim_C5 ⟨⟨⟨1, 1⟩, [.const 5]⟩, []⟩
    (World.mk (fun _ => true) (fun _ => [])) rfl).1

/-- C8: for an arity-2 target `=(a, b)`, the equality primitive emits
nothing when both arguments are variables or two distinct constants, and
the single fact `=(c, c)` when one argument is the constant `c` and the
other a variable, or both arguments are the same constant `c`. -/
theorem claim_C8 (a b : Term) :
    eqSearch ⟨eqPred, [a, b]⟩ =
      (match a, b with
      | .var _, .var _ => []
      | .var _, .const c => [⟨⟨eqPred, [.const c, .const c]⟩, []⟩]
      | .const c, .var _ => [⟨⟨eqPred, [.const c, .const c]⟩, []⟩]
      | .const c1, .const c2 =>
        if c1 = c2 then [⟨⟨eqPred, [.const c1, .const c1]⟩, []⟩]
        else []) := by
  cases a with
  | const c1 =>
    cases b with
    | const c2 =>
      by_cases h : c1 = c2 <;>
        simp [eqSearch, Term.isVariable, Term.isConstant, h]
    | var w => simp [eqSearch, Term.isVariable, Term.isConstant]
  | var v =>
    cases b with
    | const c2 => simp [eqSearch, Term.isVariable, Term.isConstant]
    | var w => simp [eqSearch, Term.isVariable, Term.isConstant]

/-- C9: constructing a literal fails exactly when the argument count does
not match the predicate's arity (the source panics with "datalog: arity
mismatch", modelled as `none`), and otherwise yields the literal with that
predicate and those arguments. -/
theorem claim_C9 (p : Pred) (args : List Term) :
    (args.length ≠ p.arity → NewLiteral p args = none) ∧
    (args.length = p.arity → NewLiteral p args = some ⟨p, args⟩) := by
  constructor
  · intro h
    have h2 : ¬ p.arity = args.length := fun h3 => h h3.symm
    simp [NewLiteral, h2]
  · intro h
    simp [NewLiteral, h.symm]

theorem claim_C9_witness :
    ([Term.var 0].length ≠ (Pred.mk 2 2).arity ∧
      NewLiteral ⟨2, 2⟩ [Term.var 0] = none) ∧
    ([Term.var 0, Term.const 3].length = (Pred.mk 2 2).arity ∧
      NewLiteral ⟨2, 2⟩ [Term.var 0, Term.const 3] =
        some ⟨⟨2, 2⟩, [Term.var 0, Term.const 3]⟩) :=
  ⟨⟨by decide, (claim_C9 ⟨2, 2⟩ [Term.var 0]).1 (by decide)⟩,
   ⟨by decide, (claim_C9 ⟨2, 2⟩ [Term.var 0, Term.const 3]).2 (by decide)⟩⟩

/-- C3 counterexample: for `a = p(A, B)` and `b = p(B, c5)` a unifier exists
(send every variable to `c5`), and `unify` succeeds, but the environment it
returns does not make the single-pass `subst` of the two literals equal:
it yields `p(B, c5)` versus `p(c5, c5)`, because the binding chain
`A ↦ B ↦ c5` is not chased by `subst`. -/
theorem claim_C3_cex :
    (∃ σ : Nat → Term,
      applyT σ ⟨⟨1, 2⟩, [.var 10, .var 11]⟩ =
        applyT σ ⟨⟨1, 2⟩, [.var 11, .const 5]⟩) ∧
    ∃ e, unify ⟨⟨1, 2⟩, [.var 10, .var 11]⟩ ⟨⟨1, 2⟩, [.var 11, .const 5]⟩ =
        some e ∧
      Literal.subst ⟨⟨1, 2⟩, [.var 10, .var 11]⟩ e ≠
        Literal.subst ⟨⟨1, 2⟩, [.var 11, .const 5]⟩ e :=
  ⟨⟨fun _ => .const 5, by rfl⟩,
   [(10, .var 11), (11, .const 5)], by decide, by decide⟩

/-! ### Environment and chase lemmas -/

theorem seenIdx_none_iff (v : Nat) (l : List Nat) :
    seenIdx v l = none ↔ v ∉ l := by
  induction l with
  | nil => simp [seenIdx]
  | cons w rest ih =>
    by_cases h : w = v
    · simp [seenIdx, h]
    · simp [seenIdx, h, Option.map_eq_none', ih, Ne.symm h]

theorem seenIdx_some_lt {v : Nat} {l : List Nat} {i : Nat}
    (h : seenIdx v l = some i) : i < l.length := by
  induction l generalizing i with
  | nil => simp [seenIdx] at h
  | cons w rest ih =>
    by_cases hw : w = v
    · simp only [seenIdx, if_pos hw, Option.some.injEq] at h
      simp [← h]
    · simp only [seenIdx, if_neg hw, Option.map_eq_some'] at h
      obtain ⟨j, hj, rfl⟩ := h
      have := ih hj
      simp only [List.length_cons]
      omega

theorem seenIdx_append_left {v : Nat} {l : List Nat} {i : Nat} (l2 : List Nat)
    (h : seenIdx v l = some i) : seenIdx v (l ++ l2) = some i := by
  induction l generalizing i with
  | nil => simp [seenIdx] at h
  | cons w rest ih =>
    by_cases hw : w = v
    · simp only [seenIdx, if_pos hw, Option.some.injEq] at h
      simp only [List.cons_append, seenIdx, if_pos hw, h]
    · simp only [seenIdx, if_neg hw, Option.map_eq_some'] at h
      obtain ⟨j, hj, rfl⟩ := h
      simp only [List.cons_append, seenIdx, if_neg hw, List.append_eq,
        ih hj, Option.map_some']

theorem seenIdx_append_right {v : Nat} {l : List Nat} (l2 : List Nat)
    (h : v ∉ l) :
    seenIdx v (l ++ l2) = (seenIdx v l2).map (· + l.length) := by
  induction l with
  | nil => simp
  | cons w rest ih =>
    have hw : w ≠ v := fun hh => h (by simp [hh])
    have hv : v ∉ rest := fun hh => h (by simp [hh])
    simp only [List.cons_append, seenIdx, if_neg hw, List.append_eq,
      ih hv, List.length_cons]
    cases seenIdx v l2 with
    | none => rfl
    | some j =>
      simp only [Option.map_some', Option.some.injEq]
      omega

theorem seenIdx_of_mem {v : Nat} {l : List Nat} (h : v ∈ l) :
    ∃ i, seenIdx v l = some i := by
  cases hh : seenIdx v l with
  | none => exact absurd ((seenIdx_none_iff v l).mp hh) (by simpa using h)
  | some i => exact ⟨i, rfl⟩

theorem envLookup_none_iff (e : Env) (v : Nat) :
    envLookup e v = none ↔ v ∉ e.map Prod.fst := by
  induction e with
  | nil => simp [envLookup]
  | cons kv rest ih =>
    by_cases h : kv.1 = v
    · simp [envLookup, h]
    · simp [envLookup, h, ih, Ne.symm h]

theorem envLookup_some_mem {e : Env} {v : Nat} {t : Term}
    (h : envLookup e v = some t) : (v, t) ∈ e := by
  induction e with
  | nil => simp [envLookup] at h
  | cons kv rest ih =>
    obtain ⟨k1, t1⟩ := kv
    by_cases hk : k1 = v
    · simp only [envLookup, if_pos hk, Option.some.injEq] at h
      rw [← hk, ← h]
      exact List.mem_cons_self _ _
    · simp only [envLookup, if_neg hk] at h
      exact List.mem_cons_of_mem _ (ih h)

theorem envLookup_append_left {e : Env} {v : Nat} {t : Term} (e2 : Env)
    (h : envLookup e v = some t) : envLookup (e ++ e2) v = some t := by
  induction e with
  | nil => simp [envLookup] at h
  | cons kv rest ih =>
    by_cases hk : kv.1 = v
    · simp only [envLookup, if_pos hk] at h
      simp [envLookup, hk, h]
    · simp only [envLookup, if_neg hk] at h
      simp only [List.cons_append, envLookup, if_neg hk]
      exact ih h

theorem envLookup_append_right {e : Env} {v : Nat} (e2 : Env)
    (h : envLookup e v = none) : envLookup (e ++ e2) v = envLookup e2 v := by
  induction e with
  | nil => simp
  | cons kv rest ih =>
    by_cases hk : kv.1 = v
    · simp [envLookup, hk] at h
    · simp only [envLookup, if_neg hk] at h
      simp only [List.cons_append, envLookup, if_neg hk]
      exact ih h

theorem envOk_nil : EnvOk [] := by
  constructor
  · simp
  · intro v w hmem
    simp at hmem

theorem envOk_append {e : Env} (he : EnvOk e) (v0 : Nat) (t0 : Term)
    (hv : envLookup e v0 = none)
    (ht : (∃ c, t0 = .const c) ∨
      ∃ w, t0 = .var w ∧ envLookup e w = none ∧ w ≠ v0) :
    EnvOk (e ++ [(v0, t0)]) := by
  obtain ⟨hnd, hord⟩ := he
  have hv0 : v0 ∉ e.map Prod.fst := (envLookup_none_iff e v0).mp hv
  have hkeys : (e ++ [(v0, t0)]).map Prod.fst = e.map Prod.fst ++ [v0] := by
    simp
  constructor
  · rw [hkeys]
    simp [List.nodup_append, hnd, hv0]
  · intro v w hmem j hj
    rw [hkeys] at hj
    rcases List.mem_append.mp hmem with hmem | hmem
    · have hvk : v ∈ e.map Prod.fst := by
        exact List.mem_map.mpr ⟨(v, Term.var w), hmem, rfl⟩
      obtain ⟨i, hi⟩ := seenIdx_of_mem hvk
      refine ⟨i, by rw [hkeys]; exact seenIdx_append_left _ hi, ?_⟩
      by_cases hwk : w ∈ e.map Prod.fst
      · obtain ⟨j0, hj0⟩ := seenIdx_of_mem hwk
        have h2 := seenIdx_append_left [v0] hj0
        rw [h2] at hj
        have hjj := Option.some.inj hj
        obtain ⟨i', hi', hlt⟩ := hord v w hmem j0 hj0
        have hii := Option.some.inj (hi'.symm.trans hi)
        omega
      · have h2 := seenIdx_append_right [v0] hwk
        rw [h2] at hj
        have hilt := seenIdx_some_lt hi
        rcases eq_or_ne w v0 with hwv | hwv
        · have h0 : seenIdx w [v0] = some 0 := by simp [seenIdx, hwv]
          rw [h0, Option.map_some'] at hj
          have hjj := Option.some.inj hj
          omega
        · have h0 : seenIdx w [v0] = none := by
            simp [seenIdx, Ne.symm hwv]
          rw [h0] at hj
          exact absurd hj (by simp)
    · simp only [List.mem_singleton, Prod.mk.injEq] at hmem
      obtain ⟨rfl, hmt⟩ := hmem
      rcases ht with ⟨c, hc⟩ | ⟨w', hw', hwun, hwne⟩
      · rw [hc] at hmt
        exact absurd hmt (by simp)
      · rw [hw'] at hmt
        have hww : w = w' := Term.var.inj hmt
        subst hww
        have h1 : w ∉ e.map Prod.fst := (envLookup_none_iff e w).mp hwun
        have h2 : seenIdx w (e.map Prod.fst ++ [v]) = none := by
          rw [seenIdx_append_right _ h1]
          simp [seenIdx, Ne.symm hwne]
        rw [h2] at hj
        exact absurd hj (by simp)

theorem chases_det {e : Env} {t u u' : Term} (h1 : Chases e t u)
    (h2 : Chases e t u') : u = u' := by
  induction h1 generalizing u' with
  | const c =>
    cases h2 with
    | const => rfl
  | unbound v hl =>
    cases h2 with
    | unbound => rfl
    | step f1 tmid f3 hlk hck => rw [hl] at hlk; exact absurd hlk (by simp)
  | step v t2 u hl hc ih =>
    cases h2 with
    | unbound f1 hlk => rw [hl] at hlk; exact absurd hlk (by simp)
    | step f1 tmid f3 hlk hck =>
      rw [hl] at hlk
      rw [← Option.some.inj hlk] at hck
      exact ih hck

theorem chases_final {e : Env} {t u : Term} (h : Chases e t u) :
    (∃ c, u = .const c) ∨ ∃ v, u = .var v ∧ envLookup e v = none := by
  induction h with
  | const c => exact Or.inl ⟨c, rfl⟩
  | unbound v hl => exact Or.inr ⟨v, rfl, hl⟩
  | step v t2 u hl hc ih => exact ih

theorem chaseN_spec {e : Env} (he : EnvOk e) :
    ∀ (k : Nat) (t : Term), varMeasure e t ≤ k →
      Chases e t (chaseN (k + 1) e t) := by
  intro k
  induction k with
  | zero =>
    intro t hm
    cases t with
    | const c => exact Chases.const c
    | var v =>
      cases hl : envLookup e v with
      | none =>
        simp only [chaseN, hl]
        exact Chases.unbound v hl
      | some t2 =>
        exfalso
        have hmem := envLookup_some_mem hl
        have hvk : v ∈ e.map Prod.fst :=
          List.mem_map.mpr ⟨(v, t2), hmem, rfl⟩
        obtain ⟨i, hi⟩ := seenIdx_of_mem hvk
        have hilt := seenIdx_some_lt hi
        simp only [varMeasure, hi] at hm
        simp only [List.length_map] at hilt
        omega
  | succ k ih =>
    intro t hm
    cases t with
    | const c => exact Chases.const c
    | var v =>
      cases hl : envLookup e v with
      | none =>
        simp only [chaseN, hl]
        exact Chases.unbound v hl
      | some t2 =>
        have hstep : chaseN (k + 1 + 1) e (.var v) = chaseN (k + 1) e t2 := by
          simp [chaseN, hl]
        rw [hstep]
        refine Chases.step v t2 _ hl (ih t2 ?_)
        cases t2 with
        | const c => simp [varMeasure]
        | var w =>
          cases hw : seenIdx w (e.map Prod.fst) with
          | none => simp [varMeasure, hw]
          | some j =>
            have hmem := envLookup_some_mem hl
            obtain ⟨i, hi, hlt⟩ := he.2 v w hmem j hw
            simp only [varMeasure, hi] at hm
            simp only [varMeasure, hw]
            have hjlt := seenIdx_some_lt hw
            simp only [List.length_map] at hjlt
            omega

theorem chase_spec {e : Env} (he : EnvOk e) (t : Term) :
    Chases e t (chase e t) := by
  have hm : varMeasure e t ≤ e.length := by
    cases t with
    | const c => simp [varMeasure]
    | var v =>
      cases hv : seenIdx v (e.map Prod.fst) with
      | none => simp [varMeasure, hv]
      | some i => simp only [varMeasure, hv]; omega
  exact chaseN_spec he e.length t hm

theorem chase_of_chases {e : Env} {t u : Term} (he : EnvOk e)
    (h : Chases e t u) : chase e t = u :=
  chases_det (chase_spec he t) h

theorem chases_concat {e ext : Env} {t u z : Term} (h1 : Chases e t u)
    (h2 : Chases (e ++ ext) u z) : Chases (e ++ ext) t z := by
  induction h1 with
  | const c => exact h2
  | unbound v hl => exact h2
  | step v t2 u hl hc ih =>
    exact Chases.step v t2 z (envLookup_append_left ext hl) (ih h2)

theorem chase_extend {e ext : Env} {t u : Term} (he : EnvOk (e ++ ext))
    (h : Chases e t u) : chase (e ++ ext) t = chase (e ++ ext) u :=
  chase_of_chases he (chases_concat h (chase_spec he u))

/-! ### Unification lemmas -/

theorem envLookup_last (e : Env) (v : Nat) (t : Term)
    (hv : envLookup e v = none) :
    envLookup (e ++ [(v, t)]) v = some t := by
  rw [envLookup_append_right _ hv]
  simp [envLookup]

theorem unifyTerm_some_spec {e : Env} (he : EnvOk e) {ai bi : Term}
    (hai : (∃ c, ai = Term.const c) ∨
      ∃ v, ai = Term.var v ∧ envLookup e v = none)
    (hbi : (∃ c, bi = Term.const c) ∨
      ∃ v, bi = Term.var v ∧ envLookup e v = none)
    (hne : ai ≠ bi) {e' : Env} (h : unifyTerm ai bi e = some e') :
    EnvOk e' ∧ (∃ b1, e' = e ++ [b1]) ∧ chase e' ai = chase e' bi := by
  cases ai with
  | const c1 =>
    cases bi with
    | const c2 => simp [unifyTerm] at h
    | var v =>
      simp only [unifyTerm, Option.some.injEq] at h
      subst h
      have hun : envLookup e v = none := by
        rcases hbi with ⟨c2, hc2⟩ | ⟨v2, hv2, hun⟩
        · exact absurd hc2 (by simp)
        · rw [← Term.var.inj hv2] at hun
          exact hun
      have he' := envOk_append he v (Term.const c1) hun (Or.inl ⟨c1, rfl⟩)
      refine ⟨he', ⟨(v, Term.const c1), rfl⟩, ?_⟩
      have h1 : chase (e ++ [(v, Term.const c1)]) (Term.const c1) =
          Term.const c1 :=
        chase_of_chases he' (Chases.const c1)
      have h2 : chase (e ++ [(v, Term.const c1)]) (Term.var v) =
          Term.const c1 :=
        chase_of_chases he'
          (Chases.step v (Term.const c1) (Term.const c1)
            (envLookup_last e v _ hun) (Chases.const c1))
      rw [h1, h2]
  | var v =>
    have hun : envLookup e v = none := by
      rcases hai with ⟨c2, hc2⟩ | ⟨v2, hv2, hun⟩
      · exact absurd hc2 (by simp)
      · rw [← Term.var.inj hv2] at hun
        exact hun
    cases bi with
    | const c =>
      simp only [unifyTerm, Option.some.injEq] at h
      subst h
      have he' := envOk_append he v (Term.const c) hun (Or.inl ⟨c, rfl⟩)
      refine ⟨he', ⟨(v, Term.const c), rfl⟩, ?_⟩
      have h1 : chase (e ++ [(v, Term.const c)]) (Term.const c) =
          Term.const c :=
        chase_of_chases he' (Chases.const c)
      have h2 : chase (e ++ [(v, Term.const c)]) (Term.var v) =
          Term.const c :=
        chase_of_chases he'
          (Chases.step v (Term.const c) (Term.const c)
            (envLookup_last e v _ hun) (Chases.const c))
      rw [h1, h2]
    | var w =>
      simp only [unifyTerm, Option.some.injEq] at h
      subst h
      have hwun : envLookup e w = none := by
        rcases hbi with ⟨c2, hc2⟩ | ⟨v2, hv2, hun2⟩
        · exact absurd hc2 (by simp)
        · rw [← Term.var.inj hv2] at hun2
          exact hun2
      have hvw : w ≠ v := fun hh => hne (by rw [hh])
      have he' := envOk_append he v (Term.var w) hun
        (Or.inr ⟨w, rfl, hwun, hvw⟩)
      refine ⟨he', ⟨(v, Term.var w), rfl⟩, ?_⟩
      exact chase_of_chases he'
        (Chases.step v (Term.var w) _ (envLookup_last e v _ hun)
          (chase_spec he' (Term.var w)))

theorem unifyTerm_none_spec {e : Env} {ai bi : Term}
    (h : unifyTerm ai bi e = none) :
    ∃ c1 c2, ai = Term.const c1 ∧ bi = Term.const c2 := by
  cases ai with
  | const c1 =>
    cases bi with
    | const c2 => exact ⟨c1, c2, rfl, rfl⟩
    | var w => simp [unifyTerm] at h
  | var v => cases bi <;> simp [unifyTerm] at h

theorem respects_chases {σ : Nat → Term} {e : Env} (hr : Respects σ e)
    {t u : Term} (h : Chases e t u) : applyTT σ t = applyTT σ u := by
  induction h with
  | const c => rfl
  | unbound v _ => rfl
  | step v t2 u hl hc ih =>
    have h1 : applyTT σ (Term.var v) = applyTT σ t2 :=
      hr v t2 (envLookup_some_mem hl)
    exact h1.trans ih

theorem respects_append {σ : Nat → Term} {e : Env} {v : Nat} {t : Term}
    (hr : Respects σ e) (h : σ v = applyTT σ t) :
    Respects σ (e ++ [(v, t)]) := by
  intro v2 t2 hmem
  rcases List.mem_append.mp hmem with hm | hm
  · exact hr _ _ hm
  · simp only [List.mem_singleton, Prod.mk.injEq] at hm
    obtain ⟨rfl, rfl⟩ := hm
    exact h

theorem unifyTerm_respects {σ : Nat → Term} {e : Env} {ai bi : Term}
    {e' : Env} (hr : Respects σ e) (hab : applyTT σ ai = applyTT σ bi)
    (h : unifyTerm ai bi e = some e') : Respects σ e' := by
  cases ai with
  | const c1 =>
    cases bi with
    | const c2 => simp [unifyTerm] at h
    | var w =>
      simp only [unifyTerm, Option.some.injEq] at h
      subst h
      exact respects_append hr hab.symm
  | var v =>
    cases bi with
    | const c =>
      simp only [unifyTerm, Option.some.injEq] at h
      subst h
      exact respects_append hr hab
    | var w =>
      simp only [unifyTerm, Option.some.injEq] at h
      subst h
      exact respects_append hr hab

theorem unifyArgs_sound : ∀ (as bs : List Term) (e0 e : Env), EnvOk e0 →
    unifyArgs as bs e0 = some e →
    (∃ ext, e = e0 ++ ext) ∧ EnvOk e ∧
      ∀ p ∈ as.zip bs, chase e p.1 = chase e p.2 := by
  intro as
  induction as with
  | nil =>
    intro bs e0 e he0 h
    simp only [unifyArgs, Option.some.injEq] at h
    subst h
    exact ⟨⟨[], by simp⟩, he0, by simp⟩
  | cons a as' ih =>
    intro bs e0 e he0 h
    cases bs with
    | nil => simp [unifyArgs] at h
    | cons b bs' =>
      simp only [unifyArgs] at h
      by_cases heq : chase e0 a = chase e0 b
      · rw [if_pos heq] at h
        obtain ⟨⟨ext, hext⟩, he, htail⟩ := ih bs' e0 e he0 h
        refine ⟨⟨ext, hext⟩, he, ?_⟩
        intro p hp
        simp only [List.zip_cons_cons, List.mem_cons] at hp
        rcases hp with rfl | hp
        · subst hext
          have h1 := chase_extend he (chase_spec he0 a)
          have h2 := chase_extend he (chase_spec he0 b)
          rw [h1, h2, heq]
        · exact htail p hp
      · rw [if_neg heq] at h
        cases hu : unifyTerm (chase e0 a) (chase e0 b) e0 with
        | none => rw [hu] at h; simp at h
        | some e1 =>
          rw [hu] at h
          have hai := chases_final (chase_spec he0 a)
          have hbi := chases_final (chase_spec he0 b)
          obtain ⟨hok1, ⟨b1, hb1⟩, hch⟩ :=
            unifyTerm_some_spec he0 hai hbi heq hu
          obtain ⟨⟨ext, hext⟩, he, htail⟩ := ih bs' e1 e hok1 h
          refine ⟨⟨[b1] ++ ext, by rw [hext, hb1, List.append_assoc]⟩,
            he, ?_⟩
          intro p hp
          simp only [List.zip_cons_cons, List.mem_cons] at hp
          rcases hp with rfl | hp
          · have hea : e = e0 ++ ([b1] ++ ext) := by
              rw [hext, hb1, List.append_assoc]
            have h1 : chase e a = chase e (chase e0 a) := by
              rw [hea]
              exact chase_extend (hea ▸ he) (chase_spec he0 a)
            have h2 : chase e b = chase e (chase e0 b) := by
              rw [hea]
              exact chase_extend (hea ▸ he) (chase_spec he0 b)
            have h3 : chase e (chase e0 a) =
                chase e (chase e1 (chase e0 a)) := by
              rw [hext]
              exact chase_extend (hext ▸ he) (chase_spec hok1 _)
            have h4 : chase e (chase e0 b) =
                chase e (chase e1 (chase e0 b)) := by
              rw [hext]
              exact chase_extend (hext ▸ he) (chase_spec hok1 _)
            rw [h1, h2, h3, h4, hch]
          · exact htail p hp

theorem unifyArgs_complete {σ : Nat → Term} : ∀ (as bs : List Term)
    (e0 : Env), EnvOk e0 → Respects σ e0 →
    (∀ p ∈ as.zip bs, applyTT σ p.1 = applyTT σ p.2) →
    as.length = bs.length → unifyArgs as bs e0 ≠ none := by
  intro as
  induction as with
  | nil => intro bs e0 _ _ _ _; simp [unifyArgs]
  | cons a as' ih =>
    intro bs e0 he0 hr hpt hlen h
    cases bs with
    | nil => simp at hlen
    | cons b bs' =>
      simp only [unifyArgs] at h
      have hha : applyTT σ a = applyTT σ (chase e0 a) :=
        respects_chases hr (chase_spec he0 a)
      have hhb : applyTT σ b = applyTT σ (chase e0 b) :=
        respects_chases hr (chase_spec he0 b)
      have hhead : applyTT σ a = applyTT σ b := by
        refine hpt (a, b) ?_
        simp
      by_cases heq : chase e0 a = chase e0 b
      · rw [if_pos heq] at h
        refine ih bs' e0 he0 hr ?_ (by simpa using hlen) h
        intro p hp
        refine hpt p ?_
        simp [hp]
      · rw [if_neg heq] at h
        cases hu : unifyTerm (chase e0 a) (chase e0 b) e0 with
        | none =>
          obtain ⟨c1, c2, hc1, hc2⟩ := unifyTerm_none_spec hu
          have : (Term.const c1 : Term) = Term.const c2 := by
            have e1 : applyTT σ (chase e0 a) = Term.const c1 := by
              rw [hc1]; rfl
            have e2 : applyTT σ (chase e0 b) = Term.const c2 := by
              rw [hc2]; rfl
            rw [← e1, ← e2, ← hha, ← hhb]
            exact hhead
          rw [hc1, hc2] at heq
          exact heq (by rw [this])
        | some e1 =>
          rw [hu] at h
          have hai := chases_final (chase_spec he0 a)
          have hbi := chases_final (chase_spec he0 b)
          obtain ⟨hok1, _, _⟩ := unifyTerm_some_spec he0 hai hbi heq hu
          have hr1 : Respects σ e1 :=
            unifyTerm_respects hr (by rw [← hha, ← hhb]; exact hhead) hu
          refine ih bs' e1 hok1 hr1 ?_ (by simpa using hlen) h
          intro p hp
          refine hpt p ?_
          simp [hp]

theorem map_eq_forall_zip {α β : Type} {f : α → β} :
    ∀ (as bs : List α), as.map f = bs.map f →
      ∀ p ∈ as.zip bs, f p.1 = f p.2 := by
  intro as
  induction as with
  | nil => intro bs _ p hp; simp at hp
  | cons a as' ih =>
    intro bs hm p hp
    cases bs with
    | nil => simp at hp
    | cons b bs' =>
      simp only [List.map_cons, List.cons.injEq] at hm
      simp only [List.zip_cons_cons, List.mem_cons] at hp
      rcases hp with rfl | hp
      · exact hm.1
      · exact ih bs' hm.2 p hp

theorem zip_forall_map_eq {α β : Type} {f : α → β} :
    ∀ (as bs : List α), as.length = bs.length →
      (∀ p ∈ as.zip bs, f p.1 = f p.2) → as.map f = bs.map f := by
  intro as
  induction as with
  | nil =>
    intro bs hlen _
    cases bs with
    | nil => rfl
    | cons b bs' => simp at hlen
  | cons a as' ih =>
    intro bs hlen hpt
    cases bs with
    | nil => simp at hlen
    | cons b bs' =>
      simp only [List.map_cons, List.cons.injEq]
      constructor
      · exact hpt (a, b) (by simp)
      · refine ih bs' (by simpa using hlen) ?_
        intro p hp
        exact hpt p (by simp [hp])

/-- C3 (amended): when `unify` succeeds, dereferencing every argument of the
two literals through the returned environment until a constant or an unbound
variable is reached (`substChase`, i.e. `subst` iterated to a fixpoint)
yields identical literals; and `unify` returns `none` exactly when no
substitution at all makes the two literals structurally identical.  (The
claim's single-pass `subst` version fails: see the counterexample.) -/
theorem claim_C3 (a b : Literal) (ha : a.wf) (hb : b.wf) :
    (∀ e, unify a b = some e → a.substChase e = b.substChase e) ∧
    (unify a b = none → ∀ σ : Nat → Term, applyT σ a ≠ applyT σ b) := by
  constructor
  · intro e h
    rw [unify] at h
    by_cases hp : a.pred = b.pred
    · rw [if_pos hp] at h
      obtain ⟨_, he, hpt⟩ := unifyArgs_sound a.args b.args [] e envOk_nil h
      have ha' : a.args.length = a.pred.arity := ha
      have hb' : b.args.length = b.pred.arity := hb
      have hlen : a.args.length = b.args.length := by
        rw [ha', hb', hp]
      unfold Literal.substChase
      rw [Literal.mk.injEq]
      exact ⟨hp, zip_forall_map_eq a.args b.args hlen hpt⟩
    · rw [if_neg hp] at h
      exact absurd h (by simp)
  · intro h σ hab
    rw [unify] at h
    by_cases hp : a.pred = b.pred
    · rw [if_pos hp] at h
      have hargs : a.args.map (applyTT σ) = b.args.map (applyTT σ) :=
        congrArg Literal.args hab
      have hlen : a.args.length = b.args.length := by
        have h2 := congrArg List.length hargs
        simpa using h2
      refine @unifyArgs_complete σ a.args b.args [] envOk_nil ?_ ?_ hlen h
      · intro v t hmem
        simp at hmem
      · exact map_eq_forall_zip a.args b.args hargs
    · rw [if_neg hp] at h
      have hpp : (applyT σ a).pred = (applyT σ b).pred :=
        congrArg Literal.pred hab
      exact hp hpp

theorem claim_C3_witness :
    (Literal.wf ⟨⟨1, 1⟩, [.var 10]⟩ ∧ Literal.wf ⟨⟨1, 1⟩, [.const 5]⟩) ∧
    ((∀ e, unify ⟨⟨1, 1⟩, [.var 10]⟩ ⟨⟨1, 1⟩, [.const 5]⟩ = some e →
        Literal.substChase ⟨⟨1, 1⟩, [.var 10]⟩ e =
          Literal.substChase ⟨⟨1, 1⟩, [.const 5]⟩ e) ∧
      (unify ⟨⟨1, 1⟩, [.var 10]⟩ ⟨⟨1, 1⟩, [.const 5]⟩ = none →
        ∀ σ : Nat → Term, applyT σ ⟨⟨1, 1⟩, [.var 10]⟩ ≠
          applyT σ ⟨⟨1, 1⟩, [.const 5]⟩)) :=
  ⟨⟨rfl, rfl⟩, claim_C3 ⟨⟨1, 1⟩, [.var 10]⟩ ⟨⟨1, 1⟩, [.const 5]⟩ rfl rfl⟩

/-! ### Tag string injectivity -/

theorem digitChar_injOn16 : ∀ d1 < 16, ∀ d2 < 16,
    Nat.digitChar d1 = Nat.digitChar d2 → d1 = d2 := by decide

theorem digitChar_ne_comma : ∀ d < 16, Nat.digitChar d ≠ ',' := by decide

theorem digitChar_ne_v : ∀ d < 16, Nat.digitChar d ≠ 'v' := by decide

theorem map_digitChar_inj : ∀ (l1 l2 : List Nat), (∀ d ∈ l1, d < 16) →
    (∀ d ∈ l2, d < 16) → l1.map Nat.digitChar = l2.map Nat.digitChar →
    l1 = l2 := by
  intro l1
  induction l1 with
  | nil =>
    intro l2 _ _ h
    cases l2 with
    | nil => rfl
    | cons d l2' => simp at h
  | cons d l1' ih =>
    intro l2 h1 h2 h
    cases l2 with
    | nil => simp at h
    | cons d2 l2' =>
      simp only [List.map_cons, List.cons.injEq] at h
      have hd := digitChar_injOn16 d (h1 d (by simp)) d2 (h2 d2 (by simp)) h.1
      rw [hd, ih l2' (fun x hx => h1 x (by simp [hx]))
        (fun x hx => h2 x (by simp [hx])) h.2]

theorem baseRep_mem {b : Nat} (hb : 1 < b) (hb16 : b ≤ 16) (n : Nat) :
    ∀ c ∈ (if n = 0 then ['0']
      else ((Nat.digits b n).map Nat.digitChar).reverse),
      ∃ d, d < 16 ∧ c = Nat.digitChar d := by
  intro c hc
  by_cases h : n = 0
  · rw [if_pos h] at hc
    simp at hc
    exact ⟨0, by norm_num, by rw [hc]; rfl⟩
  · rw [if_neg h] at hc
    simp only [List.mem_reverse, List.mem_map] at hc
    obtain ⟨d, hd, rfl⟩ := hc
    exact ⟨d, lt_of_lt_of_le (Nat.digits_lt_base hb hd) hb16, rfl⟩

theorem baseRep_inj {b : Nat} (hb : 1 < b) (hb16 : b ≤ 16) (m n : Nat)
    (h : (if m = 0 then ['0']
        else ((Nat.digits b m).map Nat.digitChar).reverse) =
      (if n = 0 then ['0']
        else ((Nat.digits b n).map Nat.digitChar).reverse)) : m = n := by
  by_cases hm : m = 0 <;> by_cases hn : n = 0
  · rw [hm, hn]
  · exfalso
    rw [if_pos hm, if_neg hn] at h
    have hrev : (Nat.digits b n).map Nat.digitChar = ['0'] := by
      have := congrArg List.reverse h
      simpa using this.symm
    cases hd : Nat.digits b n with
    | nil => rw [hd] at hrev; simp at hrev
    | cons d rest =>
      rw [hd] at hrev
      simp only [List.map_cons, List.cons.injEq, List.map_eq_nil_iff] at hrev
      have hd16 : d < 16 :=
        lt_of_lt_of_le (Nat.digits_lt_base hb (by rw [hd]; simp)) hb16
      have hd0 : d = 0 := digitChar_injOn16 d hd16 0 (by norm_num) hrev.1
      have hofd := Nat.ofDigits_digits b n
      rw [hd, hrev.2, hd0] at hofd
      simp [Nat.ofDigits] at hofd
      exact hn hofd.symm
  · exfalso
    rw [if_neg hm, if_pos hn] at h
    have hrev : (Nat.digits b m).map Nat.digitChar = ['0'] := by
      have := congrArg List.reverse h
      simpa using this
    cases hd : Nat.digits b m with
    | nil => rw [hd] at hrev; simp at hrev
    | cons d rest =>
      rw [hd] at hrev
      simp only [List.map_cons, List.cons.injEq, List.map_eq_nil_iff] at hrev
      have hd16 : d < 16 :=
        lt_of_lt_of_le (Nat.digits_lt_base hb (by rw [hd]; simp)) hb16
      have hd0 : d = 0 := digitChar_injOn16 d hd16 0 (by norm_num) hrev.1
      have hofd := Nat.ofDigits_digits b m
      rw [hd, hrev.2, hd0] at hofd
      simp [Nat.ofDigits] at hofd
      exact hm hofd.symm
  · rw [if_neg hm, if_neg hn] at h
    have h2 : (Nat.digits b m).map Nat.digitChar =
        (Nat.digits b n).map Nat.digitChar := by
      have := congrArg List.reverse h
      simpa using this
    have h3 := map_digitChar_inj (Nat.digits b m) (Nat.digits b n)
      (fun d hd => lt_of_lt_of_le (Nat.digits_lt_base hb hd) hb16)
      (fun d hd => lt_of_lt_of_le (Nat.digits_lt_base hb hd) hb16) h2
    have h4 := Nat.ofDigits_digits b m
    rw [h3, Nat.ofDigits_digits] at h4
    exact h4.symm

theorem hexChars_inj {m n : Nat} (h : hexChars m = hexChars n) : m = n :=
  baseRep_inj (by norm_num) (by norm_num) m n h

theorem decChars_inj {m n : Nat} (h : decChars m = decChars n) : m = n :=
  baseRep_inj (by norm_num) (by norm_num) m n h

theorem hexChars_mem (n : Nat) :
    ∀ c ∈ hexChars n, ∃ d, d < 16 ∧ c = Nat.digitChar d :=
  baseRep_mem (by norm_num) (by norm_num) n

theorem hexChars_ne_nil (n : Nat) : hexChars n ≠ [] := by
  unfold hexChars
  by_cases h : n = 0
  · simp [h]
  · rw [if_neg h]
    simp only [ne_eq, List.reverse_eq_nil_iff, List.map_eq_nil_iff]
    exact Nat.digits_ne_nil_iff_ne_zero.mpr h

theorem comma_not_mem_hexChars (n : Nat) : ',' ∉ hexChars n := by
  intro hc
  obtain ⟨d, hd, hdc⟩ := hexChars_mem n ',' hc
  exact digitChar_ne_comma d hd hdc.symm

theorem v_not_mem_hexChars (n : Nat) : 'v' ∉ hexChars n := by
  intro hc
  obtain ⟨d, hd, hdc⟩ := hexChars_mem n 'v' hc
  exact digitChar_ne_v d hd hdc.symm

theorem comma_not_mem_decChars (n : Nat) : ',' ∉ decChars n := by
  intro hc
  obtain ⟨d, hd, hdc⟩ :=
    @baseRep_mem 10 (by norm_num) (by norm_num) n ',' hc
  exact digitChar_ne_comma d hd hdc.symm

theorem comma_split : ∀ (u1 u2 X1 X2 : List Char), u1 ++ X1 = u2 ++ X2 →
    ',' ∉ u1 → ',' ∉ u2 →
    (X1 = [] ∨ ∃ Y, X1 = ',' :: Y) → (X2 = [] ∨ ∃ Y, X2 = ',' :: Y) →
    u1 = u2 ∧ X1 = X2 := by
  intro u1
  induction u1 with
  | nil =>
    intro u2 X1 X2 h hc1 hc2 hx1 hx2
    cases u2 with
    | nil => exact ⟨rfl, h⟩
    | cons c u2' =>
      exfalso
      simp only [List.nil_append, List.cons_append] at h
      rcases hx1 with rfl | ⟨Y, hY⟩
      · simp at h
      · rw [hY] at h
        have hcc : c = ',' := (List.cons.inj h).1.symm
        exact hc2 (by simp [hcc])
  | cons c u1' ih =>
    intro u2 X1 X2 h hc1 hc2 hx1 hx2
    cases u2 with
    | nil =>
      exfalso
      simp only [List.nil_append, List.cons_append] at h
      rcases hx2 with rfl | ⟨Y, hY⟩
      · simp at h
      · rw [hY] at h
        have hcc : c = ',' := (List.cons.inj h).1
        exact hc1 (by simp [hcc])
    | cons c2 u2' =>
      simp only [List.cons_append, List.cons.injEq] at h
      obtain ⟨rfl, h2⟩ := h
      have hres := ih u2' X1 X2 h2 (fun hm => hc1 (by simp [hm]))
        (fun hm => hc2 (by simp [hm])) hx1 hx2
      exact ⟨by rw [hres.1], hres.2⟩

theorem tokChars_ne_nil (t : Tok) : tokChars t ≠ [] := by
  cases t with
  | tc c => exact hexChars_ne_nil c
  | tv i => simp [tokChars]

theorem comma_not_mem_tokChars (t : Tok) : ',' ∉ tokChars t := by
  cases t with
  | tc c => exact comma_not_mem_hexChars c
  | tv i =>
    simp only [tokChars, List.mem_cons]
    rintro (h | h)
    · exact absurd h (by decide)
    · exact comma_not_mem_decChars i h

theorem tokChars_inj {t1 t2 : Tok} (h : tokChars t1 = tokChars t2) :
    t1 = t2 := by
  cases t1 with
  | tc c1 =>
    cases t2 with
    | tc c2 => rw [hexChars_inj h]
    | tv i =>
      exfalso
      simp only [tokChars] at h
      have hv : 'v' ∈ hexChars c1 := by rw [h]; simp
      exact v_not_mem_hexChars c1 hv
  | tv i1 =>
    cases t2 with
    | tc c2 =>
      exfalso
      simp only [tokChars] at h
      have hv : 'v' ∈ hexChars c2 := by rw [← h]; simp
      exact v_not_mem_hexChars c2 hv
    | tv i2 =>
      simp only [tokChars, List.cons.injEq, true_and] at h
      rw [decChars_inj h]

theorem tagBody_commaLed (ts : List Tok) :
    tagBody ts = [] ∨ ∃ Y, tagBody ts = ',' :: Y := by
  cases ts with
  | nil => exact Or.inl rfl
  | cons t rest =>
    exact Or.inr ⟨tokChars t ++ tagBody rest, by simp [tagBody]⟩

theorem tagBody_inj : ∀ (ts1 ts2 : List Tok), tagBody ts1 = tagBody ts2 →
    ts1 = ts2 := by
  intro ts1
  induction ts1 with
  | nil =>
    intro ts2 h
    cases ts2 with
    | nil => rfl
    | cons t rest => simp [tagBody] at h
  | cons t1 rest1 ih =>
    intro ts2 h
    cases ts2 with
    | nil => simp [tagBody] at h
    | cons t2 rest2 =>
      simp only [tagBody, List.map_cons, List.flatten_cons,
        List.cons_append, List.cons.injEq, true_and] at h
      have hsp := comma_split (tokChars t1) (tokChars t2)
        (tagBody rest1) (tagBody rest2) h
        (comma_not_mem_tokChars t1) (comma_not_mem_tokChars t2)
        (tagBody_commaLed rest1) (tagBody_commaLed rest2)
      rw [tokChars_inj hsp.1, ih rest2 hsp.2]

theorem litTag_eq (l : Literal) :
    l.tag = ⟨hexChars l.pred.pid ++ tagBody (tagArgs l.args []).1⟩ := rfl

theorem litTag_eq_iff (a b : Literal) :
    a.tag = b.tag ↔
      a.pred.pid = b.pred.pid ∧
        (tagArgs a.args []).1 = (tagArgs b.args []).1 := by
  rw [litTag_eq, litTag_eq, String.ext_iff]
  simp only
  constructor
  · intro h
    have hsp := comma_split (hexChars a.pred.pid) (hexChars b.pred.pid)
      (tagBody (tagArgs a.args []).1) (tagBody (tagArgs b.args []).1) h
      (comma_not_mem_hexChars _) (comma_not_mem_hexChars _)
      (tagBody_commaLed _) (tagBody_commaLed _)
    exact ⟨hexChars_inj hsp.1, tagBody_inj _ _ hsp.2⟩
  · intro ⟨h1, h2⟩
    rw [h1, h2]

theorem lID_eq (l : Literal) :
    l.lID = (idArgs l.args).map fun ts =>
      (⟨hexChars l.pred.pid ++ tagBody ts⟩ : String) := rfl

theorem idArgs_some_inj : ∀ (args1 args2 : List Term) (ts : List Tok),
    idArgs args1 = some ts → idArgs args2 = some ts → args1 = args2 := by
  intro args1
  induction args1 with
  | nil =>
    intro args2 ts h1 h2
    simp only [idArgs, Option.some.injEq] at h1
    cases args2 with
    | nil => rfl
    | cons t rest =>
      cases t with
      | const c =>
        simp only [idArgs, Option.map_eq_some'] at h2
        obtain ⟨ts', _, hts⟩ := h2
        rw [← h1] at hts
        simp at hts
      | var v => simp [idArgs] at h2
  | cons t1 rest1 ih =>
    intro args2 ts h1 h2
    cases t1 with
    | var v => simp [idArgs] at h1
    | const c1 =>
      simp only [idArgs, Option.map_eq_some'] at h1
      obtain ⟨ts1, hts1, rfl⟩ := h1
      cases args2 with
      | nil =>
        simp only [idArgs, Option.some.injEq] at h2
        simp at h2
      | cons t2 rest2 =>
        cases t2 with
        | var v => simp [idArgs] at h2
        | const c2 =>
          simp only [idArgs, Option.map_eq_some'] at h2
          obtain ⟨ts2, hts2, heq⟩ := h2
          have hc : c2 = c1 ∧ ts2 = ts1 := by
            have := heq
            simp only [List.cons.injEq, Tok.tc.injEq] at this
            exact this
          obtain ⟨rfl, rfl⟩ := hc
          rw [ih rest2 _ hts1 hts2]

theorem idArgs_none_iff : ∀ (args : List Term),
    idArgs args = none ↔ ¬ (args.all Term.isConstant = true) := by
  intro args
  induction args with
  | nil => simp [idArgs]
  | cons t rest ih =>
    cases t with
    | const c =>
      simp only [idArgs, Option.map_eq_none', List.all_cons, ih]
      simp [Term.isConstant]
    | var v =>
      simp [idArgs, Term.isConstant]

/-- C7 counterexample: the identity tag is not defined for every literal:
on a literal containing a variable, `lID` takes the variable branch of the
tag computation, which panics ("datalog: doesn't happen?"), modelled as
`none`. -/
theorem claim_C7_cex : Literal.lID ⟨⟨1, 1⟩, [.var 0]⟩ = none := rfl

/-- C7 (amended): for well-formed literals without variables, the identity
tags are equal iff the literals are identical (same predicate and,
position-wise, the same constants); on a literal containing a variable the
identity-tag computation panics (modelled as `none`) instead of returning a
tag. -/
theorem claim_C7 :
    (∀ a b : Literal, a.wf → b.wf → a.groundB = true → b.groundB = true →
      (a.lID = b.lID ↔ a = b)) ∧
    (∀ c : Literal, ¬ c.groundB = true → c.lID = none) := by
  constructor
  · intro a b ha hb hga hgb
    constructor
    · intro h
      obtain ⟨tsa, htsa⟩ : ∃ ts, idArgs a.args = some ts := by
        cases h2 : idArgs a.args with
        | none => exact absurd hga ((idArgs_none_iff a.args).mp h2)
        | some ts => exact ⟨ts, rfl⟩
      obtain ⟨tsb, htsb⟩ : ∃ ts, idArgs b.args = some ts := by
        cases h2 : idArgs b.args with
        | none => exact absurd hgb ((idArgs_none_iff b.args).mp h2)
        | some ts => exact ⟨ts, rfl⟩
      rw [lID_eq, lID_eq, htsa, htsb] at h
      simp only [Option.map_some', Option.some.injEq, String.ext_iff] at h
      have hsp := comma_split _ _ _ _ h (comma_not_mem_hexChars _)
        (comma_not_mem_hexChars _) (tagBody_commaLed _) (tagBody_commaLed _)
      have hpid := hexChars_inj hsp.1
      have hts := tagBody_inj _ _ hsp.2
      rw [hts] at htsa
      have hargs := idArgs_some_inj a.args b.args tsb htsa htsb
      have ha' : a.args.length = a.pred.arity := ha
      have hb' : b.args.length = b.pred.arity := hb
      have har : a.pred.arity = b.pred.arity := by rw [← ha', ← hb', hargs]
      have hpred : a.pred = b.pred := by
        have h2 : Pred.mk a.pred.pid a.pred.arity =
            Pred.mk b.pred.pid b.pred.arity := by rw [hpid, har]
        exact h2
      have h3 : Literal.mk a.pred a.args = Literal.mk b.pred b.args := by
        rw [hpred, hargs]
      exact h3
    · intro h
      rw [h]
  · intro c hg
    rw [lID_eq]
    have h2 : idArgs c.args = none := (idArgs_none_iff c.args).mpr hg
    rw [h2]
    rfl

theorem claim_C7_witness :
    ((⟨⟨1, 1⟩, [.const 3]⟩ : Literal).lID =
        (⟨⟨1, 1⟩, [.const 4]⟩ : Literal).lID ↔
      (⟨⟨1, 1⟩, [.const 3]⟩ : Literal) = ⟨⟨1, 1⟩, [.const 4]⟩) ∧
    (⟨⟨1, 1⟩, [.var 0]⟩ : Literal).lID = none :=
  ⟨claim_C7.1 ⟨⟨1, 1⟩, [.const 3]⟩ ⟨⟨1, 1⟩, [.const 4]⟩ rfl rfl rfl rfl,
   claim_C7.2 ⟨⟨1, 1⟩, [.var 0]⟩ (by decide)⟩

/-! ### Variant-tag law: token-level lemmas -/

theorem seenIdx_get : ∀ {w : Nat} {l : List Nat} {i : Nat},
    seenIdx w l = some i → ∃ h : i < l.length, l.get ⟨i, h⟩ = w := by
  intro w l
  induction l with
  | nil => intro i h; simp [seenIdx] at h
  | cons x rest ih =>
    intro i h
    by_cases hx : x = w
    · simp only [seenIdx, if_pos hx, Option.some.injEq] at h
      subst h
      exact ⟨by simp, hx⟩
    · simp only [seenIdx, if_neg hx, Option.map_eq_some'] at h
      obtain ⟨j, hj, rfl⟩ := h
      obtain ⟨hlt, hget⟩ := ih hj
      exact ⟨by simpa using Nat.succ_lt_succ hlt, hget⟩

theorem tagArgs_final_append : ∀ (args : List Term) (seen : List Nat),
    ∃ ext, (tagArgs args seen).2 = seen ++ ext := by
  intro args
  induction args with
  | nil => intro seen; exact ⟨[], by simp [tagArgs]⟩
  | cons a rest ih =>
    intro seen
    cases a with
    | const c =>
      obtain ⟨ext, hext⟩ := ih seen
      exact ⟨ext, by simp [tagArgs, hext]⟩
    | var v =>
      cases hv : seenIdx v seen with
      | some i =>
        obtain ⟨ext, hext⟩ := ih seen
        exact ⟨ext, by simp [tagArgs, hv, hext]⟩
      | none =>
        obtain ⟨ext, hext⟩ := ih (seen ++ [v])
        exact ⟨[v] ++ ext, by simp [tagArgs, hv, hext]⟩

theorem tagArgs_tokens_length : ∀ (args : List Term) (seen : List Nat),
    (tagArgs args seen).1.length = args.length := by
  intro args
  induction args with
  | nil => intro seen; simp [tagArgs]
  | cons a rest ih =>
    intro seen
    cases a with
    | const c => simp [tagArgs, ih]
    | var v =>
      cases hv : seenIdx v seen with
      | some i => simp [tagArgs, hv, ih]
      | none => simp [tagArgs, hv, ih]

theorem tagArgs_final_nodup : ∀ (args : List Term) (seen : List Nat),
    seen.Nodup → (tagArgs args seen).2.Nodup := by
  intro args
  induction args with
  | nil => intro seen h; simpa [tagArgs] using h
  | cons a rest ih =>
    intro seen h
    cases a with
    | const c => simpa [tagArgs] using ih seen h
    | var v =>
      cases hv : seenIdx v seen with
      | some i => simpa [tagArgs, hv] using ih seen h
      | none =>
        have hnv : v ∉ seen := (seenIdx_none_iff v seen).mp hv
        have h2 : (seen ++ [v]).Nodup := by
          simp [List.nodup_append, h, hnv]
        simpa [tagArgs, hv] using ih (seen ++ [v]) h2

theorem getD_append_len : ∀ (l : List Nat) (w : Nat) (t : List Nat)
    (d : Nat), (l ++ w :: t).getD l.length d = w := by
  intro l
  induction l with
  | nil => intro w t d; rfl
  | cons x rest ih => intro w t d; simpa using ih w t d

theorem getD_append_lt : ∀ (l l2 : List Nat) (i : Nat) (d : Nat),
    i < l.length → (l ++ l2).getD i d = l.getD i d := by
  intro l
  induction l with
  | nil => intro l2 i d h; simp at h
  | cons x rest ih =>
    intro l2 i d h
    cases i with
    | zero => rfl
    | succ j => simpa using ih l2 j d (by simpa using h)

theorem tagArgs_decode : ∀ (args1 args2 : List Term) (seen1 seen2 : List Nat),
    (tagArgs args1 seen1).1 = (tagArgs args2 seen2).1 →
    seen1.length = seen2.length → seen1.Nodup → seen2.Nodup →
    args2 = args1.map (Term.mapVar fun v =>
      match seenIdx v (tagArgs args1 seen1).2 with
      | some i => (tagArgs args2 seen2).2.getD i 0
      | none => v) := by
  intro args1
  induction args1 with
  | nil =>
    intro args2 seen1 seen2 h hlen hn1 hn2
    cases args2 with
    | nil => simp
    | cons t2 rest2 =>
      exfalso
      cases t2 with
      | const c => simp [tagArgs] at h
      | var w =>
        cases hv2 : seenIdx w seen2 with
        | some i => simp [tagArgs, hv2] at h
        | none => simp [tagArgs, hv2] at h
  | cons a rest1 ih =>
    intro args2 seen1 seen2 h hlen hn1 hn2
    cases a with
    | const c =>
      cases args2 with
      | nil => exfalso; simp [tagArgs] at h
      | cons t2 rest2 =>
        cases t2 with
        | var w =>
          exfalso
          cases hv2 : seenIdx w seen2 with
          | some i => simp [tagArgs, hv2] at h
          | none => simp [tagArgs, hv2] at h
        | const c2 =>
          simp only [tagArgs, List.cons.injEq, Tok.tc.injEq] at h
          obtain ⟨hc, htoks⟩ := h
          have htail := ih rest2 seen1 seen2 htoks hlen hn1 hn2
          simp only [tagArgs, List.map_cons, Term.mapVar]
          rw [List.cons.injEq]
          exact ⟨by rw [hc], htail⟩
    | var v =>
      cases args2 with
      | nil =>
        exfalso
        cases hv1 : seenIdx v seen1 with
        | some i => simp [tagArgs, hv1] at h
        | none => simp [tagArgs, hv1] at h
      | cons t2 rest2 =>
        cases t2 with
        | const c2 =>
          exfalso
          cases hv1 : seenIdx v seen1 with
          | some i => simp [tagArgs, hv1] at h
          | none => simp [tagArgs, hv1] at h
        | var w =>
          cases hv1 : seenIdx v seen1 with
          | some i =>
            cases hv2 : seenIdx w seen2 with
            | some i2 =>
              simp only [tagArgs, hv1, hv2, List.cons.injEq,
                Tok.tv.injEq] at h
              obtain ⟨hi, htoks⟩ := h
              subst hi
              have htail := ih rest2 seen1 seen2 htoks hlen hn1 hn2
              simp only [tagArgs, hv1, hv2, List.map_cons, Term.mapVar]
              rw [List.cons.injEq]
              refine ⟨?_, htail⟩
              obtain ⟨ext1, hext1⟩ := tagArgs_final_append rest1 seen1
              obtain ⟨ext2, hext2⟩ := tagArgs_final_append rest2 seen2
              have hsv : seenIdx v (tagArgs rest1 seen1).2 = some i := by
                rw [hext1]
                exact seenIdx_append_left _ hv1
              obtain ⟨hilt, hget⟩ := seenIdx_get hv2
              rw [hsv, hext2]
              show Term.var w = Term.var ((seen2 ++ ext2).getD i 0)
              rw [getD_append_lt _ _ _ _ hilt]
              have hgd : seen2.getD i 0 = seen2.get ⟨i, hilt⟩ := by
                rw [List.getD_eq_getElem?_getD, List.getElem?_eq_getElem hilt]
                rfl
              rw [hgd, hget]
            | none =>
              exfalso
              simp only [tagArgs, hv1, hv2, List.cons.injEq,
                Tok.tv.injEq] at h
              have hilt := seenIdx_some_lt hv1
              omega
          | none =>
            cases hv2 : seenIdx w seen2 with
            | some i2 =>
              exfalso
              simp only [tagArgs, hv1, hv2, List.cons.injEq,
                Tok.tv.injEq] at h
              have hilt := seenIdx_some_lt hv2
              omega
            | none =>
              simp only [tagArgs, hv1, hv2, List.cons.injEq,
                Tok.tv.injEq] at h
              obtain ⟨_, htoks⟩ := h
              have hnv : v ∉ seen1 := (seenIdx_none_iff v seen1).mp hv1
              have hnw : w ∉ seen2 := (seenIdx_none_iff w seen2).mp hv2
              have hn1' : (seen1 ++ [v]).Nodup := by
                simp [List.nodup_append, hn1, hnv]
              have hn2' : (seen2 ++ [w]).Nodup := by
                simp [List.nodup_append, hn2, hnw]
              have hlen' : (seen1 ++ [v]).length = (seen2 ++ [w]).length := by
                simp [hlen]
              have htail := ih rest2 (seen1 ++ [v]) (seen2 ++ [w]) htoks
                hlen' hn1' hn2'
              simp only [tagArgs, hv1, hv2, List.map_cons, Term.mapVar]
              rw [List.cons.injEq]
              refine ⟨?_, htail⟩
              obtain ⟨ext1, hext1⟩ :=
                tagArgs_final_append rest1 (seen1 ++ [v])
              obtain ⟨ext2, hext2⟩ :=
                tagArgs_final_append rest2 (seen2 ++ [w])
              have hsv : seenIdx v (tagArgs rest1 (seen1 ++ [v])).2 =
                  some seen1.length := by
                rw [hext1, List.append_assoc]
                rw [seenIdx_append_right _ hnv]
                simp [seenIdx]
              rw [hsv]
              show Term.var w =
                Term.var ((tagArgs rest2 (seen2 ++ [w])).2.getD
                  seen1.length 0)
              have hw : (tagArgs rest2 (seen2 ++ [w])).2.getD
                  seen1.length 0 = w := by
                rw [hext2, List.append_assoc, List.singleton_append, hlen]
                exact getD_append_len seen2 w ext2 0
              rw [hw]
  
theorem seenIdx_map_inj (ρ : Nat → Nat) : ∀ (v : Nat) (seen : List Nat),
    (∀ x y, (x = v ∨ x ∈ seen) → (y = v ∨ y ∈ seen) → ρ x = ρ y → x = y) →
    seenIdx (ρ v) (seen.map ρ) = seenIdx v seen := by
  intro v seen
  induction seen with
  | nil => intro _; rfl
  | cons w rest ih =>
    intro hinj
    by_cases hw : w = v
    · subst hw
      simp [seenIdx]
    · have hρw : ¬ ρ w = ρ v := fun hh =>
        hw (hinj w v (Or.inr (by simp)) (Or.inl rfl) hh)
      simp only [List.map_cons, seenIdx, if_neg hρw, if_neg hw]
      rw [ih]
      intro x y hx hy hxy
      refine hinj x y ?_ ?_ hxy
      · rcases hx with hx | hx
        · exact Or.inl hx
        · exact Or.inr (by simp [hx])
      · rcases hy with hy | hy
        · exact Or.inl hy
        · exact Or.inr (by simp [hy])

theorem tagArgs_mapVar (ρ : Nat → Nat) : ∀ (args : List Term)
    (seen : List Nat),
    (∀ x y, (Term.var x ∈ args ∨ x ∈ seen) →
      (Term.var y ∈ args ∨ y ∈ seen) → ρ x = ρ y → x = y) →
    tagArgs (args.map (Term.mapVar ρ)) (seen.map ρ) =
      ((tagArgs args seen).1, (tagArgs args seen).2.map ρ) := by
  intro args
  induction args with
  | nil => intro seen _; simp [tagArgs]
  | cons a rest ih =>
    intro seen hinj
    have hinj' : ∀ x y, (Term.var x ∈ rest ∨ x ∈ seen) →
        (Term.var y ∈ rest ∨ y ∈ seen) → ρ x = ρ y → x = y := by
      intro x y hx hy hxy
      refine hinj x y ?_ ?_ hxy
      · rcases hx with hx | hx
        · exact Or.inl (by simp [hx])
        · exact Or.inr hx
      · rcases hy with hy | hy
        · exact Or.inl (by simp [hy])
        · exact Or.inr hy
    cases a with
    | const c =>
      simp only [List.map_cons, Term.mapVar, tagArgs, ih seen hinj']
    | var v =>
      have hsv : seenIdx (ρ v) (seen.map ρ) = seenIdx v seen := by
        refine seenIdx_map_inj ρ v seen ?_
        intro x y hx hy hxy
        refine hinj x y ?_ ?_ hxy
        · rcases hx with rfl | hx
          · exact Or.inl (by simp)
          · exact Or.inr hx
        · rcases hy with rfl | hy
          · exact Or.inl (by simp)
          · exact Or.inr hy
      cases hv : seenIdx v seen with
      | some i =>
        rw [hv] at hsv
        simp only [List.map_cons, Term.mapVar, tagArgs, hv, hsv,
          ih seen hinj']
      | none =>
        rw [hv] at hsv
        have hinj2 : ∀ x y, (Term.var x ∈ rest ∨ x ∈ seen ++ [v]) →
            (Term.var y ∈ rest ∨ y ∈ seen ++ [v]) → ρ x = ρ y → x = y := by
          intro x y hx hy hxy
          refine hinj x y ?_ ?_ hxy
          · rcases hx with hx | hx
            · exact Or.inl (by simp [hx])
            · rcases List.mem_append.mp hx with hx | hx
              · exact Or.inr hx
              · simp at hx
                exact Or.inl (by simp [hx])
          · rcases hy with hy | hy
            · exact Or.inl (by simp [hy])
            · rcases List.mem_append.mp hy with hy | hy
              · exact Or.inr hy
              · simp at hy
                exact Or.inl (by simp [hy])
        have hrec := ih (seen ++ [v]) hinj2
        simp only [List.map_append, List.map_cons, List.map_nil] at hrec
        simp only [List.map_cons, Term.mapVar, tagArgs, hv, hsv]
        rw [hrec]
        simp

theorem map_self_eq {α : Type} {l : List α} {g : α → α}
    (h : l = l.map g) : ∀ x ∈ l, g x = x := by
  intro x hx
  obtain ⟨i, hi, hx2⟩ := List.mem_iff_getElem.mp hx
  have h4 : l[i]? = (l.map g)[i]? := by rw [← h]
  rw [List.getElem?_map, List.getElem?_eq_getElem hi] at h4
  simp only [Option.map_some', Option.some.injEq] at h4
  rw [← hx2]
  exact h4.symm

/-- C6: two literals have the same variant tag exactly when one can be
turned into the other by a variable renaming that is a bijection between
their variable sets (injective on the first literal's variables and,
automatically, onto the second's). -/
theorem claim_C6 (a b : Literal) (ha : a.wf) (hb : b.wf) :
    a.tag = b.tag ↔
      ∃ ρ : Nat → Nat, Set.BijOn ρ a.varSet b.varSet ∧ a.mapVar ρ = b := by
  constructor
  · intro h
    rw [litTag_eq_iff] at h
    obtain ⟨hpid, htoks⟩ := h
    have hlen_args : a.args.length = b.args.length := by
      rw [← tagArgs_tokens_length a.args [], htoks,
        tagArgs_tokens_length]
    have ha' : a.args.length = a.pred.arity := ha
    have hb' : b.args.length = b.pred.arity := hb
    have harity : a.pred.arity = b.pred.arity :=
      ha'.symm.trans (hlen_args.trans hb')
    have hpred : a.pred = b.pred := by
      have h2 : Pred.mk a.pred.pid a.pred.arity =
          Pred.mk b.pred.pid b.pred.arity := by rw [hpid, harity]
      exact h2
    obtain ⟨ρ, hdec⟩ : ∃ ρ, b.args = a.args.map (Term.mapVar ρ) :=
      ⟨_, tagArgs_decode a.args b.args [] [] htoks rfl
        List.nodup_nil List.nodup_nil⟩
    obtain ⟨ρ', hdec'⟩ : ∃ ρ', a.args = b.args.map (Term.mapVar ρ') :=
      ⟨_, tagArgs_decode b.args a.args [] [] htoks.symm rfl
        List.nodup_nil List.nodup_nil⟩
    refine ⟨ρ, ⟨?_, ?_, ?_⟩, ?_⟩
    · intro x hx
      have hxa : Term.var x ∈ a.args := hx
      have hmem := List.mem_map_of_mem (Term.mapVar ρ) hxa
      rw [← hdec] at hmem
      exact hmem
    · intro x hx y hy hxy
      have hcomp : a.args = a.args.map (Term.mapVar ρ' ∘ Term.mapVar ρ) := by
        rw [← List.map_map, ← hdec, ← hdec']
      have hpt := map_self_eq hcomp
      have hx2 := hpt (Term.var x) hx
      have hy2 := hpt (Term.var y) hy
      simp only [Function.comp_apply, Term.mapVar, Term.var.injEq] at hx2 hy2
      rw [← hx2, ← hy2, hxy]
    · intro w hw
      have hwb : Term.var w ∈ b.args := hw
      rw [hdec] at hwb
      obtain ⟨t, ht, ht2⟩ := List.mem_map.mp hwb
      cases t with
      | const c => exact absurd ht2 (by simp [Term.mapVar])
      | var u =>
        refine ⟨u, ht, ?_⟩
        simpa [Term.mapVar] using ht2
    · have h3 : Literal.mk a.pred (a.args.map (Term.mapVar ρ)) =
          Literal.mk b.pred b.args := by
        rw [hpred, ← hdec]
      exact h3
  · rintro ⟨ρ, hbij, hmap⟩
    rw [litTag_eq_iff]
    have hargs : b.args = a.args.map (Term.mapVar ρ) := by
      have h2 : (a.mapVar ρ).args = b.args := congrArg Literal.args hmap
      exact h2.symm
    have hpred : a.pred = b.pred := by
      have h2 : (a.mapVar ρ).pred = b.pred := congrArg Literal.pred hmap
      exact h2
    constructor
    · rw [hpred]
    · have hinj : ∀ x y, (Term.var x ∈ a.args ∨ x ∈ ([] : List Nat)) →
          (Term.var y ∈ a.args ∨ y ∈ ([] : List Nat)) →
          ρ x = ρ y → x = y := by
        intro x y hx hy hxy
        rcases hx with hx | hx
        · rcases hy with hy | hy
          · exact hbij.2.1 hx hy hxy
          · simp at hy
        · simp at hx
      have h2 := tagArgs_mapVar ρ a.args [] hinj
      simp only [List.map_nil] at h2
      rw [hargs, h2]

theorem claim_C6_witness :
    Literal.wf ⟨⟨1, 2⟩, [.var 3, .var 4]⟩ ∧
    Literal.wf ⟨⟨1, 2⟩, [.var 8, .var 8]⟩ ∧
    ((⟨⟨1, 2⟩, [.var 3, .var 4]⟩ : Literal).tag =
        (⟨⟨1, 2⟩, [.var 8, .var 8]⟩ : Literal).tag ↔
      ∃ ρ : Nat → Nat,
        Set.BijOn ρ (Literal.varSet ⟨⟨1, 2⟩, [.var 3, .var 4]⟩)
          (Literal.varSet ⟨⟨1, 2⟩, [.var 8, .var 8]⟩) ∧
        Literal.mapVar ⟨⟨1, 2⟩, [.var 3, .var 4]⟩ ρ =
          ⟨⟨1, 2⟩, [.var 8, .var 8]⟩) :=
  ⟨rfl, rfl, claim_C6 ⟨⟨1, 2⟩, [.var 3, .var 4]⟩ ⟨⟨1, 2⟩, [.var 8, .var 8]⟩
    rfl rfl⟩


/-! ### Substitution, groundness and safety lemmas -/

theorem isEmpty_true_iff {α : Type} {l : List α} : l.isEmpty = true ↔ l = [] := by
  cases l <;> simp [List.isEmpty]

theorem substT_nil (t : Term) : substT [] t = t := by
  cases t <;> rfl

theorem subst_nil (l : Literal) : l.subst [] = l := rfl

theorem map_substT_nil (args : List Term) : args.map (substT []) = args := by
  induction args with
  | nil => rfl
  | cons a r ih => simp only [List.map_cons, substT_nil, ih]

theorem subst_eq_map (l : Literal) (e : Env) :
    l.subst e = ⟨l.pred, l.args.map (substT e)⟩ := by
  unfold Literal.subst
  by_cases h : (e.isEmpty || l.args.isEmpty) = true
  · rw [if_pos h]
    rcases Bool.or_eq_true_iff.mp h with h1 | h1
    · have he : e = [] := isEmpty_true_iff.mp h1
      subst he
      rw [map_substT_nil]
    · have ha : l.args = [] := isEmpty_true_iff.mp h1
      rw [ha]
      cases l with
      | mk p args => simp_all
  · rw [if_neg h]
    rfl

theorem map_subst_nil_list (bs : List Literal) :
    bs.map (fun l => l.subst []) = bs := by
  induction bs with
  | nil => rfl
  | cons b r ih => rw [List.map_cons, subst_nil, ih]

theorem clause_subst_eq (c : Clause) (e : Env) :
    c.subst e = ⟨c.head.subst e, c.body.map (fun l => l.subst e)⟩ := by
  unfold Clause.subst Clause.drop
  by_cases h : e.isEmpty = true
  · rw [if_pos h]
    have he : e = [] := isEmpty_true_iff.mp h
    subst he
    rw [subst_nil, map_subst_nil_list]
  · rw [if_neg h]
    rfl

theorem safe_subst {c : Clause} (hs : SafeProp c) (e : Env) :
    SafeProp (c.subst e) := by
  rw [clause_subst_eq]
  intro v hv
  have hv' : Term.var v ∈ (c.head.subst e).args := hv
  rw [subst_eq_map] at hv'
  have hv2 : Term.var v ∈ c.head.args.map (substT e) := hv'
  obtain ⟨t, ht, hteq⟩ := List.mem_map.mp hv2
  cases t with
  | const cc => exact absurd hteq (by simp [substT])
  | var u =>
    obtain ⟨b, hb, hub⟩ := hs u ht
    refine ⟨b.subst e, List.mem_map_of_mem _ hb, ?_⟩
    rw [subst_eq_map]
    show Term.var v ∈ b.args.map (substT e)
    rw [← hteq]
    exact List.mem_map_of_mem _ hub

theorem renameC_safe {c : Clause} (hs : SafeProp c) (ctr : Nat) :
    SafeProp (c.renameC ctr).1 := by
  unfold Clause.renameC
  exact safe_subst hs _

theorem ground_iff {l : Literal} :
    l.groundB = true ↔ ∀ t ∈ l.args, t.isConstant = true := by
  unfold Literal.groundB
  exact List.all_eq_true

theorem isConstant_iff {t : Term} : t.isConstant = true ↔ ∃ c, t = .const c := by
  cases t <;> simp [Term.isConstant]

theorem ground_shuffle {l : Literal} (hg : l.groundB = true) (e : Env) (ctr : Nat) :
    l.shuffleC e ctr = (e, ctr) := by
  rw [ground_iff] at hg
  obtain ⟨p, args⟩ := l
  simp only [Literal.shuffleC]
  revert hg
  show (∀ t ∈ args, t.isConstant = true) → _
  induction args generalizing e ctr with
  | nil => intro _; rfl
  | cons a r ih =>
    intro hg
    obtain ⟨c, rfl⟩ := isConstant_iff.mp (hg a (List.mem_cons_self a r))
    rw [List.foldl_cons]
    exact ih e ctr (fun t ht => hg t (List.mem_cons_of_mem _ ht))

theorem map_substT_ground {e : Env} {args : List Term}
    (h : ∀ t ∈ args, t.isConstant = true) : args.map (substT e) = args := by
  induction args with
  | nil => rfl
  | cons a r ih =>
    obtain ⟨c, rfl⟩ := isConstant_iff.mp (h a (List.mem_cons_self a r))
    simp only [List.map_cons]
    rw [ih (fun t ht => h t (List.mem_cons_of_mem _ ht))]
    rfl

theorem ground_subst {l : Literal} (hg : l.groundB = true) (e : Env) :
    l.subst e = l := by
  rw [subst_eq_map, map_substT_ground (ground_iff.mp hg)]

theorem ground_renameL {l : Literal} (hg : l.groundB = true) (ctr : Nat) :
    l.renameL ctr = (l, ctr) := by
  simp only [Literal.renameL]
  rw [ground_shuffle hg]
  rw [subst_nil]

theorem safe_fact_ground {c : Clause} (hs : SafeProp c) (hb : c.body = []) :
    c.head.groundB = true := by
  rw [ground_iff]
  intro t ht
  cases t with
  | const cc => rfl
  | var v =>
    obtain ⟨b, hbmem, _⟩ := hs v ht
    rw [hb] at hbmem
    exact absurd hbmem (List.not_mem_nil b)

theorem idArgs_ground {args : List Term}
    (h : ∀ t ∈ args, t.isConstant = true) : ∃ ts, idArgs args = some ts := by
  induction args with
  | nil => exact ⟨[], rfl⟩
  | cons a r ih =>
    obtain ⟨c, rfl⟩ := isConstant_iff.mp (h a (List.mem_cons_self a r))
    obtain ⟨ts, hts⟩ := ih (fun t ht => h t (List.mem_cons_of_mem _ ht))
    exact ⟨.tc c :: ts, by simp [idArgs, hts]⟩

theorem ground_lID {l : Literal} (hg : l.groundB = true) :
    ∃ fid, l.lID = some fid := by
  obtain ⟨ts, hts⟩ := idArgs_ground (ground_iff.mp hg)
  refine ⟨⟨hexChars l.pred.pid ++ (ts.map fun t => ',' :: tokChars t).flatten⟩, ?_⟩
  unfold Literal.lID
  rw [hts]
  rfl


/-! ### Unification against a ground literal -/

theorem chaseN_const (n : Nat) (e : Env) (c : Nat) :
    chaseN n e (.const c) = .const c := by
  cases n <;> rfl

theorem chase_const (e : Env) (c : Nat) : chase e (.const c) = .const c :=
  chaseN_const _ e c

theorem chase_var_unbound {e : Env} {v : Nat} (h : envLookup e v = none) :
    chase e (.var v) = .var v := by
  show chaseN (e.length + 1) e (.var v) = .var v
  simp [chaseN, h]

theorem chase_var_cases {e : Env}
    (hconst : ∀ v t, (v, t) ∈ e → t.isConstant = true) (v : Nat) :
    (envLookup e v = none ∧ chase e (.var v) = .var v) ∨
    (∃ c, envLookup e v = some (.const c) ∧ chase e (.var v) = .const c) := by
  cases hl : envLookup e v with
  | none => exact .inl ⟨rfl, chase_var_unbound hl⟩
  | some t =>
    obtain ⟨c, rfl⟩ := isConstant_iff.mp (hconst v t (envLookup_some_mem hl))
    refine .inr ⟨c, rfl, ?_⟩
    show chaseN (e.length + 1) e (.var v) = .const c
    simp [chaseN, hl, chaseN_const]

theorem unifyArgs_ground_spec : ∀ (as bs : List Term) (e0 e : Env),
    (∀ t ∈ bs, t.isConstant = true) →
    (∀ v t, (v, t) ∈ e0 → t.isConstant = true) →
    unifyArgs as bs e0 = some e →
    (∃ ext, e = e0 ++ ext) ∧
    (∀ v t, (v, t) ∈ e → t.isConstant = true) ∧
    (∀ v, Term.var v ∈ as → ∃ c, envLookup e v = some (.const c)) := by
  intro as
  induction as with
  | nil =>
    intro bs e0 e hbs he0 hu
    simp [unifyArgs] at hu
    subst hu
    exact ⟨⟨[], (List.append_nil e0).symm⟩, he0, by simp⟩
  | cons a as' ih =>
    intro bs e0 e hbs he0 hu
    cases bs with
    | nil => simp [unifyArgs] at hu
    | cons b bs' =>
      obtain ⟨cb, rfl⟩ := isConstant_iff.mp (hbs b (List.mem_cons_self b bs'))
      have hbs' : ∀ t ∈ bs', t.isConstant = true :=
        fun t ht => hbs t (List.mem_cons_of_mem _ ht)
      simp only [unifyArgs] at hu
      rw [chase_const] at hu
      cases a with
      | const ca =>
        rw [chase_const] at hu
        by_cases hc : ca = cb
        · subst hc
          rw [if_pos rfl] at hu
          obtain ⟨hext, h2, h3⟩ := ih bs' e0 e hbs' he0 hu
          refine ⟨hext, h2, ?_⟩
          intro v hv
          rcases List.mem_cons.mp hv with hv1 | hv1
          · exact absurd hv1 (by simp)
          · exact h3 v hv1
        · rw [if_neg (by simp [hc])] at hu
          simp [unifyTerm] at hu
      | var va =>
        rcases chase_var_cases he0 va with ⟨hlk, hch⟩ | ⟨c, hlk, hch⟩
        · rw [hch] at hu
          rw [if_neg (by simp)] at hu
          simp only [unifyTerm] at hu
          have he1const : ∀ v t, (v, t) ∈ e0 ++ [(va, Term.const cb)] →
              t.isConstant = true := by
            intro v t hvt
            rcases List.mem_append.mp hvt with h | h
            · exact he0 v t h
            · rw [List.mem_singleton] at h
              rw [show t = Term.const cb from congrArg Prod.snd h]
              rfl
          obtain ⟨⟨ext, heq⟩, h2, h3⟩ := ih bs' _ e hbs' he1const hu
          refine ⟨⟨(va, .const cb) :: ext, by rw [heq]; simp⟩, h2, ?_⟩
          intro v hv
          rcases List.mem_cons.mp hv with hv1 | hv1
          · have hva : v = va := Term.var.inj hv1
            subst hva
            refine ⟨cb, ?_⟩
            rw [heq]
            refine envLookup_append_left ext ?_
            rw [envLookup_append_right _ hlk]
            simp [envLookup]
          · exact h3 v hv1
        · rw [hch] at hu
          by_cases hc : c = cb
          · subst hc
            rw [if_pos rfl] at hu
            obtain ⟨hext, h2, h3⟩ := ih bs' e0 e hbs' he0 hu
            refine ⟨hext, h2, ?_⟩
            intro v hv
            rcases List.mem_cons.mp hv with hv1 | hv1
            · have hva : v = va := Term.var.inj hv1
              subst hva
              obtain ⟨ext, rfl⟩ := hext
              exact ⟨c, envLookup_append_left ext hlk⟩
            · exact h3 v hv1
          · rw [if_neg (by simp [hc])] at hu
            simp [unifyTerm] at hu

theorem unify_ground {a b : Literal} {e : Env} (hg : b.groundB = true)
    (hu : unify a b = some e) :
    (∀ v t, (v, t) ∈ e → t.isConstant = true) ∧
    (∀ v, Term.var v ∈ a.args → ∃ c, envLookup e v = some (.const c)) := by
  unfold unify at hu
  by_cases hp : a.pred = b.pred
  · rw [if_pos hp] at hu
    obtain ⟨_, h2, h3⟩ := unifyArgs_ground_spec a.args b.args [] e
      (ground_iff.mp hg) (by simp) hu
    exact ⟨h2, h3⟩
  · rw [if_neg hp] at hu
    exact absurd hu (by simp)

theorem subst_ground_of_covered {l : Literal} {e : Env}
    (h : ∀ v, Term.var v ∈ l.args → ∃ c, envLookup e v = some (.const c)) :
    (l.subst e).groundB = true := by
  rw [subst_eq_map, ground_iff]
  show ∀ t ∈ l.args.map (substT e), t.isConstant = true
  intro t ht
  obtain ⟨u, hu, rfl⟩ := List.mem_map.mp ht
  cases u with
  | const c => rfl
  | var v =>
    obtain ⟨c, hc⟩ := h v hu
    simp [substT, hc, Term.isConstant]

/-! ### Resolution against a ground fact -/

theorem resolveC_ground_eq {rule : Clause} {b0 : Literal} {rest : List Literal}
    (hbody : rule.body = b0 :: rest) {fact : Literal}
    (hg : fact.groundB = true) (ctr : Nat) :
    resolveC rule fact ctr =
      match unify b0 fact with
      | none => some (none, ctr)
      | some e => some (some (rule.drop 1 e), ctr) := by
  simp only [resolveC, hbody, ground_renameL hg]

theorem resolve_drop_safe {rule : Clause} {b0 : Literal} {rest : List Literal}
    (hbody : rule.body = b0 :: rest) (hs : SafeProp rule)
    {fact : Literal} (hg : fact.groundB = true) {e : Env}
    (hu : unify b0 fact = some e) : SafeProp (rule.drop 1 e) := by
  intro v hv
  have hv' : Term.var v ∈ (rule.head.subst e).args := hv
  rw [subst_eq_map] at hv'
  have hv2 : Term.var v ∈ rule.head.args.map (substT e) := hv'
  obtain ⟨t, ht, hteq⟩ := List.mem_map.mp hv2
  cases t with
  | const c => exact absurd hteq (by simp [substT])
  | var u =>
    obtain ⟨bl, hbl, hubl⟩ := hs u ht
    rw [hbody] at hbl
    rcases List.mem_cons.mp hbl with rfl | hbl'
    · obtain ⟨c, hc⟩ := (unify_ground hg hu).2 u hubl
      rw [show substT e (.var u) = .const c by simp [substT, hc]] at hteq
      exact absurd hteq (by simp)
    · refine ⟨bl.subst e, ?_, ?_⟩
      · show bl.subst e ∈ (rule.body.drop 1).map (fun x => x.subst e)
        rw [hbody]
        exact List.mem_map_of_mem _ hbl'
      · rw [subst_eq_map]
        show Term.var v ∈ bl.args.map (substT e)
        rw [← hteq]
        exact List.mem_map_of_mem _ hubl

theorem resolveC_ground_cases {rule : Clause} {fact : Literal} {ctr : Nat}
    (hb : rule.body ≠ []) (hs : SafeProp rule) (hg : fact.groundB = true) :
    resolveC rule fact ctr = some (none, ctr) ∨
    ∃ r, resolveC rule fact ctr = some (some r, ctr) ∧ SafeProp r := by
  cases hbody : rule.body with
  | nil => exact absurd hbody hb
  | cons b0 rest =>
    rw [resolveC_ground_eq hbody hg]
    cases hu : unify b0 fact with
    | none => exact .inl rfl
    | some e =>
      exact .inr ⟨rule.drop 1 e, rfl, resolve_drop_safe hbody hs hg hu⟩

theorem collectResolved_ground {rule : Clause} (hb : rule.body ≠ [])
    (hs : SafeProp rule) : ∀ (facts : List (String × Literal)) (ctr : Nat),
    (∀ fv ∈ facts, fv.2.groundB = true) →
    ∃ rs, collectResolved rule facts ctr = some (rs, ctr) ∧
      ∀ r ∈ rs, SafeProp r := by
  intro facts
  induction facts with
  | nil => exact fun ctr _ => ⟨[], rfl, by simp⟩
  | cons kv rest ih =>
    intro ctr h
    have hg := h kv (List.mem_cons_self kv rest)
    have htl : ∀ fv ∈ rest, fv.2.groundB = true :=
      fun fv hfv => h fv (List.mem_cons_of_mem kv hfv)
    rcases @resolveC_ground_cases rule kv.2 ctr hb hs hg with hr | ⟨r, hr, hrs⟩
    · obtain ⟨rs, hcr, hsafe⟩ := ih ctr htl
      refine ⟨rs, ?_, hsafe⟩
      simp only [collectResolved, hr, hcr]
    · obtain ⟨rs, hcr, hsafe⟩ := ih ctr htl
      refine ⟨r :: rs, ?_, ?_⟩
      · simp only [collectResolved, hr, hcr]
      · intro r2 hr2
        rcases List.mem_cons.mp hr2 with rfl | hr2
        · exact hrs
        · exact hsafe r2 hr2


/-! ### Table lemmas -/

theorem keyIn_iff {t : List (String × Subgoal)} {k : String} :
    keyIn t k ↔ k ∈ t.map Prod.fst := by
  simp [keyIn, List.mem_map]

theorem tableSet_keys (t : List (String × Subgoal)) (k : String)
    (sg : Subgoal) : (tableSet t k sg).map Prod.fst = t.map Prod.fst := by
  unfold tableSet
  rw [List.map_map]
  refine List.map_congr_left ?_
  intro kv _
  by_cases h : kv.1 = k <;> simp [h, Function.comp]

theorem keyIn_tableSet {t : List (String × Subgoal)} {k k' : String}
    {sg : Subgoal} : keyIn (tableSet t k sg) k' ↔ keyIn t k' := by
  rw [keyIn_iff, keyIn_iff, tableSet_keys]

theorem keyIn_mono_append {t : List (String × Subgoal)} {k' : String}
    (h : keyIn t k') (x : String × Subgoal) : keyIn (t ++ [x]) k' := by
  obtain ⟨e, he, hk⟩ := h
  exact ⟨e, List.mem_append_left _ he, hk⟩

theorem keyIn_tableInsert_mono {t : List (String × Subgoal)} {k k' : String}
    {sg : Subgoal} (h : keyIn t k') : keyIn (tableInsert t k sg) k' := by
  unfold tableInsert
  by_cases hc : (t.any fun kv => kv.1 = k) = true
  · rw [if_pos hc]
    exact keyIn_tableSet.mpr h
  · rw [if_neg hc]
    exact keyIn_mono_append h _

theorem keyIn_tableInsert_self (t : List (String × Subgoal)) (k : String)
    (sg : Subgoal) : keyIn (tableInsert t k sg) k := by
  unfold tableInsert
  by_cases hc : (t.any fun kv => kv.1 = k) = true
  · rw [if_pos hc]
    rw [List.any_eq_true] at hc
    obtain ⟨kv, hkv, hk⟩ := hc
    exact keyIn_tableSet.mpr ⟨kv, hkv, of_decide_eq_true hk⟩
  · rw [if_neg hc]
    exact ⟨(k, sg), List.mem_append_right _ (List.mem_singleton_self _), rfl⟩

theorem mem_tableSet_elim {t : List (String × Subgoal)} {k : String}
    {sg : Subgoal} {kv : String × Subgoal} (h : kv ∈ tableSet t k sg) :
    (kv.1 = k ∧ kv.2 = sg) ∨ (kv ∈ t ∧ kv.1 ≠ k) := by
  unfold tableSet at h
  obtain ⟨kv0, hkv0, heq⟩ := List.mem_map.mp h
  by_cases hk : kv0.1 = k
  · rw [if_pos hk] at heq
    left
    rw [← heq]
    exact ⟨hk, rfl⟩
  · rw [if_neg hk] at heq
    right
    rw [← heq]
    exact ⟨hkv0, hk⟩

theorem mem_tableInsert_elim {t : List (String × Subgoal)} {k : String}
    {sg : Subgoal} {kv : String × Subgoal} (h : kv ∈ tableInsert t k sg) :
    (kv.1 = k ∧ kv.2 = sg) ∨ (kv ∈ t ∧ kv.1 ≠ k) := by
  unfold tableInsert at h
  by_cases hc : (t.any fun kv => kv.1 = k) = true
  · rw [if_pos hc] at h
    exact mem_tableSet_elim h
  · rw [if_neg hc] at h
    rcases List.mem_append.mp h with h1 | h1
    · right
      refine ⟨h1, fun hk => ?_⟩
      exact hc (List.any_eq_true.mpr ⟨kv, h1, by simp [hk]⟩)
    · left
      rw [List.mem_singleton] at h1
      rw [h1]
      exact ⟨rfl, rfl⟩

theorem find?_prop {α : Type} {p : α → Bool} {l : List α} {a : α}
    (h : l.find? p = some a) : p a = true := List.find?_some h

theorem tableFind_none_iff {t : List (String × Subgoal)} {k : String} :
    tableFind t k = none ↔ ¬ keyIn t k := by
  unfold tableFind
  cases hf : t.find? (fun kv => kv.1 = k) with
  | none =>
    simp only [true_iff]
    intro hk
    obtain ⟨e, he, hek⟩ := hk
    have := List.find?_eq_none.mp hf e he
    simp [hek] at this
  | some kv =>
    constructor
    · intro h
      exact absurd h (by simp)
    · intro h
      have hp := find?_prop hf
      exact absurd ⟨kv, List.mem_of_find?_eq_some hf,
        of_decide_eq_true hp⟩ h

theorem tableFind_some_mem {t : List (String × Subgoal)} {k : String}
    {sg : Subgoal} (h : tableFind t k = some sg) : (k, sg) ∈ t := by
  unfold tableFind at h
  cases hf : t.find? (fun kv => kv.1 = k) with
  | none => rw [hf] at h; exact absurd h (by simp)
  | some kv =>
    rw [hf] at h
    have hm := List.mem_of_find?_eq_some hf
    have hp0 := find?_prop hf
    have hp : kv.1 = k := of_decide_eq_true hp0
    have hsg : kv.2 = sg := Option.some.inj h
    have hkv : (k, sg) = kv := Prod.ext hp.symm hsg.symm
    rw [hkv]
    exact hm

theorem keyIn_of_find {t : List (String × Subgoal)} {k : String}
    {sg : Subgoal} (h : tableFind t k = some sg) : keyIn t k :=
  ⟨(k, sg), tableFind_some_mem h, rfl⟩

/-! ### Invariant preservation -/

theorem stateInv_insert {s : QState} (hs : StateInv s) {target : Literal}
    {ws : List Waiter} (hws : WaitersOK s.table ws) (c2 : Nat) :
    StateInv ⟨tableInsert s.table target.tag ⟨target, [], ws⟩, c2⟩ := by
  intro kv hkv
  rcases mem_tableInsert_elim hkv with ⟨hk, hsg⟩ | ⟨hmem, _⟩
  · rw [hsg]
    constructor
    · intro fv hfv
      exact absurd hfv (List.not_mem_nil fv)
    · intro wt hwt
      obtain ⟨h1, h2, h3⟩ := hws wt hwt
      exact ⟨h1, h2, keyIn_tableInsert_mono h3⟩
  · constructor
    · exact (hs kv hmem).1
    · intro wt hwt
      obtain ⟨h1, h2, h3⟩ := (hs kv hmem).2 wt hwt
      exact ⟨h1, h2, keyIn_tableInsert_mono h3⟩

theorem stateInv_addFact {s : QState} (hs : StateInv s) {k : String}
    {sg : Subgoal} (hf : tableFind s.table k = some sg) {fact : Literal}
    {fid : String} (hg : fact.groundB = true) (hid : fact.lID = some fid)
    (c2 : Nat) :
    StateInv ⟨tableSet s.table k
      ⟨sg.target, sg.facts ++ [(fid, fact)], sg.waiters⟩, c2⟩ := by
  have h0 := hs (k, sg) (tableFind_some_mem hf)
  intro kv hkv
  rcases mem_tableSet_elim hkv with ⟨hk, hsg⟩ | ⟨hmem, _⟩
  · rw [hsg]
    constructor
    · intro fv hfv
      rcases List.mem_append.mp hfv with h1 | h1
      · exact h0.1 fv h1
      · rw [List.mem_singleton] at h1
        rw [h1]
        exact ⟨hg, hid⟩
    · intro wt hwt
      obtain ⟨h1, h2, h3⟩ := h0.2 wt hwt
      exact ⟨h1, h2, keyIn_tableSet.mpr h3⟩
  · refine ⟨(hs kv hmem).1, ?_⟩
    intro wt hwt
    obtain ⟨h1, h2, h3⟩ := (hs kv hmem).2 wt hwt
    exact ⟨h1, h2, keyIn_tableSet.mpr h3⟩

theorem stateInv_addWaiter {s : QState} (hs : StateInv s) {k : String}
    {sg : Subgoal} (hf : tableFind s.table k = some sg) {wt0 : Waiter}
    (hb : wt0.rule.body ≠ []) (hsafe : SafeProp wt0.rule)
    (hkey : keyIn s.table wt0.sgTag) (c2 : Nat) :
    StateInv ⟨tableSet s.table k
      ⟨sg.target, sg.facts, sg.waiters ++ [wt0]⟩, c2⟩ := by
  have h0 := hs (k, sg) (tableFind_some_mem hf)
  intro kv hkv
  rcases mem_tableSet_elim hkv with ⟨hk, hsg⟩ | ⟨hmem, _⟩
  · rw [hsg]
    refine ⟨h0.1, ?_⟩
    intro wt hwt
    rcases List.mem_append.mp hwt with h1 | h1
    · obtain ⟨ha, hb2, h3⟩ := h0.2 wt h1
      exact ⟨ha, hb2, keyIn_tableSet.mpr h3⟩
    · rw [List.mem_singleton] at h1
      subst h1
      exact ⟨hb, hsafe, keyIn_tableSet.mpr hkey⟩
  · refine ⟨(hs kv hmem).1, ?_⟩
    intro wt hwt
    obtain ⟨h1, h2, h3⟩ := (hs kv hmem).2 wt hwt
    exact ⟨h1, h2, keyIn_tableSet.mpr h3⟩

/-! ### Postcondition combinators -/

theorem proverPost_out {t : List (String × Subgoal)} : ProverPost t .out := by
  constructor
  · intro h
    exact PRes.noConfusion h
  · intro s' h
    exact PRes.noConfusion h

theorem proverPost_ok {t : List (String × Subgoal)} {s : QState}
    (hs : StateInv s) (hk : ∀ k, keyIn t k → keyIn s.table k) :
    ProverPost t (.ok s) := by
  constructor
  · intro h
    exact PRes.noConfusion h
  · intro s' h
    have hss : s = s' := PRes.ok.inj h
    subst hss
    exact ⟨hs, hk⟩

theorem proverPost_mono {t1 t2 : List (String × Subgoal)} {r : PRes QState}
    (h : ProverPost t2 r) (hk : ∀ k, keyIn t1 k → keyIn t2 k) :
    ProverPost t1 r :=
  ⟨h.1, fun s' hs' => ⟨(h.2 s' hs').1, fun k hk1 => (h.2 s' hs').2 k (hk k hk1)⟩⟩

theorem waitersOK_mono {t1 t2 : List (String × Subgoal)} {ws : List Waiter}
    (h : WaitersOK t1 ws) (hk : ∀ k, keyIn t1 k → keyIn t2 k) :
    WaitersOK t2 ws :=
  fun wt hwt => ⟨(h wt hwt).1, (h wt hwt).2.1, hk _ (h wt hwt).2.2⟩


/-! ### One-step unfolding equations for the prover -/

theorem searchF_succ (w : World) (n : Nat) (s : QState) (target : Literal)
    (ws : List Waiter) :
    searchF w (n+1) s target ws =
      (if w.isDB target.pred.pid then
        clauseLoop w n ⟨tableInsert s.table target.tag ⟨target, [], ws⟩, s.ctr⟩
          target (w.db target.pred.pid)
      else .halted) := rfl

theorem clauseLoop_cons (w : World) (n : Nat) (s : QState) (target : Literal)
    (c : Clause) (rest : List Clause) :
    clauseLoop w (n+1) s target (c :: rest) =
      (match unify target (c.renameC s.ctr).1.head with
      | none => clauseLoop w n ⟨s.table, (c.renameC s.ctr).2⟩ target rest
      | some e =>
        match discoveredF w n ⟨s.table, (c.renameC s.ctr).2⟩ target.tag
            ((c.renameC s.ctr).1.subst e) with
        | .ok s2 => clauseLoop w n s2 target rest
        | r => r) := rfl

theorem discoveredF_succ (w : World) (n : Nat) (s : QState) (sgTag : String)
    (c : Clause) :
    discoveredF w (n+1) s sgTag c =
      (if c.body.isEmpty then discoveredFactF w n s sgTag c.head
      else discoveredRuleF w n s sgTag c) := rfl

theorem discoveredRuleF_succ (w : World) (n : Nat) (s : QState)
    (sgTag : String) (c : Clause) :
    discoveredRuleF w (n+1) s sgTag c =
      (match c.body with
      | [] => .halted
      | b0 :: _ =>
        match tableFind s.table b0.tag with
        | none => searchF w n s b0 [⟨sgTag, c⟩]
        | some bodysg =>
          match collectResolved c bodysg.facts s.ctr with
          | none => .halted
          | some (rs, ctr2) =>
            rulesLoop w n ⟨tableSet s.table b0.tag
              ⟨bodysg.target, bodysg.facts, bodysg.waiters ++ [⟨sgTag, c⟩]⟩,
              ctr2⟩ sgTag rs) := rfl

theorem discoveredFactF_succ (w : World) (n : Nat) (s : QState)
    (factTag : String) (fact : Literal) :
    discoveredFactF w (n+1) s factTag fact =
      (match tableFind s.table factTag with
      | none => .halted
      | some sg =>
        match fact.lID with
        | none => .halted
        | some fid =>
          if sg.facts.any (fun kv => kv.1 = fid) then .ok s
          else waitersLoop w n ⟨tableSet s.table factTag
            ⟨sg.target, sg.facts ++ [(fid, fact)], sg.waiters⟩, s.ctr⟩
            sg.waiters fact) := rfl

theorem rulesLoop_cons (w : World) (n : Nat) (s : QState) (sgTag : String)
    (r : Clause) (rest : List Clause) :
    rulesLoop w (n+1) s sgTag (r :: rest) =
      (match discoveredF w n s sgTag r with
      | .ok s2 => rulesLoop w n s2 sgTag rest
      | r2 => r2) := rfl

theorem waitersLoop_cons (w : World) (n : Nat) (s : QState) (wt : Waiter)
    (rest : List Waiter) (fact : Literal) :
    waitersLoop w (n+1) s (wt :: rest) fact =
      (match resolveC wt.rule fact s.ctr with
      | none => .halted
      | some (none, ctr2) => waitersLoop w n ⟨s.table, ctr2⟩ rest fact
      | some (some r, ctr2) =>
        match discoveredF w n ⟨s.table, ctr2⟩ wt.sgTag r with
        | .ok s2 => waitersLoop w n s2 rest fact
        | r2 => r2) := rfl

/-! ### The master invariant of the prover -/

theorem prover_master (w : World) (hw : WorldSafe w) (hdb : WorldAllDB w) :
    ∀ n : Nat,
    (∀ s target ws, StateInv s → WaitersOK s.table ws →
      ProverPost (tableInsert s.table target.tag ⟨target, [], ws⟩)
        (searchF w n s target ws)) ∧
    (∀ s target cs, StateInv s → keyIn s.table target.tag →
      (∀ c ∈ cs, SafeProp c) →
      ProverPost s.table (clauseLoop w n s target cs)) ∧
    (∀ s sgTag c, StateInv s → keyIn s.table sgTag → SafeProp c →
      ProverPost s.table (discoveredF w n s sgTag c)) ∧
    (∀ s sgTag c, StateInv s → keyIn s.table sgTag → SafeProp c →
      c.body ≠ [] → ProverPost s.table (discoveredRuleF w n s sgTag c)) ∧
    (∀ s sgTag fact, StateInv s → keyIn s.table sgTag →
      fact.groundB = true →
      ProverPost s.table (discoveredFactF w n s sgTag fact)) ∧
    (∀ s sgTag rs, StateInv s → keyIn s.table sgTag →
      (∀ r ∈ rs, SafeProp r) →
      ProverPost s.table (rulesLoop w n s sgTag rs)) ∧
    (∀ s ws fact, StateInv s → WaitersOK s.table ws →
      fact.groundB = true →
      ProverPost s.table (waitersLoop w n s ws fact)) := by
  intro n
  induction n with
  | zero =>
    refine ⟨?_, ?_, ?_, ?_, ?_, ?_, ?_⟩ <;> intros <;> exact proverPost_out
  | succ n ih =>
    obtain ⟨ihS, ihC, ihD, ihR, ihF, ihRL, ihWL⟩ := ih
    refine ⟨?_, ?_, ?_, ?_, ?_, ?_, ?_⟩
    · -- searchF
      intro s target ws hs hws
      rw [searchF_succ, hdb target.pred.pid, if_pos rfl]
      exact ihC ⟨tableInsert s.table target.tag ⟨target, [], ws⟩, s.ctr⟩
        target (w.db target.pred.pid) (stateInv_insert hs hws s.ctr)
        (keyIn_tableInsert_self _ _ _) (fun c hc => hw target.pred.pid c hc)
    · -- clauseLoop
      intro s target cs hs hkey hcls
      cases cs with
      | nil => exact proverPost_ok hs (fun k hk => hk)
      | cons c rest =>
        have htl : ∀ c' ∈ rest, SafeProp c' :=
          fun c' hc' => hcls c' (List.mem_cons_of_mem c hc')
        rw [clauseLoop_cons]
        cases hu : unify target (c.renameC s.ctr).1.head with
        | none =>
          exact ihC ⟨s.table, (c.renameC s.ctr).2⟩ target rest hs hkey htl
        | some e =>
          show ProverPost s.table
            (match discoveredF w n ⟨s.table, (c.renameC s.ctr).2⟩ target.tag
                ((c.renameC s.ctr).1.subst e) with
             | .ok s2 => clauseLoop w n s2 target rest
             | r => r)
          have hsafe2 : SafeProp ((c.renameC s.ctr).1.subst e) :=
            safe_subst (renameC_safe (hcls c (List.mem_cons_self c rest))
              s.ctr) e
          have hD := ihD ⟨s.table, (c.renameC s.ctr).2⟩ target.tag
            ((c.renameC s.ctr).1.subst e) hs hkey hsafe2
          cases hres : discoveredF w n ⟨s.table, (c.renameC s.ctr).2⟩
              target.tag ((c.renameC s.ctr).1.subst e) with
          | out => exact proverPost_out
          | halted => exact absurd hres hD.1
          | ok s2 =>
            obtain ⟨hs2, hk2⟩ := hD.2 s2 hres
            exact proverPost_mono
              (ihC s2 target rest hs2 (hk2 _ hkey) htl) hk2
    · -- discoveredF
      intro s sgTag c hs hkey hsafe
      rw [discoveredF_succ]
      by_cases hb : c.body.isEmpty = true
      · rw [if_pos hb]
        exact ihF s sgTag c.head hs hkey
          (safe_fact_ground hsafe (isEmpty_true_iff.mp hb))
      · rw [if_neg hb]
        exact ihR s sgTag c hs hkey hsafe
          (fun h => hb (by rw [h]; rfl))
    · -- discoveredRuleF
      intro s sgTag c hs hkey hsafe hbody
      rw [discoveredRuleF_succ]
      cases hb : c.body with
      | nil => exact absurd hb hbody
      | cons b0 rest =>
        show ProverPost s.table
          (match tableFind s.table b0.tag with
           | none => searchF w n s b0 [⟨sgTag, c⟩]
           | some bodysg =>
             match collectResolved c bodysg.facts s.ctr with
             | none => PRes.halted
             | some (rs, ctr2) =>
               rulesLoop w n ⟨tableSet s.table b0.tag
                 ⟨bodysg.target, bodysg.facts,
                   bodysg.waiters ++ [⟨sgTag, c⟩]⟩, ctr2⟩ sgTag rs)
        cases hf : tableFind s.table b0.tag with
        | none =>
          have hws : WaitersOK s.table [⟨sgTag, c⟩] := by
            intro wt hwt
            rw [List.mem_singleton] at hwt
            subst hwt
            exact ⟨hbody, hsafe, hkey⟩
          exact proverPost_mono (ihS s b0 [⟨sgTag, c⟩] hs hws)
            (fun k hk => keyIn_tableInsert_mono hk)
        | some bodysg =>
          show ProverPost s.table
            (match collectResolved c bodysg.facts s.ctr with
             | none => PRes.halted
             | some (rs, ctr2) =>
               rulesLoop w n ⟨tableSet s.table b0.tag
                 ⟨bodysg.target, bodysg.facts,
                   bodysg.waiters ++ [⟨sgTag, c⟩]⟩, ctr2⟩ sgTag rs)
          have hfg : ∀ fv ∈ bodysg.facts, fv.2.groundB = true :=
            fun fv hfv =>
              ((hs (b0.tag, bodysg) (tableFind_some_mem hf)).1 fv hfv).1
          obtain ⟨rs, hcr, hrsafe⟩ :=
            collectResolved_ground hbody hsafe bodysg.facts s.ctr hfg
          rw [hcr]
          have hinv1 := @stateInv_addWaiter s hs b0.tag bodysg hf
            ⟨sgTag, c⟩ hbody hsafe hkey s.ctr
          exact proverPost_mono
            (ihRL ⟨tableSet s.table b0.tag
                ⟨bodysg.target, bodysg.facts,
                  bodysg.waiters ++ [⟨sgTag, c⟩]⟩, s.ctr⟩
              sgTag rs hinv1 (keyIn_tableSet.mpr hkey) hrsafe)
            (fun k hk => keyIn_tableSet.mpr hk)
    · -- discoveredFactF
      intro s sgTag fact hs hkey hg
      rw [discoveredFactF_succ]
      cases hf : tableFind s.table sgTag with
      | none => exact absurd hkey (tableFind_none_iff.mp hf)
      | some sg =>
        show ProverPost s.table
          (match fact.lID with
           | none => PRes.halted
           | some fid =>
             if sg.facts.any (fun kv => kv.1 = fid) then PRes.ok s
             else waitersLoop w n ⟨tableSet s.table sgTag
               ⟨sg.target, sg.facts ++ [(fid, fact)], sg.waiters⟩, s.ctr⟩
               sg.waiters fact)
        obtain ⟨fid, hid⟩ := ground_lID hg
        rw [hid]
        show ProverPost s.table
          (if sg.facts.any (fun kv => kv.1 = fid) then PRes.ok s
           else waitersLoop w n ⟨tableSet s.table sgTag
             ⟨sg.target, sg.facts ++ [(fid, fact)], sg.waiters⟩, s.ctr⟩
             sg.waiters fact)
        by_cases hdup : (sg.facts.any fun kv => kv.1 = fid) = true
        · rw [if_pos hdup]
          exact proverPost_ok hs (fun k hk => hk)
        · rw [if_neg hdup]
          have hwok : WaitersOK (tableSet s.table sgTag
              ⟨sg.target, sg.facts ++ [(fid, fact)], sg.waiters⟩)
              sg.waiters := by
            intro wt hwt
            obtain ⟨h1, h2, h3⟩ :=
              (hs (sgTag, sg) (tableFind_some_mem hf)).2 wt hwt
            exact ⟨h1, h2, keyIn_tableSet.mpr h3⟩
          exact proverPost_mono
            (ihWL ⟨tableSet s.table sgTag
                ⟨sg.target, sg.facts ++ [(fid, fact)], sg.waiters⟩, s.ctr⟩
              sg.waiters fact (stateInv_addFact hs hf hg hid s.ctr)
              hwok hg)
            (fun k hk => keyIn_tableSet.mpr hk)
    · -- rulesLoop
      intro s sgTag rs hs hkey hrsafe
      cases rs with
      | nil => exact proverPost_ok hs (fun k hk => hk)
      | cons r rest =>
        have htl : ∀ r' ∈ rest, SafeProp r' :=
          fun r' hr' => hrsafe r' (List.mem_cons_of_mem r hr')
        rw [rulesLoop_cons]
        have hD := ihD s sgTag r hs hkey
          (hrsafe r (List.mem_cons_self r rest))
        cases hres : discoveredF w n s sgTag r with
        | out => exact proverPost_out
        | halted => exact absurd hres hD.1
        | ok s2 =>
          obtain ⟨hs2, hk2⟩ := hD.2 s2 hres
          exact proverPost_mono
            (ihRL s2 sgTag rest hs2 (hk2 _ hkey) htl) hk2
    · -- waitersLoop
      intro s ws fact hs hws hg
      cases ws with
      | nil => exact proverPost_ok hs (fun k hk => hk)
      | cons wt rest =>
        obtain ⟨hb1, hsafe1, hkey1⟩ := hws wt (List.mem_cons_self wt rest)
        have htl : WaitersOK s.table rest :=
          fun wt' h => hws wt' (List.mem_cons_of_mem wt h)
        rw [waitersLoop_cons]
        rcases @resolveC_ground_cases wt.rule fact s.ctr hb1 hsafe1 hg
            with hr | ⟨r, hr, hrsafe⟩
        · rw [hr]
          exact ihWL ⟨s.table, s.ctr⟩ rest fact hs htl hg
        · rw [hr]
          show ProverPost s.table
            (match discoveredF w n ⟨s.table, s.ctr⟩ wt.sgTag r with
             | .ok s2 => waitersLoop w n s2 rest fact
             | r2 => r2)
          have hD := ihD ⟨s.table, s.ctr⟩ wt.sgTag r hs hkey1 hrsafe
          cases hres : discoveredF w n ⟨s.table, s.ctr⟩ wt.sgTag r with
          | out => exact proverPost_out
          | halted => exact absurd hres hD.1
          | ok s2 =>
            obtain ⟨hs2, hk2⟩ := hD.2 s2 hres
            exact proverPost_mono
              (ihWL s2 rest fact hs2 (waitersOK_mono htl hk2) hg) hk2


/-- C10: during a query over a database in which every clause is safe
(and every predicate is a database predicate, as in this engine version),
the prover never panics — in particular the variable branch of the
identity-tag computation is never reached for stored facts — every literal
inserted into any subgoal's fact set is ground, and every answer returned
by `Query` is ground. -/
theorem claim_C10 (w : World) (hw : WorldSafe w) (hdb : WorldAllDB w)
    (fuel : Nat) (l : Literal) (ctr0 : Nat) :
    QueryF w fuel l ctr0 ≠ .halted ∧
    (∀ s', searchF w fuel ⟨[], ctr0⟩ l [] = .ok s' →
      ∀ kv ∈ s'.table, ∀ fv ∈ kv.2.facts, fv.2.groundB = true) ∧
    (∀ ans, QueryF w fuel l ctr0 = .ok ans → ∀ f ∈ ans, f.groundB = true) := by
  have hM := (prover_master w hw hdb fuel).1 ⟨[], ctr0⟩ l []
    (fun kv hkv => absurd hkv (List.not_mem_nil kv))
    (fun wt hwt => absurd hwt (List.not_mem_nil wt))
  cases hres : searchF w fuel ⟨[], ctr0⟩ l [] with
  | halted => exact absurd hres hM.1
  | out =>
    have hq : QueryF w fuel l ctr0 = .out := by
      unfold QueryF
      rw [hres]
    refine ⟨?_, ?_, ?_⟩
    · rw [hq]
      intro h
      exact PRes.noConfusion h
    · intro s' hs'
      exact PRes.noConfusion hs'
    · intro ans hans
      rw [hq] at hans
      exact absurd hans (by simp)
  | ok s =>
    obtain ⟨hsinv, hkeys⟩ := hM.2 s hres
    have hkey : keyIn s.table l.tag :=
      hkeys l.tag (keyIn_tableInsert_self [] l.tag ⟨l, [], []⟩)
    obtain ⟨sg, hsg⟩ : ∃ sg, tableFind s.table l.tag = some sg := by
      cases hf : tableFind s.table l.tag with
      | none => exact absurd hkey (tableFind_none_iff.mp hf)
      | some sg => exact ⟨sg, rfl⟩
    have hq : QueryF w fuel l ctr0 = .ok (sg.facts.map Prod.snd) := by
      unfold QueryF
      rw [hres]
      show (match tableFind s.table l.tag with
            | none => PRes.halted
            | some sg => PRes.ok (sg.facts.map Prod.snd)) =
          PRes.ok (sg.facts.map Prod.snd)
      rw [hsg]
    refine ⟨?_, ?_, ?_⟩
    · rw [hq]
      intro h
      exact PRes.noConfusion h
    · intro s' hs'
      have hss : s = s' := PRes.ok.inj hs'
      subst hss
      intro kv hkv fv hfv
      exact ((hsinv kv hkv).1 fv hfv).1
    · intro ans hans f hf
      rw [hq] at hans
      have hans2 : sg.facts.map Prod.snd = ans := PRes.ok.inj hans
      rw [← hans2] at hf
      obtain ⟨fv, hfv, rfl⟩ := List.mem_map.mp hf
      exact ((hsinv (l.tag, sg) (tableFind_some_mem hsg)).1 fv hfv).1

/-- C10 witness: a concrete all-database world with an empty store is safe,
and the query never panics there. -/
theorem claim_C10_witness :
    WorldSafe ⟨fun _ => true, fun _ => []⟩ ∧
    WorldAllDB ⟨fun _ => true, fun _ => []⟩ ∧
    QueryF ⟨fun _ => true, fun _ => []⟩ 3 ⟨⟨1, 1⟩, [Term.var 0]⟩ 0 ≠
      .halted := by
  have hw : WorldSafe ⟨fun _ => true, fun _ => []⟩ :=
    fun p c hc => absurd hc (List.not_mem_nil c)
  have hdb : WorldAllDB ⟨fun _ => true, fun _ => []⟩ := fun p => rfl
  exact ⟨hw, hdb, (claim_C10 _ hw hdb 3 ⟨⟨1, 1⟩, [Term.var 0]⟩ 0).1⟩


/-! ### Branch equations for the prover -/

theorem searchF_succ_db {w : World} {target : Literal}
    (hdb : w.isDB target.pred.pid = true) (n : Nat) (s : QState)
    (ws : List Waiter) :
    searchF w (n+1) s target ws =
      clauseLoop w n ⟨tableInsert s.table target.tag ⟨target, [], ws⟩, s.ctr⟩
        target (w.db target.pred.pid) := by
  rw [searchF_succ, if_pos hdb]

theorem clauseLoop_cons_none {w : World} {n : Nat} {s : QState}
    {target : Literal} {c : Clause} {rest : List Clause}
    (hu : unify target (c.renameC s.ctr).1.head = none) :
    clauseLoop w (n+1) s target (c :: rest) =
      clauseLoop w n ⟨s.table, (c.renameC s.ctr).2⟩ target rest := by
  rw [clauseLoop_cons, hu]

theorem clauseLoop_cons_some {w : World} {n : Nat} {s : QState}
    {target : Literal} {c : Clause} {rest : List Clause} {e : Env}
    (hu : unify target (c.renameC s.ctr).1.head = some e) :
    clauseLoop w (n+1) s target (c :: rest) =
      (match discoveredF w n ⟨s.table, (c.renameC s.ctr).2⟩ target.tag
          ((c.renameC s.ctr).1.subst e) with
      | .ok s2 => clauseLoop w n s2 target rest
      | r => r) := by
  rw [clauseLoop_cons, hu]

theorem discoveredF_eq_fact {c : Clause} (hb : c.body.isEmpty = true)
    (w : World) (n : Nat) (s : QState) (sgTag : String) :
    discoveredF w (n+1) s sgTag c = discoveredFactF w n s sgTag c.head := by
  rw [discoveredF_succ, if_pos hb]

theorem discoveredF_eq_rule {c : Clause} (hb : ¬ c.body.isEmpty = true)
    (w : World) (n : Nat) (s : QState) (sgTag : String) :
    discoveredF w (n+1) s sgTag c = discoveredRuleF w n s sgTag c := by
  rw [discoveredF_succ, if_neg hb]

theorem discoveredRuleF_eq_new {s : QState} {c : Clause} {b0 : Literal}
    {rest : List Literal} (hb : c.body = b0 :: rest)
    (hf : tableFind s.table b0.tag = none) (w : World) (n : Nat)
    (sgTag : String) :
    discoveredRuleF w (n+1) s sgTag c = searchF w n s b0 [⟨sgTag, c⟩] := by
  rw [discoveredRuleF_succ, hb]
  show (match tableFind s.table b0.tag with
    | none => searchF w n s b0 [⟨sgTag, c⟩]
    | some bodysg =>
      match collectResolved c bodysg.facts s.ctr with
      | none => PRes.halted
      | some (rs, ctr2) =>
        rulesLoop w n ⟨tableSet s.table b0.tag
          ⟨bodysg.target, bodysg.facts, bodysg.waiters ++ [(⟨sgTag, c⟩ : Waiter)]⟩,
          ctr2⟩ sgTag rs) = _
  rw [hf]

theorem discoveredRuleF_eq_crnone {s : QState} {c : Clause} {b0 : Literal}
    {rest : List Literal} {bodysg : Subgoal} (hb : c.body = b0 :: rest)
    (hf : tableFind s.table b0.tag = some bodysg)
    (hcr : collectResolved c bodysg.facts s.ctr = none) (w : World)
    (n : Nat) (sgTag : String) :
    discoveredRuleF w (n+1) s sgTag c = .halted := by
  rw [discoveredRuleF_succ, hb]
  show (match tableFind s.table b0.tag with
    | none => searchF w n s b0 [⟨sgTag, c⟩]
    | some bodysg =>
      match collectResolved c bodysg.facts s.ctr with
      | none => PRes.halted
      | some (rs, ctr2) =>
        rulesLoop w n ⟨tableSet s.table b0.tag
          ⟨bodysg.target, bodysg.facts, bodysg.waiters ++ [(⟨sgTag, c⟩ : Waiter)]⟩,
          ctr2⟩ sgTag rs) = _
  rw [hf]
  show (match collectResolved c bodysg.facts s.ctr with
    | none => PRes.halted
    | some (rs, ctr2) =>
      rulesLoop w n ⟨tableSet s.table b0.tag
        ⟨bodysg.target, bodysg.facts, bodysg.waiters ++ [(⟨sgTag, c⟩ : Waiter)]⟩,
        ctr2⟩ sgTag rs) = _
  rw [hcr]

theorem discoveredRuleF_eq_found {s : QState} {c : Clause} {b0 : Literal}
    {rest : List Literal} {bodysg : Subgoal} {rs : List Clause} {ctr2 : Nat}
    (hb : c.body = b0 :: rest)
    (hf : tableFind s.table b0.tag = some bodysg)
    (hcr : collectResolved c bodysg.facts s.ctr = some (rs, ctr2))
    (w : World) (n : Nat) (sgTag : String) :
    discoveredRuleF w (n+1) s sgTag c =
      rulesLoop w n ⟨tableSet s.table b0.tag
        ⟨bodysg.target, bodysg.facts, bodysg.waiters ++ [⟨sgTag, c⟩]⟩,
        ctr2⟩ sgTag rs := by
  rw [discoveredRuleF_succ, hb]
  show (match tableFind s.table b0.tag with
    | none => searchF w n s b0 [⟨sgTag, c⟩]
    | some bodysg =>
      match collectResolved c bodysg.facts s.ctr with
      | none => PRes.halted
      | some (rs, ctr2) =>
        rulesLoop w n ⟨tableSet s.table b0.tag
          ⟨bodysg.target, bodysg.facts, bodysg.waiters ++ [(⟨sgTag, c⟩ : Waiter)]⟩,
          ctr2⟩ sgTag rs) = _
  rw [hf]
  show (match collectResolved c bodysg.facts s.ctr with
    | none => PRes.halted
    | some (rs, ctr2) =>
      rulesLoop w n ⟨tableSet s.table b0.tag
        ⟨bodysg.target, bodysg.facts, bodysg.waiters ++ [(⟨sgTag, c⟩ : Waiter)]⟩,
        ctr2⟩ sgTag rs) = _
  rw [hcr]

theorem discoveredFactF_eq_nofind {s : QState} {sgTag : String}
    (hf : tableFind s.table sgTag = none) (w : World) (n : Nat)
    (fact : Literal) :
    discoveredFactF w (n+1) s sgTag fact = .halted := by
  rw [discoveredFactF_succ, hf]

theorem discoveredFactF_eq_noid {s : QState} {sgTag : String} {sg : Subgoal}
    {fact : Literal} (hf : tableFind s.table sgTag = some sg)
    (hid : fact.lID = none) (w : World) (n : Nat) :
    discoveredFactF w (n+1) s sgTag fact = .halted := by
  rw [discoveredFactF_succ, hf]
  show (match fact.lID with
    | none => PRes.halted
    | some fid =>
      if sg.facts.any (fun kv => kv.1 = fid) then PRes.ok s
      else waitersLoop w n ⟨tableSet s.table sgTag
        ⟨sg.target, sg.facts ++ [(fid, fact)], sg.waiters⟩, s.ctr⟩
        sg.waiters fact) = _
  rw [hid]

theorem discoveredFactF_eq_dup {s : QState} {sgTag : String} {sg : Subgoal}
    {fact : Literal} {fid : String}
    (hf : tableFind s.table sgTag = some sg) (hid : fact.lID = some fid)
    (hdup : (sg.facts.any fun kv => kv.1 = fid) = true) (w : World)
    (n : Nat) :
    discoveredFactF w (n+1) s sgTag fact = .ok s := by
  rw [discoveredFactF_succ, hf]
  show (match fact.lID with
    | none => PRes.halted
    | some fid =>
      if sg.facts.any (fun kv => kv.1 = fid) then PRes.ok s
      else waitersLoop w n ⟨tableSet s.table sgTag
        ⟨sg.target, sg.facts ++ [(fid, fact)], sg.waiters⟩, s.ctr⟩
        sg.waiters fact) = _
  rw [hid]
  show (if sg.facts.any (fun kv => kv.1 = fid) then PRes.ok s
    else waitersLoop w n ⟨tableSet s.table sgTag
      ⟨sg.target, sg.facts ++ [(fid, fact)], sg.waiters⟩, s.ctr⟩
      sg.waiters fact) = _
  rw [if_pos hdup]

theorem discoveredFactF_eq_new {s : QState} {sgTag : String} {sg : Subgoal}
    {fact : Literal} {fid : String}
    (hf : tableFind s.table sgTag = some sg) (hid : fact.lID = some fid)
    (hdup : ¬ (sg.facts.any fun kv => kv.1 = fid) = true) (w : World)
    (n : Nat) :
    discoveredFactF w (n+1) s sgTag fact =
      waitersLoop w n ⟨tableSet s.table sgTag
        ⟨sg.target, sg.facts ++ [(fid, fact)], sg.waiters⟩, s.ctr⟩
        sg.waiters fact := by
  rw [discoveredFactF_succ, hf]
  show (match fact.lID with
    | none => PRes.halted
    | some fid =>
      if sg.facts.any (fun kv => kv.1 = fid) then PRes.ok s
      else waitersLoop w n ⟨tableSet s.table sgTag
        ⟨sg.target, sg.facts ++ [(fid, fact)], sg.waiters⟩, s.ctr⟩
        sg.waiters fact) = _
  rw [hid]
  show (if sg.facts.any (fun kv => kv.1 = fid) then PRes.ok s
    else waitersLoop w n ⟨tableSet s.table sgTag
      ⟨sg.target, sg.facts ++ [(fid, fact)], sg.waiters⟩, s.ctr⟩
      sg.waiters fact) = _
  rw [if_neg hdup]

theorem waitersLoop_cons_resnone {s : QState} {wt : Waiter} {fact : Literal}
    (hr : resolveC wt.rule fact s.ctr = none) (w : World) (n : Nat)
    (rest : List Waiter) :
    waitersLoop w (n+1) s (wt :: rest) fact = .halted := by
  rw [waitersLoop_cons, hr]

theorem waitersLoop_cons_skip {s : QState} {wt : Waiter} {fact : Literal}
    {ctr2 : Nat} (hr : resolveC wt.rule fact s.ctr = some (none, ctr2))
    (w : World) (n : Nat) (rest : List Waiter) :
    waitersLoop w (n+1) s (wt :: rest) fact =
      waitersLoop w n ⟨s.table, ctr2⟩ rest fact := by
  rw [waitersLoop_cons, hr]

theorem waitersLoop_cons_disc {s : QState} {wt : Waiter} {fact : Literal}
    {r : Clause} {ctr2 : Nat}
    (hr : resolveC wt.rule fact s.ctr = some (some r, ctr2)) (w : World)
    (n : Nat) (rest : List Waiter) :
    waitersLoop w (n+1) s (wt :: rest) fact =
      (match discoveredF w n ⟨s.table, ctr2⟩ wt.sgTag r with
      | .ok s2 => waitersLoop w n s2 rest fact
      | r2 => r2) := by
  rw [waitersLoop_cons, hr]

/-! ### Fuel monotonicity: a completed run is stable under more fuel -/

theorem prover_mono (w : World) :
    ∀ n : Nat,
    (∀ m, n ≤ m → ∀ s target ws, searchF w n s target ws ≠ .out →
      searchF w m s target ws = searchF w n s target ws) ∧
    (∀ m, n ≤ m → ∀ s target cs, clauseLoop w n s target cs ≠ .out →
      clauseLoop w m s target cs = clauseLoop w n s target cs) ∧
    (∀ m, n ≤ m → ∀ s sgTag c, discoveredF w n s sgTag c ≠ .out →
      discoveredF w m s sgTag c = discoveredF w n s sgTag c) ∧
    (∀ m, n ≤ m → ∀ s sgTag c, discoveredRuleF w n s sgTag c ≠ .out →
      discoveredRuleF w m s sgTag c = discoveredRuleF w n s sgTag c) ∧
    (∀ m, n ≤ m → ∀ s sgTag fact, discoveredFactF w n s sgTag fact ≠ .out →
      discoveredFactF w m s sgTag fact = discoveredFactF w n s sgTag fact) ∧
    (∀ m, n ≤ m → ∀ s sgTag rs, rulesLoop w n s sgTag rs ≠ .out →
      rulesLoop w m s sgTag rs = rulesLoop w n s sgTag rs) ∧
    (∀ m, n ≤ m → ∀ s ws fact, waitersLoop w n s ws fact ≠ .out →
      waitersLoop w m s ws fact = waitersLoop w n s ws fact) := by
  intro n
  induction n with
  | zero =>
    refine ⟨?_, ?_, ?_, ?_, ?_, ?_, ?_⟩ <;>
      · intro m hm a b c hne
        exact absurd rfl hne
  | succ n ih =>
    obtain ⟨ihS, ihC, ihD, ihR, ihF, ihRL, ihWL⟩ := ih
    refine ⟨?_, ?_, ?_, ?_, ?_, ?_, ?_⟩
    · -- searchF
      intro m hm s target ws hne
      obtain ⟨m', rfl⟩ : ∃ m', m = m' + 1 := ⟨m - 1, by omega⟩
      have hm' : n ≤ m' := by omega
      by_cases hdb : w.isDB target.pred.pid = true
      · rw [searchF_succ_db hdb, searchF_succ_db hdb]
        apply ihC m' hm'
        intro hout
        apply hne
        rw [searchF_succ_db hdb, hout]
      · rw [searchF_succ, if_neg hdb, searchF_succ, if_neg hdb]
    · -- clauseLoop
      intro m hm s target cs hne
      obtain ⟨m', rfl⟩ : ∃ m', m = m' + 1 := ⟨m - 1, by omega⟩
      have hm' : n ≤ m' := by omega
      cases cs with
      | nil => rfl
      | cons c rest =>
        cases hu : unify target (c.renameC s.ctr).1.head with
        | none =>
          rw [clauseLoop_cons_none hu, clauseLoop_cons_none hu]
          apply ihC m' hm'
          intro hout
          apply hne
          rw [clauseLoop_cons_none hu, hout]
        | some e =>
          rw [clauseLoop_cons_some hu, clauseLoop_cons_some hu]
          have hne2 : discoveredF w n ⟨s.table, (c.renameC s.ctr).2⟩
              target.tag ((c.renameC s.ctr).1.subst e) ≠ .out := by
            intro hout
            apply hne
            rw [clauseLoop_cons_some hu, hout]
          rw [ihD m' hm' _ _ _ hne2]
          cases hres : discoveredF w n ⟨s.table, (c.renameC s.ctr).2⟩
              target.tag ((c.renameC s.ctr).1.subst e) with
          | out => exact absurd hres hne2
          | halted => rfl
          | ok s2 =>
            show clauseLoop w m' s2 target rest =
              clauseLoop w n s2 target rest
            apply ihC m' hm'
            intro hout
            apply hne
            rw [clauseLoop_cons_some hu, hres]
            exact hout
    · -- discoveredF
      intro m hm s sgTag c hne
      obtain ⟨m', rfl⟩ : ∃ m', m = m' + 1 := ⟨m - 1, by omega⟩
      have hm' : n ≤ m' := by omega
      by_cases hb : c.body.isEmpty = true
      · rw [discoveredF_eq_fact hb, discoveredF_eq_fact hb]
        apply ihF m' hm'
        intro hout
        apply hne
        rw [discoveredF_eq_fact hb, hout]
      · rw [discoveredF_eq_rule hb, discoveredF_eq_rule hb]
        apply ihR m' hm'
        intro hout
        apply hne
        rw [discoveredF_eq_rule hb, hout]
    · -- discoveredRuleF
      intro m hm s sgTag c hne
      obtain ⟨m', rfl⟩ : ∃ m', m = m' + 1 := ⟨m - 1, by omega⟩
      have hm' : n ≤ m' := by omega
      cases hb : c.body with
      | nil => rw [discoveredRuleF_succ, hb, discoveredRuleF_succ, hb]
      | cons b0 rest =>
        cases hf : tableFind s.table b0.tag with
        | none =>
          rw [discoveredRuleF_eq_new hb hf, discoveredRuleF_eq_new hb hf]
          apply ihS m' hm'
          intro hout
          apply hne
          rw [discoveredRuleF_eq_new hb hf, hout]
        | some bodysg =>
          cases hcr : collectResolved c bodysg.facts s.ctr with
          | none =>
            rw [discoveredRuleF_eq_crnone hb hf hcr,
              discoveredRuleF_eq_crnone hb hf hcr]
          | some p =>
            obtain ⟨rs, ctr2⟩ := p
            rw [discoveredRuleF_eq_found hb hf hcr,
              discoveredRuleF_eq_found hb hf hcr]
            apply ihRL m' hm'
            intro hout
            apply hne
            rw [discoveredRuleF_eq_found hb hf hcr, hout]
    · -- discoveredFactF
      intro m hm s sgTag fact hne
      obtain ⟨m', rfl⟩ : ∃ m', m = m' + 1 := ⟨m - 1, by omega⟩
      have hm' : n ≤ m' := by omega
      cases hf : tableFind s.table sgTag with
      | none =>
        rw [discoveredFactF_eq_nofind hf, discoveredFactF_eq_nofind hf]
      | some sg =>
        cases hid : fact.lID with
        | none =>
          rw [discoveredFactF_eq_noid hf hid, discoveredFactF_eq_noid hf hid]
        | some fid =>
          by_cases hdup : (sg.facts.any fun kv => kv.1 = fid) = true
          · rw [discoveredFactF_eq_dup hf hid hdup,
              discoveredFactF_eq_dup hf hid hdup]
          · rw [discoveredFactF_eq_new hf hid hdup,
              discoveredFactF_eq_new hf hid hdup]
            apply ihWL m' hm'
            intro hout
            apply hne
            rw [discoveredFactF_eq_new hf hid hdup, hout]
    · -- rulesLoop
      intro m hm s sgTag rs hne
      obtain ⟨m', rfl⟩ : ∃ m', m = m' + 1 := ⟨m - 1, by omega⟩
      have hm' : n ≤ m' := by omega
      cases rs with
      | nil => rfl
      | cons r rest =>
        rw [rulesLoop_cons, rulesLoop_cons]
        have hne2 : discoveredF w n s sgTag r ≠ .out := by
          intro hout
          apply hne
          rw [rulesLoop_cons, hout]
        rw [ihD m' hm' _ _ _ hne2]
        cases hres : discoveredF w n s sgTag r with
        | out => exact absurd hres hne2
        | halted => rfl
        | ok s2 =>
          show rulesLoop w m' s2 sgTag rest = rulesLoop w n s2 sgTag rest
          apply ihRL m' hm'
          intro hout
          apply hne
          rw [rulesLoop_cons, hres]
          exact hout
    · -- waitersLoop
      intro m hm s ws fact hne
      obtain ⟨m', rfl⟩ : ∃ m', m = m' + 1 := ⟨m - 1, by omega⟩
      have hm' : n ≤ m' := by omega
      cases ws with
      | nil => rfl
      | cons wt rest =>
        cases hr : resolveC wt.rule fact s.ctr with
        | none =>
          rw [waitersLoop_cons_resnone hr, waitersLoop_cons_resnone hr]
        | some p =>
          obtain ⟨ro, ctr2⟩ := p
          cases ro with
          | none =>
            rw [waitersLoop_cons_skip hr, waitersLoop_cons_skip hr]
            apply ihWL m' hm'
            intro hout
            apply hne
            rw [waitersLoop_cons_skip hr, hout]
          | some r =>
            rw [waitersLoop_cons_disc hr, waitersLoop_cons_disc hr]
            have hne2 : discoveredF w n ⟨s.table, ctr2⟩ wt.sgTag r ≠
                .out := by
              intro hout
              apply hne
              rw [waitersLoop_cons_disc hr, hout]
            rw [ihD m' hm' _ _ _ hne2]
            cases hres : discoveredF w n ⟨s.table, ctr2⟩ wt.sgTag r with
            | out => exact absurd hres hne2
            | halted => rfl
            | ok s2 =>
              show waitersLoop w m' s2 rest fact =
                waitersLoop w n s2 rest fact
              apply ihWL m' hm'
              intro hout
              apply hne
              rw [waitersLoop_cons_disc hr, hres]
              exact hout


/-! ### Constant-flow lemmas -/

theorem envConsts_mem {e : Env} {v : Nat} {t : Term} (h : (v, t) ∈ e)
    {x : Nat} (hx : x ∈ tconsts t) : x ∈ EnvConsts e := by
  unfold EnvConsts
  exact List.mem_flatMap.mpr ⟨(v, t), h, hx⟩

theorem chaseN_consts : ∀ (n : Nat) (e : Env) (t : Term) (c : Nat),
    chaseN n e t = .const c → c ∈ tconsts t ∨ c ∈ EnvConsts e := by
  intro n
  induction n with
  | zero =>
    intro e t c h
    left
    rw [show t = Term.const c from h]
    simp [tconsts]
  | succ n ih =>
    intro e t c h
    cases t with
    | const c0 =>
      left
      have : c0 = c := Term.const.inj h
      simp [tconsts, this]
    | var v =>
      cases hl : envLookup e v with
      | none =>
        rw [show chaseN (n+1) e (.var v) = .var v by simp [chaseN, hl]] at h
        exact absurd h (by simp)
      | some t' =>
        rw [show chaseN (n+1) e (.var v) = chaseN n e t' by
          simp [chaseN, hl]] at h
        rcases ih e t' c h with h1 | h1
        · exact .inr (envConsts_mem (envLookup_some_mem hl) h1)
        · exact .inr h1

theorem chase_consts {e : Env} {t : Term} {c : Nat}
    (h : chase e t = .const c) : c ∈ tconsts t ∨ c ∈ EnvConsts e :=
  chaseN_consts _ e t c h

theorem envConsts_append (e e2 : Env) :
    EnvConsts (e ++ e2) = EnvConsts e ++ EnvConsts e2 := by
  unfold EnvConsts
  exact List.flatMap_append e e2 _

theorem unifyTerm_consts {ai bi : Term} {e0 e1 : Env}
    (h : unifyTerm ai bi e0 = some e1) {x : Nat} (hx : x ∈ EnvConsts e1) :
    x ∈ EnvConsts e0 ∨ x ∈ tconsts ai ∨ x ∈ tconsts bi := by
  cases ai with
  | const ca =>
    cases bi with
    | const cb => exact absurd h (by simp [unifyTerm])
    | var vb =>
      have he : e1 = e0 ++ [(vb, Term.const ca)] :=
        (Option.some.inj h).symm
      rw [he, envConsts_append] at hx
      rcases List.mem_append.mp hx with h1 | h1
      · exact .inl h1
      · right; left
        simpa [EnvConsts, tconsts] using h1
  | var va =>
    cases bi with
    | const cb =>
      have he : e1 = e0 ++ [(va, Term.const cb)] :=
        (Option.some.inj h).symm
      rw [he, envConsts_append] at hx
      rcases List.mem_append.mp hx with h1 | h1
      · exact .inl h1
      · right; right
        simpa [EnvConsts, tconsts] using h1
    | var vb =>
      have he : e1 = e0 ++ [(va, Term.var vb)] :=
        (Option.some.inj h).symm
      rw [he, envConsts_append] at hx
      rcases List.mem_append.mp hx with h1 | h1
      · exact .inl h1
      · exact absurd h1 (by simp [EnvConsts, tconsts])


theorem flatMap_cons_tail {α β : Type} {f : α → List β} {x : β} (a : α)
    {l : List α} (h : x ∈ l.flatMap f) : x ∈ (a :: l).flatMap f := by
  obtain ⟨t, ht, hx⟩ := List.mem_flatMap.mp h
  exact List.mem_flatMap.mpr ⟨t, List.mem_cons_of_mem a ht, hx⟩

theorem flatMap_cons_head {α β : Type} {f : α → List β} {x : β} {a : α}
    (l : List α) (h : x ∈ f a) : x ∈ (a :: l).flatMap f :=
  List.mem_flatMap.mpr ⟨a, List.mem_cons_self a l, h⟩

theorem unifyArgs_consts : ∀ (as bs : List Term) (e0 e : Env),
    unifyArgs as bs e0 = some e → ∀ x ∈ EnvConsts e,
    x ∈ EnvConsts e0 ∨ x ∈ as.flatMap tconsts ∨ x ∈ bs.flatMap tconsts := by
  intro as
  induction as with
  | nil =>
    intro bs e0 e hu x hx
    simp [unifyArgs] at hu
    subst hu
    exact .inl hx
  | cons a as' ih =>
    intro bs e0 e hu x hx
    cases bs with
    | nil => simp [unifyArgs] at hu
    | cons b bs' =>
      simp only [unifyArgs] at hu
      by_cases hab : chase e0 a = chase e0 b
      · rw [if_pos hab] at hu
        rcases ih bs' e0 e hu x hx with h1 | h1 | h1
        · exact .inl h1
        · exact .inr (.inl (flatMap_cons_tail a h1))
        · exact .inr (.inr (flatMap_cons_tail b h1))
      · rw [if_neg hab] at hu
        cases hut : unifyTerm (chase e0 a) (chase e0 b) e0 with
        | none => rw [hut] at hu; exact absurd hu (by simp)
        | some e1 =>
          rw [hut] at hu
          rcases ih bs' e1 e hu x hx with h1 | h1 | h1
          · rcases unifyTerm_consts hut h1 with h2 | h2 | h2
            · exact .inl h2
            · -- x ∈ tconsts (chase e0 a)
              cases hca : chase e0 a with
              | var v => rw [hca] at h2; exact absurd h2 (by simp [tconsts])
              | const c =>
                rw [hca] at h2
                have hx2 : x = c := by simpa [tconsts] using h2
                subst hx2
                rcases chase_consts hca with h3 | h3
                · exact .inr (.inl (flatMap_cons_head as' h3))
                · exact .inl h3
            · cases hcb : chase e0 b with
              | var v => rw [hcb] at h2; exact absurd h2 (by simp [tconsts])
              | const c =>
                rw [hcb] at h2
                have hx2 : x = c := by simpa [tconsts] using h2
                subst hx2
                rcases chase_consts hcb with h3 | h3
                · exact .inr (.inr (flatMap_cons_head bs' h3))
                · exact .inl h3
          · exact .inr (.inl (flatMap_cons_tail a h1))
          · exact .inr (.inr (flatMap_cons_tail b h1))

theorem unify_consts {a b : Literal} {e : Env} (hu : unify a b = some e) :
    ∀ x ∈ EnvConsts e, x ∈ LConsts a ∨ x ∈ LConsts b := by
  unfold unify at hu
  by_cases hp : a.pred = b.pred
  · rw [if_pos hp] at hu
    intro x hx
    rcases unifyArgs_consts a.args b.args [] e hu x hx with h1 | h1 | h1
    · exact absurd h1 (by simp [EnvConsts])
    · exact .inl h1
    · exact .inr h1
  · rw [if_neg hp] at hu
    exact absurd hu (by simp)

theorem substT_consts {e : Env} {t : Term} {x : Nat}
    (h : x ∈ tconsts (substT e t)) : x ∈ tconsts t ∨ x ∈ EnvConsts e := by
  cases t with
  | const c => exact .inl h
  | var v =>
    cases hl : envLookup e v with
    | none =>
      rw [show substT e (.var v) = .var v by simp [substT, hl]] at h
      exact absurd h (by simp [tconsts])
    | some t' =>
      rw [show substT e (.var v) = t' by simp [substT, hl]] at h
      exact .inr (envConsts_mem (envLookup_some_mem hl) h)

theorem subst_LConsts {l : Literal} {e : Env} {x : Nat}
    (h : x ∈ LConsts (l.subst e)) : x ∈ LConsts l ∨ x ∈ EnvConsts e := by
  rw [subst_eq_map] at h
  have h2 : x ∈ (l.args.map (substT e)).flatMap tconsts := h
  obtain ⟨t, ht, hx⟩ := List.mem_flatMap.mp h2
  obtain ⟨t0, ht0, rfl⟩ := List.mem_map.mp ht
  rcases substT_consts hx with h3 | h3
  · exact .inl (List.mem_flatMap.mpr ⟨t0, ht0, h3⟩)
  · exact .inr h3

theorem shuffle_envConsts {l : Literal} : ∀ (e0 : Env) (ctr : Nat),
    ∀ x ∈ EnvConsts (l.shuffleC e0 ctr).1, x ∈ EnvConsts e0 := by
  obtain ⟨p, args⟩ := l
  simp only [Literal.shuffleC]
  induction args with
  | nil => intro e0 ctr x hx; exact hx
  | cons a rest ih =>
    intro e0 ctr x hx
    rw [List.foldl_cons] at hx
    cases a with
    | const c => exact ih e0 ctr x hx
    | var v =>
      cases hl : envLookup e0 v with
      | some t =>
        rw [show (match Term.var v with
          | Term.const _ => (e0, ctr)
          | Term.var v =>
            match envLookup e0 v with
            | some _ => (e0, ctr)
            | none => (e0 ++ [(v, Term.var ctr)], ctr + 1)) = (e0, ctr) by
          simp [hl]] at hx
        exact ih e0 ctr x hx
      | none =>
        rw [show (match Term.var v with
          | Term.const _ => (e0, ctr)
          | Term.var v =>
            match envLookup e0 v with
            | some _ => (e0, ctr)
            | none => (e0 ++ [(v, Term.var ctr)], ctr + 1)) =
            (e0 ++ [(v, Term.var ctr)], ctr + 1) by simp [hl]] at hx
        have := ih (e0 ++ [(v, Term.var ctr)]) (ctr + 1) x hx
        rw [envConsts_append] at this
        rcases List.mem_append.mp this with h1 | h1
        · exact h1
        · exact absurd h1 (by simp [EnvConsts, tconsts])


/-! ### Clause-shape preservation -/

theorem subst_pred (l : Literal) (e : Env) : (l.subst e).pred = l.pred := by
  rw [subst_eq_map]

theorem subst_len (l : Literal) (e : Env) :
    (l.subst e).args.length = l.args.length := by
  rw [subst_eq_map]
  exact List.length_map _ _

theorem head_consts_sub {c : Clause} {x : Nat} (h : x ∈ LConsts c.head) :
    x ∈ CConsts c := List.mem_append_left _ h

theorem body_consts_sub {c : Clause} {b : Literal} (hb : b ∈ c.body)
    {x : Nat} (h : x ∈ LConsts b) : x ∈ CConsts c :=
  List.mem_append_right _ (List.mem_flatMap.mpr ⟨b, hb, h⟩)

theorem clauseOK_subst {w : World} {ps : List Nat} {q : Literal} {c : Clause}
    (hc : ClauseOK w ps q c) {e : Env}
    (he : ∀ x ∈ EnvConsts e, x ∈ ConstU w ps q) :
    ClauseOK w ps q (c.subst e) := by
  obtain ⟨⟨c0, hc0, hp0, hl0⟩, hslots, hblen, hconsts⟩ := hc
  rw [clause_subst_eq]
  refine ⟨⟨c0, hc0, ?_, ?_⟩, ?_, ?_, ?_⟩
  · rw [show (Clause.mk (c.head.subst e) (c.body.map fun l =>
      l.subst e)).head = c.head.subst e from rfl, subst_pred]
    exact hp0
  · rw [show (Clause.mk (c.head.subst e) (c.body.map fun l =>
      l.subst e)).head = c.head.subst e from rfl, subst_len]
    exact hl0
  · intro b hb
    obtain ⟨b0, hb0, rfl⟩ := List.mem_map.mp hb
    rw [subst_pred, subst_len]
    exact hslots b0 hb0
  · show (c.body.map fun l => l.subst e).length ≤ maxB w ps
    rw [List.length_map]
    exact hblen
  · intro x hx
    rcases List.mem_append.mp hx with h1 | h1
    · rcases subst_LConsts h1 with h2 | h2
      · exact hconsts x (head_consts_sub h2)
      · exact he x h2
    · obtain ⟨b, hb, hxb⟩ := List.mem_flatMap.mp h1
      obtain ⟨b0, hb0, rfl⟩ := List.mem_map.mp hb
      rcases subst_LConsts hxb with h2 | h2
      · exact hconsts x (body_consts_sub hb0 h2)
      · exact he x h2

theorem clauseOK_renameC {w : World} {ps : List Nat} {q : Literal}
    {c : Clause} (hc : ClauseOK w ps q c) (ctr : Nat) :
    ClauseOK w ps q (c.renameC ctr).1 := by
  unfold Clause.renameC
  refine clauseOK_subst hc ?_
  have hfold : ∀ (bs : List Literal) (e0 : Env) (c0 : Nat),
      ∀ x ∈ EnvConsts (bs.foldl
        (fun acc lit => lit.shuffleC acc.1 acc.2) (e0, c0)).1,
      x ∈ EnvConsts e0 := by
    intro bs
    induction bs with
    | nil => intro e0 c0 x hx; exact hx
    | cons b rest ih =>
      intro e0 c0 x hx
      rw [List.foldl_cons] at hx
      exact shuffle_envConsts e0 c0 x
        (ih (b.shuffleC e0 c0).1 (b.shuffleC e0 c0).2 x hx)
  intro x hx
  exact absurd (hfold c.body [] ctr x hx) (by simp [EnvConsts])

theorem clauseOK_drop1 {w : World} {ps : List Nat} {q : Literal} {c : Clause}
    (hc : ClauseOK w ps q c) {e : Env}
    (he : ∀ x ∈ EnvConsts e, x ∈ ConstU w ps q) :
    ClauseOK w ps q (c.drop 1 e) ∧
    (c.drop 1 e).body.length = c.body.length - 1 := by
  obtain ⟨⟨c0, hc0, hp0, hl0⟩, hslots, hblen, hconsts⟩ := hc
  refine ⟨⟨⟨c0, hc0, ?_, ?_⟩, ?_, ?_, ?_⟩, ?_⟩
  · show (c.head.subst e).pred = c0.head.pred
    rw [subst_pred]; exact hp0
  · show (c.head.subst e).args.length = c0.head.args.length
    rw [subst_len]; exact hl0
  · intro b hb
    obtain ⟨b0, hb0, rfl⟩ := List.mem_map.mp hb
    rw [subst_pred, subst_len]
    exact hslots b0 (List.mem_of_mem_drop hb0)
  · show ((c.body.drop 1).map fun l => l.subst e).length ≤ maxB w ps
    rw [List.length_map, List.length_drop]
    omega
  · intro x hx
    rcases List.mem_append.mp hx with h1 | h1
    · rcases subst_LConsts h1 with h2 | h2
      · exact hconsts x (head_consts_sub h2)
      · exact he x h2
    · obtain ⟨b, hb, hxb⟩ := List.mem_flatMap.mp h1
      obtain ⟨b0, hb0, rfl⟩ := List.mem_map.mp hb
      rcases subst_LConsts hxb with h2 | h2
      · exact hconsts x (body_consts_sub (List.mem_of_mem_drop hb0) h2)
      · exact he x h2
  · show ((c.body.drop 1).map fun l => l.subst e).length = c.body.length - 1
    rw [List.length_map, List.length_drop]

theorem resolveC_shape {w : World} {ps : List Nat} {q : Literal}
    {rule : Clause} {fact : Literal} {ctr : Nat} {r : Clause} {ctr2 : Nat}
    (hc : ClauseOK w ps q rule) (hg : fact.groundB = true)
    (hfc : ∀ x ∈ LConsts fact, x ∈ ConstU w ps q)
    (hr : resolveC rule fact ctr = some (some r, ctr2)) :
    ClauseOK w ps q r ∧ r.body.length + 1 = rule.body.length := by
  cases hbody : rule.body with
  | nil =>
    rw [show resolveC rule fact ctr = none by
      unfold resolveC; rw [hbody]] at hr
    exact absurd hr (by simp)
  | cons b0 rest =>
    rw [resolveC_ground_eq hbody hg] at hr
    cases hu : unify b0 fact with
    | none =>
      rw [hu] at hr
      simp at hr
    | some e =>
      rw [hu] at hr
      have h1 := Option.some.inj hr
      have h2 : some (rule.drop 1 e) = some r := congrArg Prod.fst h1
      have hre : r = rule.drop 1 e := (Option.some.inj h2).symm
      have he : ∀ x ∈ EnvConsts e, x ∈ ConstU w ps q := by
        intro x hx
        rcases unify_consts hu x hx with h1 | h1
        · exact hc.2.2.2 x (body_consts_sub (hbody ▸
            List.mem_cons_self b0 rest) h1)
        · exact hfc x h1
      obtain ⟨hok, hlen⟩ := clauseOK_drop1 hc he
      subst hre
      refine ⟨hok, ?_⟩
      rw [hlen, hbody]
      simp

theorem collectResolved_shape {w : World} {ps : List Nat} {q : Literal}
    {rule : Clause} (hc : ClauseOK w ps q rule) :
    ∀ (facts : List (String × Literal)) (ctr : Nat) (rs : List Clause)
      (ctr2 : Nat),
    (∀ fv ∈ facts, fv.2.groundB = true ∧
      ∀ x ∈ LConsts fv.2, x ∈ ConstU w ps q) →
    collectResolved rule facts ctr = some (rs, ctr2) →
    ∀ r ∈ rs, ClauseOK w ps q r ∧ r.body.length + 1 = rule.body.length := by
  intro facts
  induction facts with
  | nil =>
    intro ctr rs ctr2 _ hcr r hr
    simp [collectResolved] at hcr
    rw [hcr.1] at hr
    exact absurd hr (List.not_mem_nil r)
  | cons kv rest ih =>
    intro ctr rs ctr2 hf hcr r hr
    simp only [collectResolved] at hcr
    cases hres : resolveC rule kv.2 ctr with
    | none => rw [hres] at hcr; simp at hcr
    | some p =>
      obtain ⟨ro, ctrm⟩ := p
      cases ro with
      | none =>
        rw [hres] at hcr
        have hcrA : collectResolved rule rest ctrm = some (rs, ctr2) := hcr
        exact ih ctrm rs ctr2
          (fun fv hfv => hf fv (List.mem_cons_of_mem kv hfv)) hcrA r hr
      | some r1 =>
        rw [hres] at hcr
        have hcrA : (match collectResolved rule rest ctrm with
          | none => none
          | some (rs2, ctr3) => some (r1 :: rs2, ctr3)) =
            some (rs, ctr2) := hcr
        cases hcr2 : collectResolved rule rest ctrm with
        | none => rw [hcr2] at hcrA; simp at hcrA
        | some p2 =>
          obtain ⟨rs2, ctr3⟩ := p2
          rw [hcr2] at hcrA
          have hrs : r1 :: rs2 = rs := by
            have := Option.some.inj hcrA
            exact congrArg Prod.fst this
          rw [← hrs] at hr
          rcases List.mem_cons.mp hr with rfl | hr2
          · exact resolveC_shape hc (hf kv (List.mem_cons_self kv rest)).1
              (hf kv (List.mem_cons_self kv rest)).2 hres
          · exact ih ctrm rs2 ctr3
              (fun fv hfv => hf fv (List.mem_cons_of_mem kv hfv)) hcr2 r hr2

/-! ### Universe membership -/

theorem argLists_mem : ∀ (args : List Term) (pool : List Term),
    (∀ t ∈ args, t ∈ pool) → args ∈ argLists pool args.length := by
  intro args
  induction args with
  | nil => intro pool _; simp [argLists]
  | cons a rest ih =>
    intro pool h
    show a :: rest ∈ argLists pool (rest.length + 1)
    unfold argLists
    refine List.mem_flatMap.mpr ⟨a, h a (List.mem_cons_self a rest), ?_⟩
    exact List.mem_map.mpr ⟨rest,
      ih pool (fun t ht => h t (List.mem_cons_of_mem a ht)), rfl⟩

theorem argLists_elim : ∀ (n : Nat) (pool : List Term) (args : List Term),
    args ∈ argLists pool n → args.length = n ∧ ∀ t ∈ args, t ∈ pool := by
  intro n
  induction n with
  | zero =>
    intro pool args h
    simp [argLists] at h
    subst h
    simp
  | succ n ih =>
    intro pool args h
    unfold argLists at h
    obtain ⟨t, ht, hmem⟩ := List.mem_flatMap.mp h
    obtain ⟨rest, hrest, rfl⟩ := List.mem_map.mp hmem
    obtain ⟨hlen, hall⟩ := ih pool rest hrest
    refine ⟨by simp [hlen], ?_⟩
    intro t' ht'
    rcases List.mem_cons.mp ht' with rfl | ht2
    · exact ht
    · exact hall t' ht2

theorem mem_FactU_intro {w : World} {ps : List Nat} {q : Literal}
    {c : Clause} (hc : ClauseOK w ps q c) (hg : c.head.groundB = true) :
    c.head ∈ FactU w ps q := by
  obtain ⟨⟨c0, hc0, hp0, hl0⟩, _, _, hconsts⟩ := hc
  unfold FactU
  refine List.mem_flatMap.mpr ⟨(c0.head.pred, c0.head.args.length),
    List.mem_map.mpr ⟨c0, hc0, rfl⟩, ?_⟩
  refine List.mem_map.mpr ⟨c.head.args, ?_, ?_⟩
  · rw [show ((c0.head.pred, c0.head.args.length) : Pred × Nat).2 =
      c0.head.args.length from rfl, ← hl0]
    refine argLists_mem c.head.args _ ?_
    intro t ht
    obtain ⟨x, rfl⟩ := isConstant_iff.mp (ground_iff.mp hg t ht)
    refine List.mem_map.mpr ⟨x, ?_, rfl⟩
    exact hconsts x (head_consts_sub (List.mem_flatMap.mpr ⟨.const x, ht,
      by simp [tconsts]⟩))
  · show (⟨c0.head.pred, c.head.args⟩ : Literal) = c.head
    rw [← hp0]

theorem mem_FactU_elim {w : World} {ps : List Nat} {q : Literal}
    {fact : Literal} (h : fact ∈ FactU w ps q) :
    fact.groundB = true ∧ ∀ x ∈ LConsts fact, x ∈ ConstU w ps q := by
  unfold FactU at h
  obtain ⟨sl, _, hmem⟩ := List.mem_flatMap.mp h
  obtain ⟨args, hargs, rfl⟩ := List.mem_map.mp hmem
  obtain ⟨_, hall⟩ := argLists_elim _ _ args hargs
  constructor
  · rw [ground_iff]
    intro t ht
    obtain ⟨x, _, rfl⟩ := List.mem_map.mp (hall t ht)
    rfl
  · intro x hx
    obtain ⟨t, ht, hxt⟩ := List.mem_flatMap.mp hx
    obtain ⟨y, hy, rfl⟩ := List.mem_map.mp (hall t ht)
    have : x = y := by simpa [tconsts] using hxt
    rw [this]
    exact hy

theorem le_foldr_max : ∀ (l : List Nat) (x : Nat), x ∈ l →
    x ≤ l.foldr max 0 := by
  intro l
  induction l with
  | nil => intro x hx; exact absurd hx (List.not_mem_nil x)
  | cons y rest ih =>
    intro x hx
    rcases List.mem_cons.mp hx with rfl | hx2
    · exact Nat.le_max_left _ _
    · exact Nat.le_trans (ih x hx2) (Nat.le_max_right _ _)

theorem db_sub_allClauses {w : World} {ps : List Nat}
    (hsupp : ∀ p, p ∉ ps → w.db p = []) :
    ∀ p, ∀ c ∈ w.db p, c ∈ allClauses w ps := by
  intro p c hc
  by_cases hp : p ∈ ps
  · exact List.mem_flatMap.mpr ⟨p, hp, hc⟩
  · rw [hsupp p hp] at hc
    exact absurd hc (List.not_mem_nil c)

theorem clauseOK_of_mem {w : World} {ps : List Nat} (q : Literal)
    {c : Clause} (hc : c ∈ allClauses w ps) : ClauseOK w ps q c := by
  refine ⟨⟨c, hc, rfl, rfl⟩, ?_, ?_, ?_⟩
  · intro b hb
    exact List.mem_cons_of_mem _ (List.mem_flatMap.mpr ⟨c, hc,
      List.mem_map.mpr ⟨b, hb, rfl⟩⟩)
  · exact le_foldr_max _ _ (List.mem_map.mpr ⟨c, hc, rfl⟩)
  · intro x hx
    exact List.mem_append_left _ (List.mem_flatMap.mpr ⟨c, hc, hx⟩)

theorem targetOK_query (w : World) (ps : List Nat) (q : Literal) :
    TargetOK w ps q q :=
  ⟨List.mem_cons_self _ _, fun x hx => List.mem_append_right _ hx⟩

theorem targetOK_body {w : World} {ps : List Nat} {q : Literal} {c : Clause}
    (hc : ClauseOK w ps q c) {b : Literal} (hb : b ∈ c.body) :
    TargetOK w ps q b :=
  ⟨hc.2.1 b hb, fun x hx => hc.2.2.2 x (body_consts_sub hb hx)⟩


/-! ### Canonical variants and the tag universe -/

theorem seenIdx_mem {v : Nat} {l : List Nat} {i : Nat}
    (h : seenIdx v l = some i) : v ∈ l := by
  obtain ⟨hlt, hget⟩ := seenIdx_get h
  rw [← hget]
  exact List.get_mem l _ hlt

theorem seen_sub_final (args : List Term) (seen : List Nat) {v : Nat}
    (h : v ∈ seen) : v ∈ (tagArgs args seen).2 := by
  obtain ⟨ext, hext⟩ := tagArgs_final_append args seen
  rw [hext]
  exact List.mem_append_left _ h

theorem tagArgs_vars_mem : ∀ (args : List Term) (seen : List Nat) (v : Nat),
    Term.var v ∈ args → v ∈ (tagArgs args seen).2 := by
  intro args
  induction args with
  | nil => intro seen v hv; exact absurd hv (List.not_mem_nil _)
  | cons a rest ih =>
    intro seen v hv
    cases a with
    | const c =>
      rcases List.mem_cons.mp hv with h1 | h1
      · exact absurd h1 (by simp)
      · rw [show (tagArgs (.const c :: rest) seen).2 =
          (tagArgs rest seen).2 by simp [tagArgs]]
        exact ih seen v h1
    | var u =>
      cases hu : seenIdx u seen with
      | some i =>
        rw [show (tagArgs (.var u :: rest) seen).2 =
          (tagArgs rest seen).2 by simp [tagArgs, hu]]
        rcases List.mem_cons.mp hv with h1 | h1
        · have : v = u := Term.var.inj h1
          subst this
          exact seen_sub_final rest seen (seenIdx_mem hu)
        · exact ih seen v h1
      | none =>
        rw [show (tagArgs (.var u :: rest) seen).2 =
          (tagArgs rest (seen ++ [u])).2 by simp [tagArgs, hu]]
        rcases List.mem_cons.mp hv with h1 | h1
        · have : v = u := Term.var.inj h1
          subst this
          exact seen_sub_final rest _ (List.mem_append_right _
            (List.mem_singleton_self _))
        · exact ih (seen ++ [u]) v h1

theorem tagArgs_final_le : ∀ (args : List Term) (seen : List Nat),
    (tagArgs args seen).2.length ≤ seen.length + args.length := by
  intro args
  induction args with
  | nil => intro seen; simp [tagArgs]
  | cons a rest ih =>
    intro seen
    cases a with
    | const c =>
      rw [show (tagArgs (.const c :: rest) seen).2 =
        (tagArgs rest seen).2 by simp [tagArgs]]
      calc (tagArgs rest seen).2.length ≤ seen.length + rest.length :=
          ih seen
        _ ≤ seen.length + (rest.length + 1) := by omega
    | var u =>
      cases hu : seenIdx u seen with
      | some i =>
        rw [show (tagArgs (.var u :: rest) seen).2 =
          (tagArgs rest seen).2 by simp [tagArgs, hu]]
        calc (tagArgs rest seen).2.length ≤ seen.length + rest.length :=
            ih seen
          _ ≤ seen.length + (rest.length + 1) := by omega
      | none =>
        rw [show (tagArgs (.var u :: rest) seen).2 =
          (tagArgs rest (seen ++ [u])).2 by simp [tagArgs, hu]]
        calc (tagArgs rest (seen ++ [u])).2.length ≤
            (seen ++ [u]).length + rest.length := ih (seen ++ [u])
          _ = seen.length + (rest.length + 1) := by simp; omega

theorem tag_canonical (lit : Literal) :
    ∃ args', args'.length = lit.args.length ∧
      (∀ t ∈ args', (∃ x, t = .const x ∧ x ∈ LConsts lit) ∨
        (∃ i, t = .var i ∧ i < lit.args.length)) ∧
      Literal.tag ⟨lit.pred, args'⟩ = lit.tag := by
  have hnd : (tagArgs lit.args []).2.Nodup :=
    tagArgs_final_nodup lit.args [] List.nodup_nil
  refine ⟨lit.args.map (Term.mapVar
    (fun v => (seenIdx v (tagArgs lit.args []).2).getD 0)),
    List.length_map _ _, ?_, ?_⟩
  · intro t ht
    obtain ⟨t0, ht0, rfl⟩ := List.mem_map.mp ht
    cases t0 with
    | const c =>
      exact .inl ⟨c, rfl, List.mem_flatMap.mpr ⟨.const c, ht0,
        by simp [tconsts]⟩⟩
    | var v =>
      obtain ⟨i, hi⟩ := seenIdx_of_mem (tagArgs_vars_mem lit.args [] v ht0)
      refine .inr ⟨(seenIdx v (tagArgs lit.args []).2).getD 0, rfl, ?_⟩
      rw [hi]
      have h1 := seenIdx_some_lt hi
      have h2 := tagArgs_final_le lit.args []
      simp at h2
      show i < lit.args.length
      omega
  · have hinj : ∀ x y,
        (Term.var x ∈ lit.args ∨ x ∈ ([] : List Nat)) →
        (Term.var y ∈ lit.args ∨ y ∈ ([] : List Nat)) →
        (fun v => (seenIdx v (tagArgs lit.args []).2).getD 0) x =
          (fun v => (seenIdx v (tagArgs lit.args []).2).getD 0) y →
        x = y := by
      intro x y hx hy hxy
      rcases hx with hx | hx
      swap
      · exact absurd hx (List.not_mem_nil x)
      rcases hy with hy | hy
      swap
      · exact absurd hy (List.not_mem_nil y)
      obtain ⟨ix, hix⟩ := seenIdx_of_mem (tagArgs_vars_mem lit.args [] x hx)
      obtain ⟨iy, hiy⟩ := seenIdx_of_mem (tagArgs_vars_mem lit.args [] y hy)
      simp only [hix, hiy, Option.getD_some] at hxy
      subst hxy
      obtain ⟨hlt1, hg1⟩ := seenIdx_get hix
      obtain ⟨hlt2, hg2⟩ := seenIdx_get hiy
      rw [← hg1, ← hg2]
    have hmv := tagArgs_mapVar
      (fun v => (seenIdx v (tagArgs lit.args []).2).getD 0) lit.args []
      hinj
    have htk : (tagArgs (lit.args.map (Term.mapVar
        (fun v => (seenIdx v (tagArgs lit.args []).2).getD 0))) []).1 =
        (tagArgs lit.args []).1 := by
      have := congrArg Prod.fst hmv
      simpa using this
    rw [litTag_eq, litTag_eq]
    show (⟨hexChars lit.pred.pid ++ tagBody (tagArgs (lit.args.map
      (Term.mapVar (fun v =>
        (seenIdx v (tagArgs lit.args []).2).getD 0))) []).1⟩ : String) = _
    rw [htk]

theorem mem_TagU_intro {w : World} {ps : List Nat} {q : Literal}
    {t : Literal} (ht : TargetOK w ps q t) : t.tag ∈ TagU w ps q := by
  obtain ⟨hslot, hconsts⟩ := ht
  obtain ⟨args', hlen, hmem, htag⟩ := tag_canonical t
  unfold TagU
  refine List.mem_flatMap.mpr ⟨(t.pred, t.args.length), hslot, ?_⟩
  refine List.mem_map.mpr ⟨args', ?_, ?_⟩
  · show args' ∈ argLists ((ConstU w ps q).map Term.const ++
      varPool t.args.length) t.args.length
    rw [← hlen]
    refine argLists_mem args' _ ?_
    intro x hx
    rcases hmem x hx with ⟨c, rfl, hc⟩ | ⟨i, rfl, hi⟩
    · exact List.mem_append_left _ (List.mem_map.mpr ⟨c, hconsts c hc, rfl⟩)
    · exact List.mem_append_right _ (List.mem_map.mpr ⟨i,
        List.mem_range.mpr (hlen.symm ▸ hi), rfl⟩)
  · exact htag


/-! ### Potential-function lemmas -/

theorem lID_some_ground {l : Literal} {fid : String}
    (h : l.lID = some fid) : l.groundB = true := by
  by_contra hg
  have hnone : idArgs l.args = none :=
    (idArgs_none_iff l.args).mpr (fun hh => hg hh)
  unfold Literal.lID at h
  rw [hnone] at h
  exact absurd h (by simp)

theorem bMax_le {rs : List Clause} {m : Nat}
    (h : ∀ r ∈ rs, r.body.length ≤ m) : bMax rs ≤ m := by
  unfold bMax
  induction rs with
  | nil => exact Nat.zero_le m
  | cons r rest ih =>
    simp only [List.map_cons, List.foldr_cons]
    exact Nat.max_le.mpr ⟨h r (List.mem_cons_self r rest),
      ih (fun r' hr' => h r' (List.mem_cons_of_mem r hr'))⟩

theorem le_bMax {rs : List Clause} {r : Clause} (hr : r ∈ rs) :
    r.body.length ≤ bMax rs :=
  le_foldr_max _ _ (List.mem_map.mpr ⟨r, hr, rfl⟩)

theorem bMax_tail_le (r : Clause) (rest : List Clause) :
    bMax rest ≤ bMax (r :: rest) := by
  unfold bMax
  simp only [List.map_cons, List.foldr_cons]
  exact Nat.le_max_right _ _

theorem wMax_le {ws : List Waiter} {m : Nat}
    (h : ∀ wt ∈ ws, wt.rule.body.length ≤ m) : wMax ws ≤ m := by
  unfold wMax
  induction ws with
  | nil => exact Nat.zero_le m
  | cons wt rest ih =>
    simp only [List.map_cons, List.foldr_cons]
    exact Nat.max_le.mpr ⟨h wt (List.mem_cons_self wt rest),
      ih (fun w' hw' => h w' (List.mem_cons_of_mem wt hw'))⟩

theorem le_wMax {ws : List Waiter} {wt : Waiter} (hw : wt ∈ ws) :
    wt.rule.body.length ≤ wMax ws :=
  le_foldr_max _ _ (List.mem_map.mpr ⟨wt, hw, rfl⟩)

theorem wMax_tail_le (wt : Waiter) (rest : List Waiter) :
    wMax rest ≤ wMax (wt :: rest) := by
  unfold wMax
  simp only [List.map_cons, List.foldr_cons]
  exact Nat.le_max_right _ _

theorem clause_subst_body_len (c : Clause) (e : Env) :
    (c.subst e).body.length = c.body.length := by
  rw [clause_subst_eq]
  exact List.length_map _ _

theorem renameC_body_len (c : Clause) (ctr : Nat) :
    (c.renameC ctr).1.body.length = c.body.length := by
  unfold Clause.renameC
  exact clause_subst_body_len c _

theorem nodup_subset_length {α : Type} [DecidableEq α] {l1 l2 : List α}
    (hnd : l1.Nodup) (hsub : ∀ x ∈ l1, x ∈ l2) : l1.length ≤ l2.length := by
  calc l1.length = l1.toFinset.card := (List.toFinset_card_of_nodup hnd).symm
    _ ≤ l2.toFinset.card := Finset.card_le_card (by
        intro x hx
        rw [List.mem_toFinset] at hx
        rw [List.mem_toFinset]
        exact hsub x hx)
    _ ≤ l2.length := List.toFinset_card_le l2

theorem tableFind_cons_pos {kv : String × Subgoal}
    {rest : List (String × Subgoal)} {k : String} (h : kv.1 = k) :
    tableFind (kv :: rest) k = some kv.2 := by
  unfold tableFind
  rw [List.find?_cons_of_pos _ (by simp [h])]

theorem tableFind_cons_neg {kv : String × Subgoal}
    {rest : List (String × Subgoal)} {k : String} (h : ¬ kv.1 = k) :
    tableFind (kv :: rest) k = tableFind rest k := by
  unfold tableFind
  rw [List.find?_cons_of_neg _ (by simp [h])]

theorem tableFind_append_some {t1 : List (String × Subgoal)} {k : String}
    {sg : Subgoal} (h : tableFind t1 k = some sg)
    (t2 : List (String × Subgoal)) : tableFind (t1 ++ t2) k = some sg := by
  induction t1 with
  | nil => simp [tableFind, List.find?] at h
  | cons kv rest ih =>
    by_cases hk : kv.1 = k
    · rw [tableFind_cons_pos hk] at h
      rw [List.cons_append, tableFind_cons_pos hk]
      exact h
    · rw [tableFind_cons_neg hk] at h
      rw [List.cons_append, tableFind_cons_neg hk]
      exact ih h

theorem tableFind_append_none {t1 : List (String × Subgoal)} {k : String}
    (h : tableFind t1 k = none) (t2 : List (String × Subgoal)) :
    tableFind (t1 ++ t2) k = tableFind t2 k := by
  induction t1 with
  | nil => rfl
  | cons kv rest ih =>
    by_cases hk : kv.1 = k
    · rw [tableFind_cons_pos hk] at h
      exact absurd h (by simp)
    · rw [tableFind_cons_neg hk] at h
      rw [List.cons_append, tableFind_cons_neg hk]
      exact ih h

theorem tableSet_cons (kv : String × Subgoal)
    (rest : List (String × Subgoal)) (k : String) (sg : Subgoal) :
    tableSet (kv :: rest) k sg =
      (if kv.1 = k then (kv.1, sg) else kv) :: tableSet rest k sg := by
  unfold tableSet
  rw [List.map_cons]

theorem tableFind_set_other {t : List (String × Subgoal)} {k k' : String}
    {sg : Subgoal} (hne : k' ≠ k) :
    tableFind (tableSet t k sg) k' = tableFind t k' := by
  induction t with
  | nil => rfl
  | cons kv rest ih =>
    rw [tableSet_cons]
    by_cases h1 : kv.1 = k
    · rw [if_pos h1, tableFind_cons_neg (by simp [h1, Ne.symm hne]),
        tableFind_cons_neg (by rw [h1]; exact Ne.symm hne)]
      exact ih
    · rw [if_neg h1]
      by_cases h2 : kv.1 = k'
      · rw [tableFind_cons_pos h2, tableFind_cons_pos h2]
      · rw [tableFind_cons_neg h2, tableFind_cons_neg h2]
        exact ih

theorem tableFind_set_self {t : List (String × Subgoal)} {k : String}
    {sg sg0 : Subgoal} (h : tableFind t k = some sg0) :
    tableFind (tableSet t k sg) k = some sg := by
  induction t with
  | nil => simp [tableFind, List.find?] at h
  | cons kv rest ih =>
    rw [tableSet_cons]
    by_cases h1 : kv.1 = k
    · rw [if_pos h1, tableFind_cons_pos (show ((kv.1, sg) :
        String × Subgoal).1 = k from h1)]
    · rw [if_neg h1, tableFind_cons_neg h1]
      rw [tableFind_cons_neg h1] at h
      exact ih h

theorem tableFind_insert_absent_self {t : List (String × Subgoal)}
    {k : String} (h : ¬ keyIn t k) (sg : Subgoal) :
    tableFind (tableInsert t k sg) k = some sg := by
  unfold tableInsert
  have hany : ¬ (t.any fun kv => kv.1 = k) = true := by
    intro ha
    rw [List.any_eq_true] at ha
    obtain ⟨kv, hkv, hk⟩ := ha
    exact h ⟨kv, hkv, of_decide_eq_true hk⟩
  rw [if_neg hany]
  rw [tableFind_append_none (tableFind_none_iff.mpr h)]
  simp [tableFind, List.find?]

theorem tableFind_insert_other {t : List (String × Subgoal)} {k k' : String}
    (hne : k' ≠ k) (sg : Subgoal) :
    tableFind (tableInsert t k sg) k' = tableFind t k' := by
  unfold tableInsert
  by_cases hany : (t.any fun kv => kv.1 = k) = true
  · rw [if_pos hany]
    exact tableFind_set_other hne
  · rw [if_neg hany]
    cases hf : tableFind t k' with
    | some sg2 => exact tableFind_append_some hf _
    | none =>
      rw [tableFind_append_none hf]
      simp [tableFind, List.find?, Ne.symm hne]

theorem sum_map_congr {l : List String} {f g : String → Nat}
    (h : ∀ x ∈ l, f x = g x) : (l.map f).sum = (l.map g).sum := by
  induction l with
  | nil => rfl
  | cons y rest ih =>
    simp only [List.map_cons, List.sum_cons]
    rw [h y (List.mem_cons_self y rest),
      ih (fun x hx => h x (List.mem_cons_of_mem y hx))]

theorem sum_map_point {l : List String} (hnd : l.Nodup) {f g : String → Nat}
    {τ : String} (hτ : τ ∈ l) (hother : ∀ x ∈ l, x ≠ τ → f x = g x)
    (hpt : g τ + 1 = f τ) : (l.map g).sum + 1 = (l.map f).sum := by
  induction l with
  | nil => exact absurd hτ (List.not_mem_nil τ)
  | cons y rest ih =>
    simp only [List.map_cons, List.sum_cons]
    rcases List.mem_cons.mp hτ with rfl | hτ2
    · have hrest : ∀ x ∈ rest, f x = g x := by
        intro x hx
        refine hother x (List.mem_cons_of_mem _ hx) ?_
        intro hxy
        subst hxy
        exact absurd hx (List.nodup_cons.mp hnd).1
      rw [sum_map_congr hrest]
      omega
    · have hy : f y = g y := by
        refine hother y (List.mem_cons_self y rest) ?_
        intro hxy
        subst hxy
        exact absurd hτ2 (List.nodup_cons.mp hnd).1
      have := ih (List.nodup_cons.mp hnd).2 hτ2
        (fun x hx hne => hother x (List.mem_cons_of_mem y hx) hne)
      omega

theorem phi_insert_new {w : World} {ps : List Nat} {q : Literal}
    {s : QState} {target : Literal} (hτ : target.tag ∈ TagU w ps q)
    (hnew : ¬ keyIn s.table target.tag) (ws : List Waiter) (c2 : Nat) :
    phi w ps q ⟨tableInsert s.table target.tag ⟨target, [], ws⟩, c2⟩ + 1 =
      phi w ps q s := by
  unfold phi
  refine sum_map_point ((TagU w ps q).nodup_dedup)
    (List.mem_dedup.mpr hτ) ?_ ?_
  · intro x hx hne
    rw [show (⟨tableInsert s.table target.tag ⟨target, [], ws⟩, c2⟩ :
      QState).table = tableInsert s.table target.tag ⟨target, [], ws⟩
      from rfl, tableFind_insert_other hne]
  · rw [show (⟨tableInsert s.table target.tag ⟨target, [], ws⟩, c2⟩ :
      QState).table = tableInsert s.table target.tag ⟨target, [], ws⟩
      from rfl, tableFind_insert_absent_self hnew,
      tableFind_none_iff.mpr hnew]
    simp

theorem phi_addFact {w : World} {ps : List Nat} {q : Literal} {s : QState}
    {sgTag : String} {sg : Subgoal}
    (hf : tableFind s.table sgTag = some sg) (hτ : sgTag ∈ TagU w ps q)
    {fid : String} {fact : Literal}
    (hcap : sg.facts.length + 1 ≤ (FactU w ps q).length) (c2 : Nat) :
    phi w ps q ⟨tableSet s.table sgTag
      ⟨sg.target, sg.facts ++ [(fid, fact)], sg.waiters⟩, c2⟩ + 1 =
      phi w ps q s := by
  unfold phi
  refine sum_map_point ((TagU w ps q).nodup_dedup)
    (List.mem_dedup.mpr hτ) ?_ ?_
  · intro x hx hne
    rw [show (⟨tableSet s.table sgTag
      ⟨sg.target, sg.facts ++ [(fid, fact)], sg.waiters⟩, c2⟩ :
      QState).table = tableSet s.table sgTag
      ⟨sg.target, sg.facts ++ [(fid, fact)], sg.waiters⟩ from rfl,
      tableFind_set_other hne]
  · rw [show (⟨tableSet s.table sgTag
      ⟨sg.target, sg.facts ++ [(fid, fact)], sg.waiters⟩, c2⟩ :
      QState).table = tableSet s.table sgTag
      ⟨sg.target, sg.facts ++ [(fid, fact)], sg.waiters⟩ from rfl,
      tableFind_set_self hf, hf]
    show (FactU w ps q).length - (sg.facts ++ [(fid, fact)]).length + 1 =
      (FactU w ps q).length - sg.facts.length
    rw [List.length_append]
    simp
    omega

theorem phi_set_waiters {w : World} {ps : List Nat} {q : Literal}
    {s : QState} {sgTag : String} {sg : Subgoal}
    (hf : tableFind s.table sgTag = some sg) (wt : Waiter) (c2 : Nat) :
    phi w ps q ⟨tableSet s.table sgTag
      ⟨sg.target, sg.facts, sg.waiters ++ [wt]⟩, c2⟩ = phi w ps q s := by
  unfold phi
  refine sum_map_congr ?_
  intro x hx
  by_cases hne : x = sgTag
  · subst hne
    rw [show (⟨tableSet s.table x
      ⟨sg.target, sg.facts, sg.waiters ++ [wt]⟩, c2⟩ :
      QState).table = tableSet s.table x
      ⟨sg.target, sg.facts, sg.waiters ++ [wt]⟩ from rfl,
      tableFind_set_self hf, hf]
  · rw [show (⟨tableSet s.table sgTag
      ⟨sg.target, sg.facts, sg.waiters ++ [wt]⟩, c2⟩ :
      QState).table = tableSet s.table sgTag
      ⟨sg.target, sg.facts, sg.waiters ++ [wt]⟩ from rfl,
      tableFind_set_other hne]


/-! ### Boundedness-invariant preservation -/

theorem binv_insert {w : World} {ps : List Nat} {q : Literal} {s : QState}
    (hs : BInv w ps q s) {target : Literal}
    (htag : target.tag ∈ TagU w ps q) {ws : List Waiter}
    (hws : ∀ wt ∈ ws, ClauseOK w ps q wt.rule) (c2 : Nat) :
    BInv w ps q ⟨tableInsert s.table target.tag ⟨target, [], ws⟩, c2⟩ := by
  intro kv hkv
  rcases mem_tableInsert_elim hkv with ⟨hk, hsg⟩ | ⟨hmem, _⟩
  · rw [hk, hsg]
    refine ⟨htag, ?_, ?_, ?_⟩
    · simp
    · intro fv hfv
      exact absurd hfv (List.not_mem_nil fv)
    · intro wt hwt
      exact hws wt hwt
  · exact hs kv hmem

theorem binv_addFact {w : World} {ps : List Nat} {q : Literal} {s : QState}
    (hs : BInv w ps q s) {sgTag : String} {sg : Subgoal}
    (hf : tableFind s.table sgTag = some sg) {fact : Literal} {fid : String}
    (hfact : fact ∈ FactU w ps q) (hid : fact.lID = some fid)
    (hdup : ¬ (sg.facts.any fun kv => kv.1 = fid) = true) (c2 : Nat) :
    BInv w ps q ⟨tableSet s.table sgTag
      ⟨sg.target, sg.facts ++ [(fid, fact)], sg.waiters⟩, c2⟩ := by
  have h0 := hs (sgTag, sg) (tableFind_some_mem hf)
  intro kv hkv
  rcases mem_tableSet_elim hkv with ⟨hk, hsg⟩ | ⟨hmem, _⟩
  · rw [hk, hsg]
    refine ⟨h0.1, ?_, ?_, ?_⟩
    · show ((sg.facts ++ [(fid, fact)]).map Prod.snd).Nodup
      rw [List.map_append]
      rw [List.nodup_append]
      refine ⟨h0.2.1, by simp, ?_⟩
      intro v hv
      obtain ⟨fv, hfv, rfl⟩ := List.mem_map.mp hv
      intro hv2
      have : fv.2 = fact := by simpa using hv2
      apply hdup
      rw [List.any_eq_true]
      refine ⟨fv, hfv, ?_⟩
      have hidv : fv.2.lID = some fv.1 := (h0.2.2.1 fv hfv).2
      rw [this, hid] at hidv
      simp [Option.some.inj hidv]
    · intro fv hfv
      rcases List.mem_append.mp hfv with h1 | h1
      · exact h0.2.2.1 fv h1
      · rw [List.mem_singleton] at h1
        rw [h1]
        exact ⟨hfact, hid⟩
    · intro wt hwt
      exact h0.2.2.2 wt hwt
  · exact hs kv hmem

theorem binv_addWaiter {w : World} {ps : List Nat} {q : Literal}
    {s : QState} (hs : BInv w ps q s) {k : String} {sg : Subgoal}
    (hf : tableFind s.table k = some sg) {wt0 : Waiter}
    (hw0 : ClauseOK w ps q wt0.rule) (c2 : Nat) :
    BInv w ps q ⟨tableSet s.table k
      ⟨sg.target, sg.facts, sg.waiters ++ [wt0]⟩, c2⟩ := by
  have h0 := hs (k, sg) (tableFind_some_mem hf)
  intro kv hkv
  rcases mem_tableSet_elim hkv with ⟨hk, hsg⟩ | ⟨hmem, _⟩
  · rw [hk, hsg]
    refine ⟨h0.1, h0.2.1, h0.2.2.1, ?_⟩
    intro wt hwt
    rcases List.mem_append.mp hwt with h1 | h1
    · exact h0.2.2.2 wt h1
    · rw [List.mem_singleton] at h1
      rw [h1]
      exact hw0
  · exact hs kv hmem

theorem binv_cap {w : World} {ps : List Nat} {q : Literal} {s : QState}
    (hs : BInv w ps q s) {sgTag : String} {sg : Subgoal}
    (hf : tableFind s.table sgTag = some sg) :
    sg.facts.length ≤ (FactU w ps q).length := by
  have h0 := hs (sgTag, sg) (tableFind_some_mem hf)
  have := nodup_subset_length h0.2.1 (fun x hx => by
    obtain ⟨fv, hfv, rfl⟩ := List.mem_map.mp hx
    exact (h0.2.2.1 fv hfv).1)
  rw [List.length_map] at this
  exact this


/-! ### Termination of the prover -/



/-! ### Termination of the prover -/

theorem pres_ok_ne_out {α : Type} (a : α) : (PRes.ok a : PRes α) ≠ .out :=
  fun h => PRes.noConfusion h

theorem pres_halted_ne_out {α : Type} : (PRes.halted : PRes α) ≠ .out :=
  fun h => PRes.noConfusion h

theorem term_searchF (w : World) (ps : List Nat) (q : Literal)
    (hsupp : ∀ p, p ∉ ps → w.db p = []) (N : Nat)
    (ih : ∀ M, M < N → TermStmt w ps q M) :
    ∀ target ws s, BInv w ps q s → TargetOK w ps q target →
      (∀ wt ∈ ws, ClauseOK w ps q wt.rule) → ¬ keyIn s.table target.tag →
      phi w ps q s * (3 * maxB w ps + 7) < N →
      TermOK w ps q s (fun n => searchF w n s target ws) := by
  intro target ws s hbi htgt hws hnew hN
  by_cases hdb : w.isDB target.pred.pid = true
  · have htag : target.tag ∈ TagU w ps q := mem_TagU_intro htgt
    have hphi := phi_insert_new htag hnew ws s.ctr
    have hbi1 := binv_insert hbi htag hws s.ctr
    have h3 : phi w ps q s * (3 * maxB w ps + 7) =
        phi w ps q (⟨tableInsert s.table target.tag
          ⟨target, [], ws⟩, s.ctr⟩ : QState) * (3 * maxB w ps + 7) +
          (3 * maxB w ps + 7) := by
      rw [← hphi]
      ring
    have hN1 : phi w ps q (⟨tableInsert s.table target.tag
        ⟨target, [], ws⟩, s.ctr⟩ : QState) * (3 * maxB w ps + 7) +
        (3 * maxB w ps + 6) < phi w ps q s * (3 * maxB w ps + 7) := by
      omega
    obtain ⟨n1, hn1, hp1⟩ := (ih _ hN).2.1 target (w.db target.pred.pid)
      ⟨tableInsert s.table target.tag ⟨target, [], ws⟩, s.ctr⟩ hbi1
      htgt.2 (fun c hc => db_sub_allClauses hsupp _ c hc) hN1
    refine ⟨n1 + 1, ?_, ?_⟩
    · show searchF w (n1 + 1) s target ws ≠ .out
      rw [searchF_succ_db hdb]
      exact hn1
    · intro s' h'
      have h2 : clauseLoop w n1 ⟨tableInsert s.table target.tag
          ⟨target, [], ws⟩, s.ctr⟩ target (w.db target.pred.pid) =
          .ok s' := by
        rw [← searchF_succ_db hdb]
        exact h'
      obtain ⟨hb', hφ'⟩ := hp1 s' h2
      exact ⟨hb', by omega⟩
  · refine ⟨1, ?_, ?_⟩
    · show searchF w 1 s target ws ≠ .out
      rw [searchF_succ, if_neg hdb]
      exact pres_halted_ne_out
    · intro s' h'
      have h2 : searchF w 1 s target ws = .ok s' := h'
      rw [searchF_succ, if_neg hdb] at h2
      exact absurd h2 (by simp)


theorem term_clauseLoop (w : World) (ps : List Nat) (q : Literal)
    (N : Nat) (ih : ∀ M, M < N → TermStmt w ps q M) :
    ∀ target cs s, BInv w ps q s →
      (∀ x ∈ LConsts target, x ∈ ConstU w ps q) →
      (∀ c ∈ cs, c ∈ allClauses w ps) →
      phi w ps q s * (3 * maxB w ps + 7) + (3 * maxB w ps + 6) < N →
      TermOK w ps q s (fun n => clauseLoop w n s target cs) := by
  intro target cs
  induction cs with
  | nil =>
    intro s hbi htc hcs hN
    refine ⟨1, ?_, ?_⟩
    · show clauseLoop w 1 s target [] ≠ .out
      exact pres_ok_ne_out s
    · intro s' h'
      have hss : PRes.ok s = PRes.ok s' := h'
      rw [← PRes.ok.inj hss]
      exact ⟨hbi, Nat.le_refl _⟩
  | cons c rest ihrest =>
    intro s hbi htc hcs hN
    have hcmem := hcs c (List.mem_cons_self c rest)
    have hcOK : ClauseOK w ps q c := clauseOK_of_mem q hcmem
    have hcb : c.body.length ≤ maxB w ps :=
      le_foldr_max _ _ (List.mem_map.mpr ⟨c, hcmem, rfl⟩)
    have htcs : ∀ c' ∈ rest, c' ∈ allClauses w ps :=
      fun c' hc' => hcs c' (List.mem_cons_of_mem c hc')
    cases hu : unify target (c.renameC s.ctr).1.head with
    | none =>
      obtain ⟨n1, hn1, hp1⟩ := ihrest ⟨s.table, (c.renameC s.ctr).2⟩ hbi
        htc htcs hN
      refine ⟨n1 + 1, ?_, ?_⟩
      · show clauseLoop w (n1 + 1) s target (c :: rest) ≠ .out
        rw [clauseLoop_cons_none hu]
        exact hn1
      · intro s' h'
        have h2 : clauseLoop w n1 ⟨s.table, (c.renameC s.ctr).2⟩ target
            rest = .ok s' := by
          rw [← clauseLoop_cons_none hu]
          exact h'
        exact hp1 s' h2
    | some e =>
      have hrenOK : ClauseOK w ps q (c.renameC s.ctr).1 :=
        clauseOK_renameC hcOK s.ctr
      have heOK : ∀ x ∈ EnvConsts e, x ∈ ConstU w ps q := by
        intro x hx
        rcases unify_consts hu x hx with h1 | h1
        · exact htc x h1
        · exact hrenOK.2.2.2 x (head_consts_sub h1)
      have hsubOK : ClauseOK w ps q ((c.renameC s.ctr).1.subst e) :=
        clauseOK_subst hrenOK heOK
      have hlen : ((c.renameC s.ctr).1.subst e).body.length =
          c.body.length := by
        rw [clause_subst_body_len, renameC_body_len]
      have hND : phi w ps q (⟨s.table, (c.renameC s.ctr).2⟩ : QState) *
          (3 * maxB w ps + 7) +
          (3 * ((c.renameC s.ctr).1.subst e).body.length + 4) <
          phi w ps q s * (3 * maxB w ps + 7) + (3 * maxB w ps + 6) := by
        have hphieq : phi w ps q (⟨s.table, (c.renameC s.ctr).2⟩ :
          QState) = phi w ps q s := rfl
        rw [hphieq, hlen]
        exact Nat.add_lt_add_left (by omega) _
      obtain ⟨n1, hn1, hp1⟩ := (ih _ hN).2.2.1 target.tag
        ((c.renameC s.ctr).1.subst e) ⟨s.table, (c.renameC s.ctr).2⟩
        hbi hsubOK hND
      cases hres : discoveredF w n1 ⟨s.table, (c.renameC s.ctr).2⟩
          target.tag ((c.renameC s.ctr).1.subst e) with
      | out => exact absurd hres hn1
      | halted =>
        refine ⟨n1 + 1, ?_, ?_⟩
        · show clauseLoop w (n1 + 1) s target (c :: rest) ≠ .out
          rw [clauseLoop_cons_some hu, hres]
          exact pres_halted_ne_out
        · intro s' h'
          have h2 : clauseLoop w (n1 + 1) s target (c :: rest) =
            .ok s' := h'
          rw [clauseLoop_cons_some hu, hres] at h2
          exact absurd h2 (by simp)
      | ok s2 =>
        obtain ⟨hb2, hφ2⟩ := hp1 s2 hres
        have hφ2x : phi w ps q s2 ≤ phi w ps q s := hφ2
        have hN2 : phi w ps q s2 * (3 * maxB w ps + 7) +
            (3 * maxB w ps + 6) < N := by
          have := Nat.mul_le_mul_right (3 * maxB w ps + 7) hφ2x
          omega
        obtain ⟨n2, hn2, hp2⟩ := ihrest s2 hb2 htc htcs hN2
        have hres2 : discoveredF w (max n1 n2)
            ⟨s.table, (c.renameC s.ctr).2⟩ target.tag
            ((c.renameC s.ctr).1.subst e) = .ok s2 := by
          rw [(prover_mono w n1).2.2.1 (max n1 n2)
            (Nat.le_max_left n1 n2) _ _ _ (by
              rw [hres]; exact pres_ok_ne_out s2)]
          exact hres
        have hcont : clauseLoop w (max n1 n2) s2 target rest =
            clauseLoop w n2 s2 target rest :=
          (prover_mono w n2).2.1 (max n1 n2) (Nat.le_max_right n1 n2)
            _ _ _ hn2
        refine ⟨max n1 n2 + 1, ?_, ?_⟩
        · show clauseLoop w (max n1 n2 + 1) s target (c :: rest) ≠ .out
          rw [clauseLoop_cons_some hu, hres2]
          show clauseLoop w (max n1 n2) s2 target rest ≠ .out
          rw [hcont]
          exact hn2
        · intro s' h'
          have h2 : clauseLoop w (max n1 n2 + 1) s target (c :: rest) =
            .ok s' := h'
          rw [clauseLoop_cons_some hu, hres2] at h2
          have h3 : clauseLoop w (max n1 n2) s2 target rest =
            .ok s' := h2
          rw [hcont] at h3
          obtain ⟨hb', hφ'⟩ := hp2 s' h3
          exact ⟨hb', Nat.le_trans hφ' hφ2⟩


theorem term_discoveredF (w : World) (ps : List Nat) (q : Literal)
    (N : Nat) (ih : ∀ M, M < N → TermStmt w ps q M) :
    ∀ sgTag c s, BInv w ps q s → ClauseOK w ps q c →
      phi w ps q s * (3 * maxB w ps + 7) + (3 * c.body.length + 4) < N →
      TermOK w ps q s (fun n => discoveredF w n s sgTag c) := by
  intro sgTag c s hbi hcOK hN
  by_cases hb : c.body.isEmpty = true
  · obtain ⟨n1, hn1, hp1⟩ := (ih _ hN).2.2.2.2.1 sgTag c.head s hbi
      (fun hg => mem_FactU_intro hcOK hg) (by omega)
    refine ⟨n1 + 1, ?_, ?_⟩
    · show discoveredF w (n1 + 1) s sgTag c ≠ .out
      rw [discoveredF_eq_fact hb]
      exact hn1
    · intro s' h'
      have h2 : discoveredFactF w n1 s sgTag c.head = .ok s' := by
        rw [← discoveredF_eq_fact hb]
        exact h'
      exact hp1 s' h2
  · obtain ⟨n1, hn1, hp1⟩ := (ih _ hN).2.2.2.1 sgTag c s hbi hcOK
      (by omega)
    refine ⟨n1 + 1, ?_, ?_⟩
    · show discoveredF w (n1 + 1) s sgTag c ≠ .out
      rw [discoveredF_eq_rule hb]
      exact hn1
    · intro s' h'
      have h2 : discoveredRuleF w n1 s sgTag c = .ok s' := by
        rw [← discoveredF_eq_rule hb]
        exact h'
      exact hp1 s' h2

set_option maxHeartbeats 3000000 in
theorem term_discoveredRuleF (w : World) (ps : List Nat) (q : Literal)
    (N : Nat) (ih : ∀ M, M < N → TermStmt w ps q M) :
    ∀ sgTag c s, BInv w ps q s → ClauseOK w ps q c →
      phi w ps q s * (3 * maxB w ps + 7) + (3 * c.body.length + 3) < N →
      TermOK w ps q s (fun n => discoveredRuleF w n s sgTag c) := by
  intro sgTag c s hbi hcOK hN
  cases hb : c.body with
  | nil =>
    refine ⟨1, ?_, ?_⟩
    · show discoveredRuleF w 1 s sgTag c ≠ .out
      rw [discoveredRuleF_succ, hb]
      exact pres_halted_ne_out
    · intro s' h'
      have h2 : discoveredRuleF w 1 s sgTag c = .ok s' := h'
      rw [discoveredRuleF_succ, hb] at h2
      exact absurd h2 (by simp)
  | cons b0 rest =>
    have hblen : c.body.length = rest.length + 1 := by rw [hb]; rfl
    cases hf : tableFind s.table b0.tag with
    | none =>
      have htgt : TargetOK w ps q b0 :=
        targetOK_body hcOK (hb ▸ List.mem_cons_self b0 rest)
      have hws1 : ∀ wt ∈ [(⟨sgTag, c⟩ : Waiter)],
          ClauseOK w ps q wt.rule := by
        intro wt hwt
        rw [List.mem_singleton] at hwt
        rw [hwt]
        exact hcOK
      obtain ⟨n1, hn1, hp1⟩ := (ih _ hN).1 b0 [⟨sgTag, c⟩] s hbi htgt
        hws1 (tableFind_none_iff.mp hf) (by omega)
      refine ⟨n1 + 1, ?_, ?_⟩
      · show discoveredRuleF w (n1 + 1) s sgTag c ≠ .out
        rw [discoveredRuleF_eq_new hb hf]
        exact hn1
      · intro s' h'
        have h2 : searchF w n1 s b0 [⟨sgTag, c⟩] = .ok s' := by
          rw [← discoveredRuleF_eq_new hb hf]
          exact h'
        exact hp1 s' h2
    | some bodysg =>
      have hbs := hbi (b0.tag, bodysg) (tableFind_some_mem hf)
      have hfacts : ∀ fv ∈ bodysg.facts, fv.2.groundB = true ∧
          ∀ x ∈ LConsts fv.2, x ∈ ConstU w ps q := by
        intro fv hfv
        exact mem_FactU_elim (hbs.2.2.1 fv hfv).1
      cases hcr : collectResolved c bodysg.facts s.ctr with
      | none =>
        refine ⟨1, ?_, ?_⟩
        · show discoveredRuleF w 1 s sgTag c ≠ .out
          rw [discoveredRuleF_eq_crnone hb hf hcr]
          exact pres_halted_ne_out
        · intro s' h'
          have h2 : discoveredRuleF w 1 s sgTag c = .ok s' := h'
          rw [discoveredRuleF_eq_crnone hb hf hcr] at h2
          exact absurd h2 (by simp)
      | some p =>
        obtain ⟨rs, ctr2⟩ := p
        have hshape := collectResolved_shape hcOK bodysg.facts s.ctr rs
          ctr2 hfacts hcr
        have hrsOK : ∀ r ∈ rs, ClauseOK w ps q r :=
          fun r hr => (hshape r hr).1
        have hbmax : bMax rs + 1 ≤ c.body.length := by
          rcases rs with _ | ⟨r0, rs'⟩
          · have h0 : bMax [] = 0 := rfl
            omega
          · have h1 : ∀ r ∈ r0 :: rs', r.body.length ≤
                c.body.length - 1 := by
              intro r hr
              have := (hshape r hr).2
              omega
            have h2 := bMax_le h1
            omega
        have hphi1 : phi w ps q (⟨tableSet s.table b0.tag
            ⟨bodysg.target, bodysg.facts,
              bodysg.waiters ++ [⟨sgTag, c⟩]⟩, ctr2⟩ : QState) =
            phi w ps q s := phi_set_waiters hf ⟨sgTag, c⟩ ctr2
        have hbi1 : BInv w ps q ⟨tableSet s.table b0.tag
            ⟨bodysg.target, bodysg.facts,
              bodysg.waiters ++ [⟨sgTag, c⟩]⟩, ctr2⟩ :=
          binv_addWaiter hbi hf hcOK ctr2
        have hbound : phi w ps q (⟨tableSet s.table b0.tag
            ⟨bodysg.target, bodysg.facts,
              bodysg.waiters ++ [⟨sgTag, c⟩]⟩, ctr2⟩ : QState) *
            (3 * maxB w ps + 7) + (3 * bMax rs + 5) <
            phi w ps q s * (3 * maxB w ps + 7) +
            (3 * c.body.length + 3) := by
          rw [hphi1]
          exact Nat.add_lt_add_left (by omega) _
        have hterm := (ih _ hN).2.2.2.2.2.1 sgTag rs
        obtain ⟨n1, hn1, hp1⟩ := hterm _ hbi1 hrsOK hbound
        refine ⟨n1 + 1, ?_, ?_⟩
        · show discoveredRuleF w (n1 + 1) s sgTag c ≠ .out
          rw [discoveredRuleF_eq_found hb hf hcr]
          exact hn1
        · intro s' h'
          have h2 : rulesLoop w n1 ⟨tableSet s.table b0.tag
              ⟨bodysg.target, bodysg.facts,
                bodysg.waiters ++ [⟨sgTag, c⟩]⟩, ctr2⟩ sgTag rs =
              .ok s' := by
            rw [← discoveredRuleF_eq_found hb hf hcr]
            exact h'
          obtain ⟨hb', hφ'⟩ := hp1 s' h2
          rw [hphi1] at hφ'
          exact ⟨hb', hφ'⟩

theorem term_discoveredFactF (w : World) (ps : List Nat) (q : Literal)
    (N : Nat) (ih : ∀ M, M < N → TermStmt w ps q M) :
    ∀ sgTag fact s, BInv w ps q s →
      (fact.groundB = true → fact ∈ FactU w ps q) →
      phi w ps q s * (3 * maxB w ps + 7) < N →
      TermOK w ps q s (fun n => discoveredFactF w n s sgTag fact) := by
  intro sgTag fact s hbi hfact hN
  cases hf : tableFind s.table sgTag with
  | none =>
    refine ⟨1, ?_, ?_⟩
    · show discoveredFactF w 1 s sgTag fact ≠ .out
      rw [discoveredFactF_eq_nofind hf]
      exact pres_halted_ne_out
    · intro s' h'
      have h2 : discoveredFactF w 1 s sgTag fact = .ok s' := h'
      rw [discoveredFactF_eq_nofind hf] at h2
      exact absurd h2 (by simp)
  | some sg =>
    cases hid : fact.lID with
    | none =>
      refine ⟨1, ?_, ?_⟩
      · show discoveredFactF w 1 s sgTag fact ≠ .out
        rw [discoveredFactF_eq_noid hf hid]
        exact pres_halted_ne_out
      · intro s' h'
        have h2 : discoveredFactF w 1 s sgTag fact = .ok s' := h'
        rw [discoveredFactF_eq_noid hf hid] at h2
        exact absurd h2 (by simp)
    | some fid =>
      have hg : fact.groundB = true := lID_some_ground hid
      have hFU : fact ∈ FactU w ps q := hfact hg
      by_cases hdup : (sg.facts.any fun kv => kv.1 = fid) = true
      · refine ⟨1, ?_, ?_⟩
        · show discoveredFactF w 1 s sgTag fact ≠ .out
          rw [discoveredFactF_eq_dup hf hid hdup]
          exact pres_ok_ne_out s
        · intro s' h'
          have h2 : discoveredFactF w 1 s sgTag fact = .ok s' := h'
          rw [discoveredFactF_eq_dup hf hid hdup] at h2
          rw [← PRes.ok.inj h2]
          exact ⟨hbi, Nat.le_refl _⟩
      · have hbi1 := binv_addFact hbi hf hFU hid hdup s.ctr
        have hτ : sgTag ∈ TagU w ps q :=
          (hbi (sgTag, sg) (tableFind_some_mem hf)).1
        have hcap : sg.facts.length + 1 ≤ (FactU w ps q).length := by
          have h1 := binv_cap hbi1 (tableFind_set_self hf)
          have h2 : (⟨sg.target, sg.facts ++ [(fid, fact)],
              sg.waiters⟩ : Subgoal).facts.length =
              sg.facts.length + 1 := by
            show (sg.facts ++ [(fid, fact)]).length = sg.facts.length + 1
            rw [List.length_append]
            rfl
          omega
        have hphi1 := @phi_addFact w ps q s sgTag sg hf hτ fid fact
          hcap s.ctr
        have hwsOK : ∀ wt ∈ sg.waiters, ClauseOK w ps q wt.rule :=
          (hbi (sgTag, sg) (tableFind_some_mem hf)).2.2.2
        have hfc : ∀ x ∈ LConsts fact, x ∈ ConstU w ps q :=
          (mem_FactU_elim hFU).2
        have hwmax : wMax sg.waiters ≤ maxB w ps :=
          wMax_le (fun wt hwt => (hwsOK wt hwt).2.2.1)
        have h3 : phi w ps q s * (3 * maxB w ps + 7) =
            phi w ps q (⟨tableSet s.table sgTag
              ⟨sg.target, sg.facts ++ [(fid, fact)], sg.waiters⟩,
              s.ctr⟩ : QState) * (3 * maxB w ps + 7) +
              (3 * maxB w ps + 7) := by
          rw [← hphi1]
          ring
        have hbound : phi w ps q (⟨tableSet s.table sgTag
            ⟨sg.target, sg.facts ++ [(fid, fact)], sg.waiters⟩,
            s.ctr⟩ : QState) * (3 * maxB w ps + 7) +
            (3 * wMax sg.waiters + 5) <
            phi w ps q s * (3 * maxB w ps + 7) := by
          omega
        obtain ⟨n1, hn1, hp1⟩ := (ih _ hN).2.2.2.2.2.2 sg.waiters fact
          ⟨tableSet s.table sgTag ⟨sg.target,
            sg.facts ++ [(fid, fact)], sg.waiters⟩, s.ctr⟩ hbi1 hwsOK
          hg hfc hbound
        refine ⟨n1 + 1, ?_, ?_⟩
        · show discoveredFactF w (n1 + 1) s sgTag fact ≠ .out
          rw [discoveredFactF_eq_new hf hid hdup]
          exact hn1
        · intro s' h'
          have h2 : waitersLoop w n1 ⟨tableSet s.table sgTag
              ⟨sg.target, sg.facts ++ [(fid, fact)], sg.waiters⟩,
              s.ctr⟩ sg.waiters fact = .ok s' := by
            rw [← discoveredFactF_eq_new hf hid hdup]
            exact h'
          obtain ⟨hb', hφ'⟩ := hp1 s' h2
          refine ⟨hb', ?_⟩
          omega

theorem term_rulesLoop (w : World) (ps : List Nat) (q : Literal)
    (N : Nat) (ih : ∀ M, M < N → TermStmt w ps q M) :
    ∀ sgTag rs s, BInv w ps q s → (∀ r ∈ rs, ClauseOK w ps q r) →
      phi w ps q s * (3 * maxB w ps + 7) + (3 * bMax rs + 5) < N →
      TermOK w ps q s (fun n => rulesLoop w n s sgTag rs) := by
  intro sgTag rs
  induction rs with
  | nil =>
    intro s hbi hrs hN
    refine ⟨1, ?_, ?_⟩
    · show rulesLoop w 1 s sgTag [] ≠ .out
      exact pres_ok_ne_out s
    · intro s' h'
      have hss : PRes.ok s = PRes.ok s' := h'
      rw [← PRes.ok.inj hss]
      exact ⟨hbi, Nat.le_refl _⟩
  | cons r rest ihrest =>
    intro s hbi hrs hN
    have hrOK : ClauseOK w ps q r := hrs r (List.mem_cons_self r rest)
    have hrb : r.body.length ≤ bMax (r :: rest) :=
      le_bMax (List.mem_cons_self r rest)
    have hrest : ∀ r' ∈ rest, ClauseOK w ps q r' :=
      fun r' hr' => hrs r' (List.mem_cons_of_mem r hr')
    have hbmt := bMax_tail_le r rest
    obtain ⟨n1, hn1, hp1⟩ := (ih _ hN).2.2.1 sgTag r s hbi hrOK
      (by omega)
    cases hres : discoveredF w n1 s sgTag r with
    | out => exact absurd hres hn1
    | halted =>
      refine ⟨n1 + 1, ?_, ?_⟩
      · show rulesLoop w (n1 + 1) s sgTag (r :: rest) ≠ .out
        rw [rulesLoop_cons, hres]
        exact pres_halted_ne_out
      · intro s' h'
        have h2 : rulesLoop w (n1 + 1) s sgTag (r :: rest) =
          .ok s' := h'
        rw [rulesLoop_cons, hres] at h2
        exact absurd h2 (by simp)
    | ok s2 =>
      obtain ⟨hb2, hφ2⟩ := hp1 s2 hres
      have hN2 : phi w ps q s2 * (3 * maxB w ps + 7) +
          (3 * bMax rest + 5) < N := by
        have := Nat.mul_le_mul_right (3 * maxB w ps + 7) hφ2
        omega
      obtain ⟨n2, hn2, hp2⟩ := ihrest s2 hb2 hrest hN2
      have hres2 : discoveredF w (max n1 n2) s sgTag r = .ok s2 := by
        rw [(prover_mono w n1).2.2.1 (max n1 n2)
          (Nat.le_max_left n1 n2) _ _ _ (by
            rw [hres]; exact pres_ok_ne_out s2)]
        exact hres
      have hcont : rulesLoop w (max n1 n2) s2 sgTag rest =
          rulesLoop w n2 s2 sgTag rest :=
        (prover_mono w n2).2.2.2.2.2.1 (max n1 n2)
          (Nat.le_max_right n1 n2) _ _ _ hn2
      refine ⟨max n1 n2 + 1, ?_, ?_⟩
      · show rulesLoop w (max n1 n2 + 1) s sgTag (r :: rest) ≠ .out
        rw [rulesLoop_cons, hres2]
        show rulesLoop w (max n1 n2) s2 sgTag rest ≠ .out
        rw [hcont]
        exact hn2
      · intro s' h'
        have h2 : rulesLoop w (max n1 n2 + 1) s sgTag (r :: rest) =
          .ok s' := h'
        rw [rulesLoop_cons, hres2] at h2
        have h3 : rulesLoop w (max n1 n2) s2 sgTag rest = .ok s' := h2
        rw [hcont] at h3
        obtain ⟨hb', hφ'⟩ := hp2 s' h3
        exact ⟨hb', Nat.le_trans hφ' hφ2⟩

theorem term_waitersLoop (w : World) (ps : List Nat) (q : Literal)
    (N : Nat) (ih : ∀ M, M < N → TermStmt w ps q M) :
    ∀ ws fact s, BInv w ps q s → (∀ wt ∈ ws, ClauseOK w ps q wt.rule) →
      fact.groundB = true → (∀ x ∈ LConsts fact, x ∈ ConstU w ps q) →
      phi w ps q s * (3 * maxB w ps + 7) + (3 * wMax ws + 5) < N →
      TermOK w ps q s (fun n => waitersLoop w n s ws fact) := by
  intro ws fact
  induction ws with
  | nil =>
    intro s hbi hws hg hfc hN
    refine ⟨1, ?_, ?_⟩
    · show waitersLoop w 1 s [] fact ≠ .out
      exact pres_ok_ne_out s
    · intro s' h'
      have hss : PRes.ok s = PRes.ok s' := h'
      rw [← PRes.ok.inj hss]
      exact ⟨hbi, Nat.le_refl _⟩
  | cons wt rest ihrest =>
    intro s hbi hws hg hfc hN
    have hwtOK : ClauseOK w ps q wt.rule :=
      hws wt (List.mem_cons_self wt rest)
    have hwb : wt.rule.body.length ≤ wMax (wt :: rest) :=
      le_wMax (List.mem_cons_self wt rest)
    have hrest : ∀ wt' ∈ rest, ClauseOK w ps q wt'.rule :=
      fun wt' hw' => hws wt' (List.mem_cons_of_mem wt hw')
    have hwmt := wMax_tail_le wt rest
    cases hr : resolveC wt.rule fact s.ctr with
    | none =>
      refine ⟨1, ?_, ?_⟩
      · show waitersLoop w 1 s (wt :: rest) fact ≠ .out
        rw [waitersLoop_cons_resnone hr]
        exact pres_halted_ne_out
      · intro s' h'
        have h2 : waitersLoop w 1 s (wt :: rest) fact = .ok s' := h'
        rw [waitersLoop_cons_resnone hr] at h2
        exact absurd h2 (by simp)
    | some p =>
      obtain ⟨ro, ctr2⟩ := p
      cases ro with
      | none =>
        obtain ⟨n1, hn1, hp1⟩ := ihrest ⟨s.table, ctr2⟩ hbi hrest hg
          hfc (by
            have hphis : phi w ps q (⟨s.table, ctr2⟩ : QState) =
              phi w ps q s := rfl
            rw [hphis]
            omega)
        refine ⟨n1 + 1, ?_, ?_⟩
        · show waitersLoop w (n1 + 1) s (wt :: rest) fact ≠ .out
          rw [waitersLoop_cons_skip hr]
          exact hn1
        · intro s' h'
          have h2 : waitersLoop w n1 ⟨s.table, ctr2⟩ rest fact =
              .ok s' := by
            rw [← waitersLoop_cons_skip hr]
            exact h'
          exact hp1 s' h2
      | some r =>
        obtain ⟨hrOK, hrlen⟩ := resolveC_shape hwtOK hg hfc hr
        obtain ⟨n1, hn1, hp1⟩ := (ih _ hN).2.2.1 wt.sgTag r
          ⟨s.table, ctr2⟩ hbi hrOK (by
            have hphis : phi w ps q (⟨s.table, ctr2⟩ : QState) =
              phi w ps q s := rfl
            rw [hphis]
            omega)
        cases hres : discoveredF w n1 ⟨s.table, ctr2⟩ wt.sgTag r with
        | out => exact absurd hres hn1
        | halted =>
          refine ⟨n1 + 1, ?_, ?_⟩
          · show waitersLoop w (n1 + 1) s (wt :: rest) fact ≠ .out
            rw [waitersLoop_cons_disc hr, hres]
            exact pres_halted_ne_out
          · intro s' h'
            have h2 : waitersLoop w (n1 + 1) s (wt :: rest) fact =
              .ok s' := h'
            rw [waitersLoop_cons_disc hr, hres] at h2
            exact absurd h2 (by simp)
        | ok s2 =>
          obtain ⟨hb2, hφ2⟩ := hp1 s2 hres
          have hφ2x : phi w ps q s2 ≤ phi w ps q s := hφ2
          have hN2 : phi w ps q s2 * (3 * maxB w ps + 7) +
              (3 * wMax rest + 5) < N := by
            have := Nat.mul_le_mul_right (3 * maxB w ps + 7) hφ2x
            omega
          obtain ⟨n2, hn2, hp2⟩ := ihrest s2 hb2 hrest hg hfc hN2
          have hres2 : discoveredF w (max n1 n2) ⟨s.table, ctr2⟩
              wt.sgTag r = .ok s2 := by
            rw [(prover_mono w n1).2.2.1 (max n1 n2)
              (Nat.le_max_left n1 n2) _ _ _ (by
                rw [hres]; exact pres_ok_ne_out s2)]
            exact hres
          have hcont : waitersLoop w (max n1 n2) s2 rest fact =
              waitersLoop w n2 s2 rest fact :=
            (prover_mono w n2).2.2.2.2.2.2 (max n1 n2)
              (Nat.le_max_right n1 n2) _ _ _ hn2
          refine ⟨max n1 n2 + 1, ?_, ?_⟩
          · show waitersLoop w (max n1 n2 + 1) s (wt :: rest) fact ≠
              .out
            rw [waitersLoop_cons_disc hr, hres2]
            show waitersLoop w (max n1 n2) s2 rest fact ≠ .out
            rw [hcont]
            exact hn2
          · intro s' h'
            have h2 : waitersLoop w (max n1 n2 + 1) s (wt :: rest)
              fact = .ok s' := h'
            rw [waitersLoop_cons_disc hr, hres2] at h2
            have h3 : waitersLoop w (max n1 n2) s2 rest fact =
              .ok s' := h2
            rw [hcont] at h3
            obtain ⟨hb', hφ'⟩ := hp2 s' h3
            exact ⟨hb', Nat.le_trans hφ' hφ2x⟩

theorem prover_term (w : World) (ps : List Nat) (q : Literal)
    (hsupp : ∀ p, p ∉ ps → w.db p = []) :
    ∀ N : Nat, TermStmt w ps q N := by
  intro N
  induction N using Nat.strong_induction_on with
  | _ N ih =>
    exact ⟨term_searchF w ps q hsupp N ih,
      term_clauseLoop w ps q N ih,
      term_discoveredF w ps q N ih,
      term_discoveredRuleF w ps q N ih,
      term_discoveredFactF w ps q N ih,
      term_rulesLoop w ps q N ih,
      term_waitersLoop w ps q N ih⟩


/-- C2: for a finite database (support `ps`) of safe clauses over database
predicates and any query literal, the query halts: some fuel completes the
run with a normal answer list, and the result is stable under any larger
fuel.  The proof is the tabling argument of the specification: each subgoal
is created at most once per variant tag and each fact is recorded at most
once per subgoal per identity tag, which makes the table potential `phi`
strictly decrease on every table change, while waiter notification and
resolution strictly shorten the pending rule bodies in between. -/
theorem claim_C2 (w : World) (ps : List Nat)
    (hsupp : ∀ p, p ∉ ps → w.db p = []) (hw : WorldSafe w)
    (hdb : WorldAllDB w) (l : Literal) (ctr0 : Nat) :
    ∃ fuel ans, QueryF w fuel l ctr0 = .ok ans ∧
      ∀ m, fuel ≤ m → QueryF w m l ctr0 = .ok ans := by
  have hbi0 : BInv w ps l ⟨[], ctr0⟩ :=
    fun kv hkv => absurd hkv (List.not_mem_nil kv)
  have hnew : ¬ keyIn (([] : List (String × Subgoal))) l.tag := by
    intro hk
    obtain ⟨e, he, _⟩ := hk
    exact absurd he (List.not_mem_nil e)
  obtain ⟨n, hn, _⟩ := (prover_term w ps l hsupp
    (phi w ps l ⟨[], ctr0⟩ * (3 * maxB w ps + 7) + 1)).1 l []
    ⟨[], ctr0⟩ hbi0 (targetOK_query w ps l)
    (fun wt hwt => absurd hwt (List.not_mem_nil wt)) hnew
    (Nat.lt_succ_self _)
  have hM := (prover_master w hw hdb n).1 ⟨[], ctr0⟩ l []
    (fun kv hkv => absurd hkv (List.not_mem_nil kv))
    (fun wt hwt => absurd hwt (List.not_mem_nil wt))
  cases hres : searchF w n ⟨[], ctr0⟩ l [] with
  | out => exact absurd hres hn
  | halted => exact absurd hres hM.1
  | ok s =>
    obtain ⟨hsinv, hkeys⟩ := hM.2 s hres
    have hkey : keyIn s.table l.tag :=
      hkeys l.tag (keyIn_tableInsert_self [] l.tag ⟨l, [], []⟩)
    obtain ⟨sg, hsg⟩ : ∃ sg, tableFind s.table l.tag = some sg := by
      cases hf : tableFind s.table l.tag with
      | none => exact absurd hkey (tableFind_none_iff.mp hf)
      | some sg => exact ⟨sg, rfl⟩
    have hq : QueryF w n l ctr0 = .ok (sg.facts.map Prod.snd) := by
      unfold QueryF
      rw [hres]
      show (match tableFind s.table l.tag with
            | none => PRes.halted
            | some sg => PRes.ok (sg.facts.map Prod.snd)) =
          PRes.ok (sg.facts.map Prod.snd)
      rw [hsg]
    refine ⟨n, sg.facts.map Prod.snd, hq, ?_⟩
    intro m hm
    have hstable : searchF w m ⟨[], ctr0⟩ l [] =
        searchF w n ⟨[], ctr0⟩ l [] :=
      (prover_mono w n).1 m hm ⟨[], ctr0⟩ l [] hn
    unfold QueryF
    rw [hstable, hres]
    show (match tableFind s.table l.tag with
          | none => PRes.halted
          | some sg => PRes.ok (sg.facts.map Prod.snd)) =
        PRes.ok (sg.facts.map Prod.snd)
    rw [hsg]

/-- C2 witness: the empty all-database world is finitely supported and
safe, and a query on it halts with an answer. -/
theorem claim_C2_witness :
    (∀ p, p ∉ ([] : List Nat) →
      (⟨fun _ => true, fun _ => []⟩ : World).db p = []) ∧
    WorldSafe ⟨fun _ => true, fun _ => []⟩ ∧
    WorldAllDB ⟨fun _ => true, fun _ => []⟩ ∧
    ∃ fuel ans, QueryF ⟨fun _ => true, fun _ => []⟩ fuel
      ⟨⟨1, 1⟩, [Term.var 0]⟩ 0 = .ok ans := by
  have hsupp : ∀ p, p ∉ ([] : List Nat) →
      (⟨fun _ => true, fun _ => []⟩ : World).db p = [] := fun p _ => rfl
  have hw : WorldSafe ⟨fun _ => true, fun _ => []⟩ :=
    fun p c hc => absurd hc (List.not_mem_nil c)
  have hdb : WorldAllDB ⟨fun _ => true, fun _ => []⟩ := fun p => rfl
  refine ⟨hsupp, hw, hdb, ?_⟩
  obtain ⟨fuel, ans, h1, _⟩ := claim_C2 ⟨fun _ => true, fun _ => []⟩ []
    hsupp hw hdb ⟨⟨1, 1⟩, [Term.var 0]⟩ 0
  exact ⟨fuel, ans, h1⟩

end Dlog
